import Mathlib

/-!
# gostruct: a verification development

A shallow embedding of `gostruct.go` (`putBytes`, `getBytes`, `atoi`, `packarg`,
`argbytes`, `Pack`, `Unpack`) together with theorems about it.

Modelling conventions.

* A byte is a natural number below 256; Go strings (format strings, string
  arguments) and byte slices are lists of bytes.  Character constants are written
  as their ASCII codes, with the character in a comment.
* Go `int` is the 64-bit signed integer: `wrapInt` reduces a mathematical integer
  into that range wherever the source multiplies or adds counts.
* A Go slice has a length and a capacity.  `Pack` only ever touches the elements
  below the length, so it works on the list of those elements.  `Unpack` slices
  the buffer up to its capacity, so it also receives `spare`, the elements of the
  backing array between length and capacity.
* `interface{}` arguments are values of the tagged type `Value`.
* A run of a function either returns, panics (index out of range, slice bounds
  out of range, failed type assertion), or exhausts the fuel of the outer loop;
  `Pack` and `Unpack` supply fuel equal to the length of the format, one unit
  per iteration of the `for i` loop.
-/

namespace Gostruct

/-- Outcome of running a Go function. -/
inductive Run (α : Type) where
  | ret (a : α)
  | panic
  | timeout
  deriving DecidableEq, Repr

/-- Dynamic values passed as `interface{}`: the Go types the codec knows, and
`other` for a value of any other dynamic type (for instance an untyped `int`). -/
inductive Value where
  | int8 (v : Int)
  | uint8 (v : Nat)
  | bool (b : Bool)
  | int16 (v : Int)
  | uint16 (v : Nat)
  | int32 (v : Int)
  | uint32 (v : Nat)
  | int64 (v : Int)
  | uint64 (v : Nat)
  | float32 (bits : Nat)
  | float64 (bits : Nat)
  | string (s : List Nat)
  | other (tag : Nat)
  deriving DecidableEq, Repr

/-- Reduction of a mathematical integer to the 64-bit signed `int`. -/
def wrapInt (x : Int) : Int := (x + 2 ^ 63) % 2 ^ 64 - 2 ^ 63

/-- Conversion of an unsigned machine word to the signed integer type of `bits`
bits (`int8(x)`, `int16(x)`, ...): keep the low bits, read as two's complement. -/
def toSigned (bits : Nat) (x : Nat) : Int :=
  if x % 2 ^ bits < 2 ^ (bits - 1) then ((x % 2 ^ bits : Nat) : Int)
  else ((x % 2 ^ bits : Nat) : Int) - 2 ^ bits

/-- Conversion `uint64(v)` of a signed integer. -/
def toUint64 (v : Int) : Nat := (v % 2 ^ 64).toNat

/-- The loop of `putBytes`; `k` iterations remain and `i` is the loop index. -/
def putBytesFrom (isLE : Bool) (nbytes : Nat) : Nat → Nat → List Nat → Nat → Run (List Nat)
  | 0, _, buf, _ => .ret buf
  | k + 1, i, buf, val =>
    if isLE then
      if i < buf.length then putBytesFrom isLE nbytes k (i + 1) (buf.set i (val % 256)) (val / 256)
      else .panic
    else
      if i + 1 ≤ nbytes ∧ nbytes - i - 1 < buf.length then
        putBytesFrom isLE nbytes k (i + 1) (buf.set (nbytes - i - 1) (val % 256)) (val / 256)
      else .panic

/-- `putBytes(buf, val, isLE, nbytes)`: the buffer after the call. -/
def putBytes (buf : List Nat) (val : Nat) (isLE : Bool) (nbytes : Nat) : Run (List Nat) :=
  putBytesFrom isLE nbytes nbytes 0 buf val

/-- The loop of `getBytes`; `k` iterations remain and `i` is the loop index. -/
def getBytesFrom (buf : List Nat) (isLE : Bool) (nbytes : Nat) : Nat → Nat → Nat → Run Nat
  | 0, _, v => .ret v
  | k + 1, i, v =>
    let v := v * 256 % 2 ^ 64
    if isLE then
      if i + 1 ≤ nbytes then
        match buf[nbytes - i - 1]? with
        | some b => getBytesFrom buf isLE nbytes k (i + 1) (v ||| b)
        | none => .panic
      else .panic
    else
      match buf[i]? with
      | some b => getBytesFrom buf isLE nbytes k (i + 1) (v ||| b)
      | none => .panic

/-- `getBytes(buf, isLE, nbytes)`. -/
def getBytes (buf : List Nat) (isLE : Bool) (nbytes : Nat) : Run Nat :=
  getBytesFrom buf isLE nbytes nbytes 0 0

/-- The loop of `atoi`: `rv` is the value so far and `i` the number of digits read. -/
def atoiFrom : List Nat → Int → Nat → Int × Nat
  | [], rv, i => (rv, i)
  | c :: s, rv, i =>
    -- '0' = 48, '9' = 57
    if c < 48 ∨ c > 57 then (rv, i)
    else atoiFrom s (wrapInt (wrapInt (rv * 10) + ((c - 48 : Nat) : Int))) (i + 1)

/-- `atoi(s)`: the value of the leading decimal digits and how many there are. -/
def atoi (s : List Nat) : Int × Nat := atoiFrom s 0 0

/-- The text of the error that `packarg` and `Unpack` build for a byte they do not know:
`"unknown format type " + string(vfmt)`. -/
def unknownFormat (vfmt : Nat) : String :=
  "unknown format type " ++ String.singleton (Char.ofNat vfmt)

/-- The assignment `buf[0] = b`. -/
def setFirst (buf : List Nat) (b : Nat) : Run (List Nat) :=
  match buf with
  | [] => .panic
  | _ :: t => .ret (b :: t)

/-- Wraps the buffer left by a store into the result `(rv, nil)` of `packarg`. -/
def packed (r : Run (List Nat)) (rv : Nat) : Run (List Nat × Nat × Option String) :=
  match r with
  | .ret buf => .ret (buf, rv, none)
  | .panic => .panic
  | .timeout => .timeout

/-- `packarg(buf, vfmt, arg, encLE)`: the buffer after the call, the number of bytes
written and the error. -/
def packarg (buf : List Nat) (vfmt : Nat) (arg : Value) (encLE : Bool) :
    Run (List Nat × Nat × Option String) :=
  match vfmt with
  | 98 => -- 'b'
    match arg with
    | .int8 v => packed (setFirst buf (v % 256).toNat) 1
    | _ => .panic
  | 66 => -- 'B'
    match arg with
    | .uint8 v => packed (setFirst buf (v % 256)) 1
    | _ => .panic
  | 63 => -- '?'
    match arg with
    | .bool x => packed (setFirst buf (if x = true then 1 else 0)) 1
    | _ => .panic
  | 104 => -- 'h'
    match arg with
    | .int16 v => packed (putBytes buf (toUint64 v) encLE 2) 2
    | _ => .panic
  | 72 => -- 'H'
    match arg with
    | .uint16 v => packed (putBytes buf (v % 2 ^ 64) encLE 2) 2
    | _ => .panic
  | 105 | 108 => -- 'i', 'l'
    match arg with
    | .int32 v => packed (putBytes buf (toUint64 v) encLE 4) 4
    | _ => .panic
  | 73 | 76 => -- 'I', 'L'
    match arg with
    | .uint32 v => packed (putBytes buf (v % 2 ^ 64) encLE 4) 4
    | _ => .panic
  | 113 => -- 'q'
    match arg with
    | .int64 v => packed (putBytes buf (toUint64 v) encLE 8) 8
    | _ => .panic
  | 81 => -- 'Q'
    match arg with
    | .uint64 v => packed (putBytes buf (v % 2 ^ 64) encLE 8) 8
    | _ => .panic
  | 102 => -- 'f'
    match arg with
    | .float32 xf => packed (putBytes buf (xf % 2 ^ 64) encLE 4) 4
    | _ => .panic
  | 100 => -- 'd'
    match arg with
    | .float64 xf => packed (putBytes buf (xf % 2 ^ 64) encLE 8) 8
    | _ => .panic
  | _ => .ret (buf, 0, some (unknownFormat vfmt))

/-- `argbytes(fmtbyte, count)`. -/
def argbytes (fmtbyte : Nat) (count : Int) : Int :=
  match fmtbyte with
  | 120 | 99 | 98 | 66 | 63 => wrapInt (1 * count) -- 'x', 'c', 'b', 'B', '?'
  | 104 | 72 => wrapInt (2 * count) -- 'h', 'H'
  | 105 | 108 | 73 | 76 | 102 => wrapInt (4 * count) -- 'i', 'l', 'I', 'L', 'f'
  | 113 | 81 | 100 => wrapInt (8 * count) -- 'q', 'Q', 'd'
  | 115 | 112 => count -- 's', 'p'
  | _ => wrapInt (0 * count)

/-- The text of the bounds error. -/
def insufficient : String := "insufficient buf space for fmt"

/-- The text of the error of an oversized Pascal string. -/
def pascalTooLarge : String := "Pascal string output space cannot be larger than 256 bytes"

/-- `n := copy(buf[lo:hi], src)` for `lo ≤ hi ≤ len(buf)`: the buffer afterwards and `n`. -/
def copyAt (buf : List Nat) (lo hi : Nat) (src : List Nat) : List Nat × Nat :=
  let n := min (hi - lo) src.length
  (buf.take lo ++ src.take n ++ buf.drop (lo + n), n)

/-- The loop `for ; n < count; n++ { buf[base+n] = 0 }`, with `k` iterations remaining. -/
def zeroFill (base : Nat) : Nat → Nat → List Nat → Run (List Nat)
  | 0, _, buf => .ret buf
  | k + 1, n, buf =>
    if base + n < buf.length then zeroFill base k (n + 1) (buf.set (base + n) 0)
    else .panic

/-- The local variables of `Pack` that live across iterations, and the buffer. -/
structure PackState where
  buf : List Nat
  boff : Nat
  narg : Nat
  encLE : Bool
  deriving DecidableEq, Repr

/-- What a step of a loop does next: go on with the state, or return from the function. -/
abbrev PackStep := Run (PackState × Option String)

/-- The per-item loop of `Pack` (`for ; count > 0; count--`), with `count` iterations
remaining.  The second component of the result is the error returned from inside the
loop, `none` when the loop ran to its end. -/
def packItems (fmtbyte : Nat) (args : List Value) : Nat → PackState → PackStep
  | 0, st => .ret (st, none)
  | count + 1, st =>
    if fmtbyte = 120 then -- 'x'
      if st.boff < st.buf.length then
        packItems fmtbyte args count
          { st with buf := st.buf.set st.boff 0, boff := st.boff + 1 }
      else .panic
    else
      -- buf[boff:] and args[narg] are evaluated before the call
      if st.boff ≤ st.buf.length then
        match args[st.narg]? with
        | none => .panic
        | some arg =>
          match packarg (st.buf.drop st.boff) fmtbyte arg st.encLE with
          | .ret (sub, argbytes, none) =>
            packItems fmtbyte args count
              { st with buf := st.buf.take st.boff ++ sub, boff := st.boff + argbytes,
                        narg := st.narg + 1 }
          | .ret (sub, _, some err) =>
            .ret ({ st with buf := st.buf.take st.boff ++ sub }, some err)
          | .panic => .panic
          | .timeout => .timeout
      else .panic

/-- The body of the `for i` loop of `Pack` from `n := argbytes(fmtbyte, count)` on.
The second component of the result is `none` when the iteration ends normally
(`continue` or the end of the body) and the returned error otherwise. -/
def packDirective (nativeIsLE : Bool) (args : List Value) (fmtbyte : Nat) (count : Int)
    (st : PackState) : PackStep :=
  let n := argbytes fmtbyte count
  if (st.buf.length : Int) - st.boff < n then .ret (st, some insufficient)
  else
    match fmtbyte with
    | 32 | 9 | 13 | 10 => .ret (st, none) -- ' ', '\t', '\r', '\n'
    | 60 => .ret ({ st with encLE := true }, none) -- '<'
    | 62 | 33 => .ret ({ st with encLE := false }, none) -- '>', '!'
    | 61 => .ret ({ st with encLE := nativeIsLE }, none) -- '='
    | 115 => -- 's'
      -- buf[boff:boff+count]
      if 0 ≤ count ∧ (st.boff : Int) + count ≤ st.buf.length then
        match args[st.narg]? with
        | some (.string s) =>
          let (buf, n) := copyAt st.buf st.boff (st.boff + count.toNat) s
          match zeroFill st.boff (count.toNat - n) n buf with
          | .ret buf =>
            .ret ({ st with buf := buf, boff := st.boff + count.toNat, narg := st.narg + 1 }, none)
          | .panic => .panic
          | .timeout => .timeout
        | _ => .panic
      else .panic
    | 112 => -- 'p'
      if count > 256 then .ret (st, some pascalTooLarge)
      else if st.boff < st.buf.length then
        let buf := st.buf.set st.boff ((count - 1) % 256).toNat
        -- buf[boff+1:boff+count]
        if 1 ≤ count ∧ (st.boff : Int) + count ≤ buf.length then
          match args[st.narg]? with
          | some (.string s) =>
            let (buf, n) := copyAt buf (st.boff + 1) (st.boff + count.toNat) s
            match zeroFill (st.boff + 1) (count.toNat - 1 - n) n buf with
            | .ret buf =>
              .ret ({ st with buf := buf, boff := st.boff + count.toNat, narg := st.narg + 1 },
                none)
            | .panic => .panic
            | .timeout => .timeout
          | _ => .panic
        else .panic
      else .panic
    | _ => packItems fmtbyte args count.toNat st

/-- The `for i` loop of `Pack`; `fmt` is `fmt[i:]`. -/
def packLoop (nativeIsLE : Bool) (args : List Value) : Nat → List Nat → PackState → PackStep
  | _, [], st => .ret (st, none)
  | 0, _ :: _, _ => .timeout
  | fuel + 1, c :: cs, st =>
    let (count, ncountb) := atoi (c :: cs)
    -- read (and skip) count if it exists
    let count : Run Int :=
      if ncountb = 0 then
        if c = 112 then -- 'p'
          match args[st.narg]? with
          | some (.string s) => .ret ((s.length : Int) + 1)
          | _ => .panic
        else .ret 1
      else .ret count
    match count with
    | .ret count =>
      match (c :: cs)[ncountb]? with
      | none => .panic
      | some fmtbyte =>
        match packDirective nativeIsLE args fmtbyte count st with
        | .ret (st, none) => packLoop nativeIsLE args fuel ((c :: cs).drop (ncountb + 1)) st
        | r => r
    | .panic => .panic
    | .timeout => .timeout

/-- `Pack(fmt, buf, args...)`: the buffer after the call and the returned error
(`none` for `nil`). -/
def Pack (nativeIsLE : Bool) (fmt : List Nat) (buf : List Nat) (args : List Value) :
    Run (List Nat × Option String) :=
  match packLoop nativeIsLE args fmt.length fmt ⟨buf, 0, 0, nativeIsLE⟩ with
  | .ret (st, err) => .ret (st.buf, err)
  | .panic => .panic
  | .timeout => .timeout

/-- `bytes.Trim(b, "\x00")`: the slice without its leading and trailing NUL bytes. -/
def trimNul (b : List Nat) : List Nat :=
  ((b.dropWhile (fun c => c = 0)).reverse.dropWhile (fun c => c = 0)).reverse

/-- The local variables of `Unpack` that live across iterations. -/
structure UnpackState where
  boff : Nat
  decLE : Bool
  args : List Value
  deriving DecidableEq, Repr

/-- What a step of `Unpack` does next: go on with the state, or return the values
(`none` for a nil slice) and an error. -/
inductive UnpackStep where
  | next (st : UnpackState)
  | done (vals : Option (List Value)) (err : String)
  deriving DecidableEq, Repr

/-- Appends the value decoded from `getBytes(buf[boff:], decLE, nbytes)` and advances. -/
def unpackWord (buf : List Nat) (st : UnpackState) (nbytes : Nat) (conv : Nat → Value) :
    Run UnpackState :=
  -- buf[boff:]
  if st.boff ≤ buf.length then
    match getBytes (buf.drop st.boff) st.decLE nbytes with
    | .ret v => .ret { st with args := st.args ++ [conv v], boff := st.boff + nbytes }
    | .panic => .panic
    | .timeout => .timeout
  else .panic

/-- Appends the value decoded from `buf[boff]` and advances. -/
def unpackByte (buf : List Nat) (st : UnpackState) (conv : Nat → Value) : Run UnpackState :=
  match buf[st.boff]? with
  | some b => .ret { st with args := st.args ++ [conv b], boff := st.boff + 1 }
  | none => .panic

/-- One iteration of the per-item loop of `Unpack`: the state after it, or `none` for the
`default` branch. -/
def unpackItem (fmtbyte : Nat) (buf : List Nat) (st : UnpackState) : Option (Run UnpackState) :=
  match fmtbyte with
  | 120 => some (.ret { st with boff := st.boff + 1 }) -- 'x'
  | 98 => some (unpackByte buf st (fun b => .int8 (toSigned 8 b))) -- 'b'
  | 66 => some (unpackByte buf st (fun b => .uint8 b)) -- 'B'
  | 63 => some (unpackByte buf st (fun b => .bool (decide (b = 1)))) -- '?'
  | 104 => some (unpackWord buf st 2 (fun v => .int16 (toSigned 16 v))) -- 'h'
  | 72 => some (unpackWord buf st 2 (fun v => .uint16 (v % 2 ^ 16))) -- 'H'
  | 105 | 108 => some (unpackWord buf st 4 (fun v => .int32 (toSigned 32 v))) -- 'i', 'l'
  | 73 | 76 => some (unpackWord buf st 4 (fun v => .uint32 (v % 2 ^ 32))) -- 'I', 'L'
  | 113 => some (unpackWord buf st 8 (fun v => .int64 (toSigned 64 v))) -- 'q'
  | 81 => some (unpackWord buf st 8 (fun v => .uint64 (v % 2 ^ 64))) -- 'Q'
  | 102 => some (unpackWord buf st 4 (fun v => .float32 (v % 2 ^ 32))) -- 'f'
  | 100 => some (unpackWord buf st 8 (fun v => .float64 v)) -- 'd'
  | _ => none

/-- The per-item loop of `Unpack` (`for ; count > 0; count--`), with `count` iterations
remaining. -/
def unpackItems (fmtbyte : Nat) (buf : List Nat) : Nat → UnpackState → Run UnpackStep
  | 0, st => .ret (.next st)
  | count + 1, st =>
    match unpackItem fmtbyte buf st with
    | some (.ret st) => unpackItems fmtbyte buf count st
    | some .panic => .panic
    | some .timeout => .timeout
    | none => .ret (.done (some st.args) (unknownFormat fmtbyte))

/-- The body of the `for i` loop of `Unpack` from `n := argbytes(fmtbyte, count)` on.
`spare` holds the elements of the backing array between `len(buf)` and `cap(buf)`. -/
def unpackDirective (nativeIsLE : Bool) (buf spare : List Nat) (fmtbyte : Nat) (count : Int)
    (st : UnpackState) : Run UnpackStep :=
  let n := argbytes fmtbyte count
  if (buf.length : Int) - st.boff < n then .ret (.done none insufficient)
  else
    match fmtbyte with
    | 32 | 9 | 13 | 10 => .ret (.next st) -- ' ', '\t', '\r', '\n'
    | 60 => .ret (.next { st with decLE := true }) -- '<'
    | 62 | 33 => .ret (.next { st with decLE := false }) -- '>', '!'
    | 61 => .ret (.next { st with decLE := nativeIsLE }) -- '='
    | 115 => -- 's'
      -- buf[boff:boff+count], bounded by the capacity
      if 0 ≤ count ∧ (st.boff : Int) + count ≤ (buf.length + spare.length : Nat) then
        .ret (.next { st with
          args := st.args ++ [.string (trimNul (((buf ++ spare).drop st.boff).take count.toNat))],
          boff := st.boff + count.toNat })
      else .panic
    | 112 => -- 'p'
      match buf[st.boff]? with
      | none => .panic
      | some nb =>
        let boff := st.boff + 1
        -- buf[boff:boff+nb], bounded by the capacity
        if boff + nb ≤ buf.length + spare.length then
          .ret (.next { st with
            args := st.args ++ [.string (trimNul (((buf ++ spare).drop boff).take nb))],
            boff := boff + nb })
        else .panic
    | _ => unpackItems fmtbyte buf count.toNat st

/-- The `for i` loop of `Unpack`; `fmt` is `fmt[i:]`. -/
def unpackLoop (nativeIsLE : Bool) (buf spare : List Nat) :
    Nat → List Nat → UnpackState → Run UnpackStep
  | _, [], st => .ret (.next st)
  | 0, _ :: _, _ => .timeout
  | fuel + 1, c :: cs, st =>
    let (count, ncountb) := atoi (c :: cs)
    -- read (and skip) count if it exists
    let count : Int :=
      if ncountb = 0 then
        if c = 112 then -- 'p'
          if (buf.length : Int) - st.boff ≥ 1 then ((buf.getD st.boff 0 : Nat) : Int) + 1
          else count
        else 1
      else count
    match (c :: cs)[ncountb]? with
    | none => .panic
    | some fmtbyte =>
      match unpackDirective nativeIsLE buf spare fmtbyte count st with
      | .ret (.next st) => unpackLoop nativeIsLE buf spare fuel ((c :: cs).drop (ncountb + 1)) st
      | r => r

/-- `Unpack(fmt, buf)`: the returned values (`none` for a nil slice) and the returned
error (`none` for `nil`).  `spare` holds the elements of the backing array between
`len(buf)` and `cap(buf)`. -/
def Unpack (nativeIsLE : Bool) (fmt : List Nat) (buf spare : List Nat) :
    Run (Option (List Value) × Option String) :=
  match unpackLoop nativeIsLE buf spare fmt.length fmt ⟨0, nativeIsLE, []⟩ with
  | .ret (.next st) => .ret (some st.args, none)
  | .ret (.done vals err) => .ret (vals, some err)
  | .panic => .panic
  | .timeout => .timeout

/-- The bytes of an ASCII text. -/
def ascii (s : String) : List Nat := s.toList.map Char.toNat

/-! ## Definitions used to state the theorems -/

/-- A decimal digit character. -/
def IsDigit (c : Nat) : Prop := 48 ≤ c ∧ c ≤ 57

instance (c : Nat) : Decidable (IsDigit c) := by unfold IsDigit; infer_instance

/-- The number denoted by a string of decimal digits read after the value `acc`. -/
def digitsFrom (acc : Nat) (ds : List Nat) : Nat :=
  ds.foldl (fun a d => a * 10 + (d - 48)) acc

/-- The number denoted by a string of decimal digits. -/
def digitsVal (ds : List Nat) : Nat := digitsFrom 0 ds

/-- The count that `atoi` reads from a string of digits (wrapped to `int`). -/
def atoiVal (ds : List Nat) : Int := (atoi ds).1

/-- The `for i` loop of `Pack` on the rest `fmt` of the format. -/
def packRun (nativeIsLE : Bool) (args : List Value) (fmt : List Nat) (st : PackState) : PackStep :=
  packLoop nativeIsLE args fmt.length fmt st

/-- The `for i` loop of `Unpack` on the rest `fmt` of the format. -/
def unpackRun (nativeIsLE : Bool) (buf spare : List Nat) (fmt : List Nat) (st : UnpackState) :
    Run UnpackStep :=
  unpackLoop nativeIsLE buf spare fmt.length fmt st

/-- The count that `Pack` gives to the directive `c` written after the digits `ds`. -/
def packCount (args : List Value) (st : PackState) (ds : List Nat) (c : Nat) : Run Int :=
  if ds = [] then
    if c = 112 then
      match args[st.narg]? with
      | some (.string s) => .ret ((s.length : Int) + 1)
      | _ => .panic
    else .ret 1
  else .ret (atoiVal ds)

/-- The count that `Unpack` gives to the directive `c` written after the digits `ds`. -/
def unpackCount (buf : List Nat) (st : UnpackState) (ds : List Nat) (c : Nat) : Int :=
  if ds = [] then
    if c = 112 then
      if (buf.length : Int) - st.boff ≥ 1 then ((buf.getD st.boff 0 : Nat) : Int) + 1 else 0
    else 1
  else atoiVal ds


/-- The whitespace characters of a format: space, tab, CR, LF. -/
def whitespaceChars : List Nat := [32, 9, 13, 10]

/-- The byte-order characters of a format: `<`, `>`, `!`, `=`. -/
def orderChars : List Nat := [60, 62, 33, 61]

/-- The characters of the directive table:
`x c b B ? h H i l I L q Q f d s p`. -/
def tableChars : List Nat :=
  [120, 99, 98, 66, 63, 104, 72, 105, 108, 73, 76, 113, 81, 102, 100, 115, 112]

/-- A character that is no digit, no whitespace, no byte-order character and not in the
directive table. -/
def IsUnknown (ch : Nat) : Prop :=
  ¬ IsDigit ch ∧ ch ∉ whitespaceChars ∧ ch ∉ orderChars ∧ ch ∉ tableChars

instance (ch : Nat) : Decidable (IsUnknown ch) := by unfold IsUnknown; infer_instance

/-- Byte `j` of the `nbytes`-byte encoding of `val` in the given byte order. -/
def byteAt (val : Nat) (isLE : Bool) (nbytes j : Nat) : Nat :=
  if isLE then val / 256 ^ j % 256 else val / 256 ^ (nbytes - 1 - j) % 256

/-- The directives that carry one value per item:
`b B ? h H i l I L q Q f d`. -/
def valueChars : List Nat := [98, 66, 63, 104, 72, 105, 108, 73, 76, 113, 81, 102, 100]

/-- The directives of the per-item loop: the pad byte `x` and the value directives. -/
def scalarChars : List Nat := 120 :: valueChars

/-- The width in bytes that the directive table gives to one unit of the count of a
directive (one byte per unit for the strings `s` and `p`); 0 for other characters. -/
def width (c : Nat) : Nat :=
  match c with
  | 120 | 99 | 98 | 66 | 63 => 1 -- 'x', 'c', 'b', 'B', '?'
  | 104 | 72 => 2 -- 'h', 'H'
  | 105 | 108 | 73 | 76 | 102 => 4 -- 'i', 'l', 'I', 'L', 'f'
  | 113 | 81 | 100 => 8 -- 'q', 'Q', 'd'
  | 115 | 112 => 1 -- 's', 'p'
  | _ => 0

/-- The value `v` has the Go type that the directive `c` asks for (and lies in the range
of that type). -/
def hasType (c : Nat) (v : Value) : Bool :=
  match c, v with
  | 98, .int8 v => decide (-128 ≤ v ∧ v < 128)
  | 66, .uint8 v => decide (v < 256)
  | 63, .bool _ => true
  | 104, .int16 v => decide (-2 ^ 15 ≤ v ∧ v < 2 ^ 15)
  | 72, .uint16 v => decide (v < 2 ^ 16)
  | 105, .int32 v => decide (-2 ^ 31 ≤ v ∧ v < 2 ^ 31)
  | 108, .int32 v => decide (-2 ^ 31 ≤ v ∧ v < 2 ^ 31)
  | 73, .uint32 v => decide (v < 2 ^ 32)
  | 76, .uint32 v => decide (v < 2 ^ 32)
  | 113, .int64 v => decide (-2 ^ 63 ≤ v ∧ v < 2 ^ 63)
  | 81, .uint64 v => decide (v < 2 ^ 64)
  | 102, .float32 bits => decide (bits < 2 ^ 32)
  | 100, .float64 bits => decide (bits < 2 ^ 64)
  | _, _ => false

/-- The byte order in force after the directive `c`. -/
def orderAfter (nativeIsLE : Bool) (c : Nat) (cur : Bool) : Bool :=
  match c with
  | 60 => true -- '<'
  | 62 | 33 => false -- '>', '!'
  | 61 => nativeIsLE -- '='
  | _ => cur

/-- A directive of a format string: the digits of its repeat count (none when the count
is absent) and its character. -/
structure Directive where
  digits : List Nat
  char : Nat
  deriving DecidableEq, Repr

/-- The repeat count of a directive: 1 when absent. -/
def Directive.count (d : Directive) : Nat := if d.digits = [] then 1 else digitsVal d.digits

/-- The bytes that a directive spans in the buffer (none for whitespace and byte order). -/
def Directive.span (d : Directive) : Nat := width d.char * d.count

/-- The number of values that a scalar directive takes on `Pack` and yields on `Unpack`. -/
def Directive.nvals (d : Directive) : Nat := if d.char ∈ valueChars then d.count else 0

/-- The text of a format made of the given directives. -/
def formatText : List Directive → List Nat
  | [] => []
  | d :: ds => d.digits ++ d.char :: formatText ds

/-- The total byte span of a format. -/
def formatSpan : List Directive → Nat
  | [] => 0
  | d :: ds => d.span + formatSpan ds

/-- The argument list supplies, in order, exactly the values that the directives take,
each of the type of its directive. -/
def typed : List Directive → List Value → Bool
  | [], vs => vs.isEmpty
  | d :: ds, vs =>
    decide ((vs.take d.nvals).length = d.nvals) && (vs.take d.nvals).all (hasType d.char)
      && typed ds (vs.drop d.nvals)

/-- The digits of the directive are decimal digits and its character is a whitespace,
byte-order or scalar character. -/
def Directive.plain (d : Directive) : Prop :=
  (∀ x ∈ d.digits, IsDigit x) ∧ d.char ∈ whitespaceChars ++ orderChars ++ scalarChars

instance (d : Directive) : Decidable d.plain := by unfold Directive.plain; infer_instance

/-- The pad, integer and boolean directives: `x b B ? h H i l I L q Q`. -/
def intChars : List Nat := [120, 98, 66, 63, 104, 72, 105, 108, 73, 76, 113, 81]

/-- A format built from byte-order characters and pad, integer and boolean directives,
each with an optional decimal repeat count. -/
def IntFormat (ds : List Directive) : Prop :=
  ∀ d ∈ ds, (∀ x ∈ d.digits, IsDigit x) ∧ d.char ∈ orderChars ++ intChars

instance (ds : List Directive) : Decidable (IntFormat ds) := by
  unfold IntFormat; infer_instance

/-- The `count` bytes of a fixed-length string field: the bytes of `s`, cut to `count`
bytes and padded with zero bytes. -/
def fixedString (s : List Nat) (count : Nat) : List Nat :=
  s.take count ++ List.replicate (count - s.length) 0

/-- The argument list is well typed for `k` items of the directive `c`: nothing is asked
for the pad byte, a string comes first for `s`, and `k` values of the type of the
directive come first for a value directive. -/
def wellTyped (c k : Nat) (args : List Value) : Bool :=
  if c = 120 then true
  else if c = 115 then
    match args with
    | .string _ :: _ => true
    | _ => false
  else decide (k ≤ args.length) && (args.take k).all (hasType c)

/-- The format ends in a decimal digit. -/
def EndsInDigit (f : List Nat) : Prop := ∃ c ∈ f.getLast?, IsDigit c

instance (f : List Nat) : Decidable (EndsInDigit f) := by unfold EndsInDigit; infer_instance

/-- A directive other than `p` whose count, when written, is a decimal numeral with a
value below 2^60. -/
def Directive.bounded (d : Directive) : Prop :=
  (∀ x ∈ d.digits, IsDigit x) ∧ ¬ IsDigit d.char ∧ d.char ≠ 112 ∧ digitsVal d.digits < 2 ^ 60

instance (d : Directive) : Decidable d.bounded := by unfold Directive.bounded; infer_instance

/-! ## Decimal counts -/

theorem wrapInt_of_bounds {x : Int} (h1 : -2 ^ 63 ≤ x) (h2 : x < 2 ^ 63) : wrapInt x = x := by
  unfold wrapInt; omega

theorem wrapInt_zero_mul (x : Int) : wrapInt (0 * x) = 0 := by
  simp [wrapInt]

theorem le_digitsFrom (acc : Nat) (ds : List Nat) : acc ≤ digitsFrom acc ds := by
  induction ds generalizing acc with
  | nil => simp [digitsFrom]
  | cons d ds ih =>
    have := ih (acc * 10 + (d - 48))
    simp only [digitsFrom, List.foldl_cons] at this ⊢
    omega

theorem atoiFrom_append (ds : List Nat) (c : Nat) (rest : List Nat) (rv : Int) (i : Nat)
    (hds : ∀ d ∈ ds, IsDigit d) (hc : ¬ IsDigit c) :
    atoiFrom (ds ++ c :: rest) rv i = ((atoiFrom ds rv i).1, i + ds.length) := by
  induction ds generalizing rv i with
  | nil =>
    have : c < 48 ∨ c > 57 := by unfold IsDigit at hc; omega
    simp [atoiFrom, this]
  | cons d ds ih =>
    have hd : ¬ (d < 48 ∨ d > 57) := by
      have := hds d (List.mem_cons_self _ _); unfold IsDigit at this; omega
    have hds2 : ∀ x ∈ ds, IsDigit x := fun x hx => hds x (List.mem_cons_of_mem _ hx)
    rw [List.cons_append, atoiFrom, if_neg hd, ih _ _ hds2, atoiFrom, if_neg hd]
    simp only [List.length_cons]
    congr 1; omega

theorem atoiFrom_digits (ds : List Nat) (acc i : Nat)
    (hds : ∀ d ∈ ds, IsDigit d) (hv : digitsFrom acc ds < 2 ^ 63) :
    (atoiFrom ds (acc : Int) i).1 = (digitsFrom acc ds : Nat) := by
  induction ds generalizing acc i with
  | nil => simp [atoiFrom, digitsFrom]
  | cons d ds ih =>
    have hdd := hds d (List.mem_cons_self _ _)
    have hd : ¬ (d < 48 ∨ d > 57) := by unfold IsDigit at hdd; omega
    have hds2 : ∀ x ∈ ds, IsDigit x := fun x hx => hds x (List.mem_cons_of_mem _ hx)
    have hv2 : digitsFrom (acc * 10 + (d - 48)) ds < 2 ^ 63 := by
      simpa [digitsFrom] using hv
    have hle := le_digitsFrom (acc * 10 + (d - 48)) ds
    have h1 : wrapInt ((acc : Int) * 10) = (acc : Int) * 10 := by
      apply wrapInt_of_bounds <;> omega
    have h2 : wrapInt ((acc : Int) * 10 + ((d - 48 : Nat) : Int))
        = ((acc * 10 + (d - 48) : Nat) : Int) := by
      rw [wrapInt_of_bounds] <;> push_cast <;> omega
    simp only [atoiFrom, hd, if_false, h1, h2]
    rw [ih _ _ hds2 hv2]
    simp [digitsFrom]

theorem atoi_token (ds : List Nat) (c : Nat) (rest : List Nat)
    (hds : ∀ d ∈ ds, IsDigit d) (hc : ¬ IsDigit c) :
    atoi (ds ++ c :: rest) = (atoiVal ds, ds.length) := by
  simp [atoi, atoiVal, atoiFrom_append ds c rest 0 0 hds hc]

theorem atoiVal_eq (ds : List Nat) (hds : ∀ d ∈ ds, IsDigit d) (hv : digitsVal ds < 2 ^ 63) :
    atoiVal ds = (digitsVal ds : Nat) := by
  have := atoiFrom_digits ds 0 0 hds hv
  simpa [atoiVal, atoi, digitsVal] using this

/-! ## The outer loops do not depend on spare fuel -/

theorem packLoop_fuel (nativeIsLE : Bool) (args : List Value) (f1 f2 : Nat) (fmt : List Nat)
    (st : PackState) (h1 : fmt.length ≤ f1) (h2 : fmt.length ≤ f2) :
    packLoop nativeIsLE args f1 fmt st = packLoop nativeIsLE args f2 fmt st := by
  induction f1 generalizing f2 fmt st with
  | zero =>
    cases fmt with
    | nil => cases f2 <;> simp [packLoop]
    | cons c cs => simp at h1
  | succ f1 ih =>
    cases fmt with
    | nil => cases f2 <;> simp [packLoop]
    | cons c cs =>
      cases f2 with
      | zero => simp at h2
      | succ f2 =>
        simp only [packLoop]
        have key : ∀ st2, packLoop nativeIsLE args f1 (List.drop ((atoi (c :: cs)).2 + 1) (c :: cs)) st2
            = packLoop nativeIsLE args f2 (List.drop ((atoi (c :: cs)).2 + 1) (c :: cs)) st2 := by
          intro st2
          apply ih <;> simp only [List.length_drop, List.length_cons] at * <;> omega
        simp only [key]

theorem unpackLoop_fuel (nativeIsLE : Bool) (buf spare : List Nat) (f1 f2 : Nat) (fmt : List Nat)
    (st : UnpackState) (h1 : fmt.length ≤ f1) (h2 : fmt.length ≤ f2) :
    unpackLoop nativeIsLE buf spare f1 fmt st = unpackLoop nativeIsLE buf spare f2 fmt st := by
  induction f1 generalizing f2 fmt st with
  | zero =>
    cases fmt with
    | nil => cases f2 <;> simp [unpackLoop]
    | cons c cs => simp at h1
  | succ f1 ih =>
    cases fmt with
    | nil => cases f2 <;> simp [unpackLoop]
    | cons c cs =>
      cases f2 with
      | zero => simp at h2
      | succ f2 =>
        simp only [unpackLoop]
        have key : ∀ st2, unpackLoop nativeIsLE buf spare f1 (List.drop ((atoi (c :: cs)).2 + 1) (c :: cs)) st2
            = unpackLoop nativeIsLE buf spare f2 (List.drop ((atoi (c :: cs)).2 + 1) (c :: cs)) st2 := by
          intro st2
          apply ih <;> simp only [List.length_drop, List.length_cons] at * <;> omega
        simp only [key]


theorem packRun_nil (nativeIsLE : Bool) (args : List Value) (st : PackState) :
    packRun nativeIsLE args [] st = .ret (st, none) := by
  simp [packRun, packLoop]

theorem unpackRun_nil (nativeIsLE : Bool) (buf spare : List Nat) (st : UnpackState) :
    unpackRun nativeIsLE buf spare [] st = .ret (.next st) := by
  simp [unpackRun, unpackLoop]

theorem getElem?_append_cons {α : Type} (ds : List α) (c : α) (rest : List α) :
    (ds ++ c :: rest)[ds.length]? = some c := by
  induction ds with
  | nil => simp
  | cons d ds ih => simpa using ih

theorem token_getElem (ds : List Nat) (c : Nat) (rest : List Nat) :
    (ds ++ c :: rest)[ds.length]? = some c := by
  induction ds with
  | nil => simp
  | cons d ds ih => simpa using ih

theorem token_drop (ds : List Nat) (c : Nat) (rest : List Nat) :
    (ds ++ c :: rest).drop (ds.length + 1) = rest := by
  induction ds with
  | nil => simp
  | cons d ds ih => simp

theorem packRun_token (nativeIsLE : Bool) (args : List Value) (ds : List Nat) (c : Nat)
    (rest : List Nat) (st : PackState) (hds : ∀ d ∈ ds, IsDigit d) (hc : ¬ IsDigit c) :
    packRun nativeIsLE args (ds ++ c :: rest) st =
      match packCount args st ds c with
      | .ret count =>
        match packDirective nativeIsLE args c count st with
        | .ret (st, none) => packRun nativeIsLE args rest st
        | r => r
      | .panic => .panic
      | .timeout => .timeout := by
  have hat := atoi_token ds c rest hds hc
  have hget := token_getElem ds c rest
  have hdrop := token_drop ds c rest
  have hfuel : ∀ st2, packLoop nativeIsLE args (ds.length + rest.length) rest st2
      = packRun nativeIsLE args rest st2 := fun st2 =>
    packLoop_fuel nativeIsLE args _ _ rest st2 (by omega) (le_refl _)
  cases ds with
  | nil =>
    simp only [List.nil_append, List.length_nil] at hat hget hdrop hfuel
    simp only [packRun, List.nil_append, List.length_cons, packLoop, hat, hget, hdrop, packCount,
      if_true]
  | cons d ds =>
    simp only [List.cons_append, List.length_cons] at hat hget hdrop hfuel
    have hlen : (d :: (ds ++ c :: rest)).length = (ds.length + 1 + rest.length) + 1 := by
      simp; omega
    rw [packRun, List.cons_append, hlen]
    simp only [packLoop, hat, hget, hdrop, packCount, hfuel]
    simp

theorem unpackRun_token (nativeIsLE : Bool) (buf spare : List Nat) (ds : List Nat) (c : Nat)
    (rest : List Nat) (st : UnpackState) (hds : ∀ d ∈ ds, IsDigit d) (hc : ¬ IsDigit c) :
    unpackRun nativeIsLE buf spare (ds ++ c :: rest) st =
      match unpackDirective nativeIsLE buf spare c (unpackCount buf st ds c) st with
      | .ret (.next st) => unpackRun nativeIsLE buf spare rest st
      | r => r := by
  have hat := atoi_token ds c rest hds hc
  have hget := token_getElem ds c rest
  have hdrop := token_drop ds c rest
  have hfuel : ∀ st2, unpackLoop nativeIsLE buf spare (ds.length + rest.length) rest st2
      = unpackRun nativeIsLE buf spare rest st2 := fun st2 =>
    unpackLoop_fuel nativeIsLE buf spare _ _ rest st2 (by omega) (le_refl _)
  cases ds with
  | nil =>
    simp only [List.nil_append, List.length_nil] at hat hget hdrop hfuel
    have hz : atoiVal [] = 0 := by decide
    simp only [unpackRun, List.nil_append, List.length_cons, unpackLoop, hat, hget, hdrop,
      unpackCount, if_true, hz]
  | cons d ds =>
    simp only [List.cons_append, List.length_cons] at hat hget hdrop hfuel
    have hlen : (d :: (ds ++ c :: rest)).length = (ds.length + 1 + rest.length) + 1 := by
      simp; omega
    rw [unpackRun, List.cons_append, hlen]
    simp only [unpackLoop, hat, hget, hdrop, unpackCount, hfuel]
    simp

theorem Pack_eq (nativeIsLE : Bool) (fmt buf : List Nat) (args : List Value) :
    Pack nativeIsLE fmt buf args =
      match packRun nativeIsLE args fmt ⟨buf, 0, 0, nativeIsLE⟩ with
      | .ret (st, err) => .ret (st.buf, err)
      | .panic => .panic
      | .timeout => .timeout := rfl

theorem Unpack_eq (nativeIsLE : Bool) (fmt buf spare : List Nat) :
    Unpack nativeIsLE fmt buf spare =
      match unpackRun nativeIsLE buf spare fmt ⟨0, nativeIsLE, []⟩ with
      | .ret (.next st) => .ret (some st.args, none)
      | .ret (.done vals err) => .ret (vals, some err)
      | .panic => .panic
      | .timeout => .timeout := rfl


/-! ## Unknown directive characters -/

theorem unknownFormat_starts (ch : Nat) :
    "unknown format type ".toList <+: (unknownFormat ch).toList := by
  unfold unknownFormat
  show "unknown format type ".data <+: ("unknown format type " ++ String.singleton (Char.ofNat ch)).data
  rw [String.data_append]
  exact List.prefix_append _ _

theorem argbytes_unknown (ch : Nat) (count : Int) (h : IsUnknown ch) : argbytes ch count = 0 := by
  obtain ⟨_, _, _, ht⟩ := h
  simp only [tableChars, List.mem_cons, List.mem_singleton, List.not_mem_nil, or_false,
    not_or] at ht
  unfold argbytes
  split <;> first | omega | simp [wrapInt]

theorem unpackItem_unknown (ch : Nat) (buf : List Nat) (st : UnpackState) (h : IsUnknown ch) :
    unpackItem ch buf st = none := by
  obtain ⟨_, _, _, ht⟩ := h
  simp only [tableChars, List.mem_cons, List.mem_singleton, List.not_mem_nil, or_false,
    not_or] at ht
  unfold unpackItem
  split <;> first | omega | rfl

theorem unpackDirective_unknown (nativeIsLE : Bool) (buf spare : List Nat) (ch : Nat)
    (count : Int) (st : UnpackState) (h : IsUnknown ch) (hc : 1 ≤ count)
    (hb : st.boff ≤ buf.length) :
    unpackDirective nativeIsLE buf spare ch count st
      = .ret (.done (some st.args) (unknownFormat ch)) := by
  have hi := unpackItem_unknown ch buf st h
  have ha := argbytes_unknown ch count h
  obtain ⟨_, hw, ho, ht⟩ := h
  simp only [tableChars, whitespaceChars, orderChars, List.mem_cons, List.mem_singleton,
    List.not_mem_nil, or_false, not_or] at hw ho ht
  obtain ⟨k, hk⟩ : ∃ k, count.toNat = k + 1 := ⟨count.toNat - 1, by omega⟩
  unfold unpackDirective
  simp only [ha]
  rw [if_neg (by omega)]
  split <;> first | omega | simp [hk, unpackItems, hi]

/-! ## `putBytes` and `getBytes` -/

theorem div_256_pow (val j : Nat) : val / 256 / 256 ^ j = val / 256 ^ (j + 1) := by
  rw [Nat.div_div_eq_div_mul, pow_succ, Nat.mul_comm]

theorem putBytesFrom_le (nbytes : Nat) (k i : Nat) (buf : List Nat) (val : Nat)
    (h : i + k ≤ buf.length) :
    ∃ out, putBytesFrom true nbytes k i buf val = .ret out ∧ out.length = buf.length ∧
      ∀ j, out[j]? = if i ≤ j ∧ j < i + k then some (val / 256 ^ (j - i) % 256) else buf[j]? := by
  induction k generalizing i buf val with
  | zero =>
    refine ⟨buf, rfl, rfl, fun j => ?_⟩
    rw [if_neg (by omega)]
  | succ k ih =>
    obtain ⟨out, h1, h2, h3⟩ := ih (i + 1) (buf.set i (val % 256)) (val / 256)
      (by simp only [List.length_set]; omega)
    refine ⟨out, ?_, by simpa using h2, fun j => ?_⟩
    · rw [putBytesFrom, if_pos rfl, if_pos (by omega), h1]
    · rw [h3 j]
      by_cases hj : i + 1 ≤ j ∧ j < i + 1 + k
      · rw [if_pos hj, if_pos (by omega), div_256_pow,
          show j - (i + 1) + 1 = j - i from by omega]
      · rw [if_neg hj]
        by_cases hij : i = j
        · subst hij
          rw [if_pos (by omega), List.getElem?_set_self (by omega)]
          simp
        · rw [if_neg (by omega), List.getElem?_set_ne hij]

theorem putBytesFrom_be (nbytes : Nat) (k i : Nat) (buf : List Nat) (val : Nat)
    (hn : i + k = nbytes) (h : nbytes ≤ buf.length) :
    ∃ out, putBytesFrom false nbytes k i buf val = .ret out ∧ out.length = buf.length ∧
      ∀ j, out[j]? = if j < k then some (val / 256 ^ (k - 1 - j) % 256) else buf[j]? := by
  induction k generalizing i buf val with
  | zero =>
    refine ⟨buf, rfl, rfl, fun j => ?_⟩
    rw [if_neg (by omega)]
  | succ k ih =>
    obtain ⟨out, h1, h2, h3⟩ := ih (i + 1) (buf.set (nbytes - i - 1) (val % 256)) (val / 256)
      (by omega) (by simp only [List.length_set]; omega)
    refine ⟨out, ?_, by simpa using h2, fun j => ?_⟩
    · rw [putBytesFrom]
      simp only [Bool.false_eq_true, if_false]
      rw [if_pos (by omega), h1]
    · rw [h3 j]
      have hidx : nbytes - i - 1 = k := by omega
      by_cases hj : j < k
      · rw [if_pos hj, if_pos (by omega), div_256_pow,
          show k - 1 - j + 1 = k + 1 - 1 - j from by omega]
      · rw [if_neg hj, hidx]
        by_cases hij : k = j
        · subst hij
          rw [if_pos (by omega), List.getElem?_set_self (by omega)]
          simp
        · rw [if_neg (by omega), List.getElem?_set_ne hij]

/-- What `putBytes` leaves in the buffer: the `nbytes` bytes of `val` in the requested
order, and the other bytes as they were. -/
theorem putBytes_spec (buf : List Nat) (val : Nat) (isLE : Bool) (nbytes : Nat)
    (h : nbytes ≤ buf.length) :
    ∃ out, putBytes buf val isLE nbytes = .ret out ∧ out.length = buf.length ∧
      ∀ j, out[j]? = if j < nbytes then some (byteAt val isLE nbytes j) else buf[j]? := by
  cases isLE with
  | true =>
    obtain ⟨out, h1, h2, h3⟩ := putBytesFrom_le nbytes nbytes 0 buf val (by omega)
    refine ⟨out, h1, h2, fun j => ?_⟩
    rw [h3 j]
    simp [byteAt]
  | false =>
    obtain ⟨out, h1, h2, h3⟩ := putBytesFrom_be nbytes nbytes 0 buf val (by omega) h
    refine ⟨out, h1, h2, fun j => ?_⟩
    rw [h3 j]
    simp [byteAt]

theorem lor_byte (v b : Nat) (hb : b < 256) : (v * 256 % 2 ^ 64) ||| b = v * 256 % 2 ^ 64 + b := by
  have h : v * 256 % 2 ^ 64 = 2 ^ 8 * (v % 2 ^ 56) := by omega
  rw [h]
  exact (Nat.mul_add_lt_is_or (by omega) _).symm

/-- `getBytes` only looks at the first `nbytes` bytes. -/
theorem getBytesFrom_congr (b1 b2 : List Nat) (isLE : Bool) (nbytes k i v : Nat)
    (hik : i + k ≤ nbytes) (h : ∀ j, j < nbytes → b1[j]? = b2[j]?) :
    getBytesFrom b1 isLE nbytes k i v = getBytesFrom b2 isLE nbytes k i v := by
  induction k generalizing i v with
  | zero => rfl
  | succ k ih =>
    rw [getBytesFrom, getBytesFrom]
    simp only [h (nbytes - i - 1) (by omega), h i (by omega)]
    cases isLE <;> simp only [if_true, Bool.false_eq_true, if_false]
    · cases b2[i]? with
      | none => rfl
      | some b => exact ih _ _ (by omega)
    · split
      · cases b2[nbytes - i - 1]? with
        | none => rfl
        | some b => exact ih _ _ (by omega)
      · rfl

theorem getBytes_congr (b1 b2 : List Nat) (isLE : Bool) (nbytes : Nat)
    (h : ∀ j, j < nbytes → b1[j]? = b2[j]?) :
    getBytes b1 isLE nbytes = getBytes b2 isLE nbytes :=
  getBytesFrom_congr b1 b2 isLE nbytes nbytes 0 0 (by omega) h

theorem mod_256_pow_succ (x i : Nat) :
    x % 256 ^ (i + 1) = (x / 256 % 256 ^ i) * 256 + x % 256 := by
  rw [pow_succ, Nat.mul_comm (256 ^ i) 256, Nat.mod_mul]
  omega

theorem getBytesFrom_val (sub : List Nat) (isLE : Bool) (n val : Nat) (hn : n ≤ 8)
    (h : ∀ j, j < n → sub[j]? = some (byteAt val isLE n j)) (k i v : Nat) (hik : i + k = n)
    (hv : v = val / 256 ^ k % 256 ^ i) :
    getBytesFrom sub isLE n k i v = .ret (val % 256 ^ n) := by
  induction k generalizing i v with
  | zero =>
    have : i = n := by omega
    subst this
    simp [getBytesFrom, hv]
  | succ k ih =>
    have hb : byteAt val isLE n (if isLE then n - i - 1 else i) = val / 256 ^ k % 256 := by
      cases isLE
      · simp only [byteAt, Bool.false_eq_true, if_false]
        rw [show n - 1 - i = k from by omega]
      · simp only [byteAt, if_true]
        rw [show n - i - 1 = k from by omega]
    have hvlt : v < 256 ^ 7 := by
      have h1 : v < 256 ^ i := by rw [hv]; exact Nat.mod_lt _ (by positivity)
      have h2 : 256 ^ i ≤ 256 ^ 7 := Nat.pow_le_pow_right (by omega) (by omega)
      omega
    have hnew : (v * 256 % 2 ^ 64) ||| (val / 256 ^ k % 256)
        = val / 256 ^ k % 256 ^ (i + 1) := by
      rw [lor_byte _ _ (Nat.mod_lt _ (by omega)), mod_256_pow_succ, Nat.div_div_eq_div_mul,
        ← pow_succ, ← hv]
      have : v * 256 % 2 ^ 64 = v * 256 := Nat.mod_eq_of_lt (by omega)
      omega
    rw [getBytesFrom]
    cases isLE
    · simp only [Bool.false_eq_true, if_false] at hb ⊢
      rw [h i (by omega), hb]
      simp only
      rw [hnew]
      exact ih (i + 1) _ (by omega) rfl
    · simp only [if_true] at hb ⊢
      rw [if_pos (by omega), h (n - i - 1) (by omega), hb]
      simp only
      rw [hnew]
      exact ih (i + 1) _ (by omega) rfl

/-- `getBytes` reads back the value whose encoding lies at the start of the buffer. -/
theorem getBytes_val (sub : List Nat) (isLE : Bool) (n val : Nat) (hn : n ≤ 8)
    (h : ∀ j, j < n → sub[j]? = some (byteAt val isLE n j)) :
    getBytes sub isLE n = .ret (val % 256 ^ n) :=
  getBytesFrom_val sub isLE n val hn h n 0 0 (by omega) (by simp [Nat.mod_one])

/-- `getBytes` returns a value whenever the buffer holds `nbytes` bytes. -/
theorem getBytesFrom_ok (sub : List Nat) (isLE : Bool) (n : Nat) (hl : n ≤ sub.length)
    (k i v : Nat) (hik : i + k ≤ n) :
    ∃ r, getBytesFrom sub isLE n k i v = .ret r := by
  induction k generalizing i v with
  | zero => exact ⟨v, rfl⟩
  | succ k ih =>
    rw [getBytesFrom]
    cases isLE
    · simp only [Bool.false_eq_true, if_false]
      rw [List.getElem?_eq_getElem (by omega)]
      exact ih _ _ (by omega)
    · simp only [if_true]
      rw [if_pos (by omega), List.getElem?_eq_getElem (by omega)]
      exact ih _ _ (by omega)

theorem getBytes_ok (sub : List Nat) (isLE : Bool) (n : Nat) (hl : n ≤ sub.length) :
    ∃ r, getBytes sub isLE n = .ret r :=
  getBytesFrom_ok sub isLE n hl n 0 0 (by omega)

/-! ## One item of a scalar directive -/

theorem getElem?_drop_add (l : List Nat) (i j : Nat) : (l.drop i)[j]? = l[i + j]? := by
  simp [List.getElem?_drop]

/-- A byte written by `packarg` and read back by `Unpack`. -/
theorem byte_roundtrip (sub : List Nat) (b : Nat) (conv : Nat → Value) (hsub : 1 ≤ sub.length) :
    ∃ out, packed (setFirst sub b) 1 = .ret (out, 1, none) ∧ out.length = sub.length ∧
      (∀ j, 1 ≤ j → out[j]? = sub[j]?) ∧
      ∀ (buf2 : List Nat) (ust : UnpackState), (∀ j, j < 1 → buf2[ust.boff + j]? = out[j]?) →
        unpackByte buf2 ust conv
          = .ret ⟨ust.boff + 1, ust.decLE, ust.args ++ [conv b]⟩ := by
  match sub, hsub with
  | a :: t, _ =>
    refine ⟨b :: t, rfl, rfl, fun j hj => ?_, fun buf2 ust h => ?_⟩
    · obtain ⟨j, rfl⟩ : ∃ i, j = i + 1 := ⟨j - 1, by omega⟩
      simp
    · have := h 0 (by omega)
      simp only [Nat.add_zero, List.getElem?_cons_zero] at this
      simp [unpackByte, this]

/-- A word written by `packarg` and read back by `Unpack`. -/
theorem word_roundtrip (sub : List Nat) (val n : Nat) (e : Bool) (conv : Nat → Value)
    (hn : 1 ≤ n) (hn8 : n ≤ 8) (hsub : n ≤ sub.length) :
    ∃ out, packed (putBytes sub val e n) n = .ret (out, n, none) ∧ out.length = sub.length ∧
      (∀ j, n ≤ j → out[j]? = sub[j]?) ∧
      ∀ (buf2 : List Nat) (ust : UnpackState), ust.decLE = e →
        (∀ j, j < n → buf2[ust.boff + j]? = out[j]?) →
        unpackWord buf2 ust n conv
          = .ret ⟨ust.boff + n, ust.decLE, ust.args ++ [conv (val % 256 ^ n)]⟩ := by
  obtain ⟨out, h1, h2, h3⟩ := putBytes_spec sub val e n hsub
  refine ⟨out, by rw [h1]; rfl, h2, fun j hj => ?_, fun buf2 ust he h => ?_⟩
  · rw [h3 j, if_neg (by omega)]
  · have h0 := h 0 (by omega)
    rw [h3 0, if_pos (by omega), Nat.add_zero] at h0
    have hlt : ust.boff < buf2.length := by
      by_contra hc
      rw [List.getElem?_eq_none (by omega)] at h0
      cases h0
    have hget : getBytes (buf2.drop ust.boff) ust.decLE n = .ret (val % 256 ^ n) := by
      apply getBytes_val _ _ _ _ hn8
      intro j hj
      rw [getElem?_drop_add, h j hj, h3 j, if_pos hj, he]
    simp [unpackWord, hget, Nat.le_of_lt hlt]

theorem toSigned_toUint64 (bits : Nat) (v : Int) (hb : bits = 16 ∨ bits = 32 ∨ bits = 64)
    (h1 : -2 ^ (bits - 1) ≤ v) (h2 : v < 2 ^ (bits - 1)) :
    toSigned bits (toUint64 v % 2 ^ bits) = v := by
  unfold toSigned toUint64
  rcases hb with rfl | rfl | rfl <;> norm_num at h1 h2 ⊢ <;> split <;> omega

/-- One value written by `packarg` is read back by one iteration of the per-item loop of
`Unpack`, from any buffer that holds the written bytes at the read cursor. -/
theorem item_roundtrip (c : Nat) (v : Value) (e : Bool) (sub : List Nat)
    (hc : c ∈ valueChars) (hv : hasType c v = true) (hsub : width c ≤ sub.length) :
    ∃ out, packarg sub c v e = .ret (out, width c, none) ∧ out.length = sub.length ∧
      (∀ j, width c ≤ j → out[j]? = sub[j]?) ∧
      ∀ (buf2 : List Nat) (ust : UnpackState), ust.decLE = e →
        (∀ j, j < width c → buf2[ust.boff + j]? = out[j]?) →
        unpackItem c buf2 ust = some (.ret ⟨ust.boff + width c, ust.decLE, ust.args ++ [v]⟩) := by
  simp only [valueChars, List.mem_cons, List.mem_singleton, List.not_mem_nil, or_false] at hc
  rcases hc with rfl | rfl | rfl | rfl | rfl | rfl | rfl | rfl | rfl | rfl | rfl | rfl | rfl
  · -- 98
    cases v <;> simp only [hasType, decide_eq_true_eq, Bool.false_eq_true] at hv
    rename_i v
    obtain ⟨out, h1, h2, h3, h4⟩ := byte_roundtrip sub (v % 256).toNat (fun b => .int8 (toSigned 8 b)) hsub
    refine ⟨out, h1, h2, h3, fun buf2 ust he h => ?_⟩
    have hu := h4 buf2 ust h
    simp only [unpackItem, width, hu, Option.some.injEq, Run.ret.injEq, UnpackState.mk.injEq,
      true_and, List.append_cancel_left_eq, List.cons.injEq, and_true, Value.int8.injEq]
    unfold toSigned; norm_num; split <;> omega
  · -- 66
    cases v <;> simp only [hasType, decide_eq_true_eq, Bool.false_eq_true] at hv
    rename_i v
    obtain ⟨out, h1, h2, h3, h4⟩ := byte_roundtrip sub (v % 256) (fun b => .uint8 b) hsub
    refine ⟨out, h1, h2, h3, fun buf2 ust he h => ?_⟩
    have hu := h4 buf2 ust h
    simp only [unpackItem, width, hu, Option.some.injEq, Run.ret.injEq, UnpackState.mk.injEq,
      true_and, List.append_cancel_left_eq, List.cons.injEq, and_true, Value.uint8.injEq]
    norm_num at hv ⊢; omega
  · -- 63
    cases v <;> simp only [hasType, decide_eq_true_eq, Bool.false_eq_true] at hv
    rename_i v
    obtain ⟨out, h1, h2, h3, h4⟩ := byte_roundtrip sub (if v = true then 1 else 0) (fun b => .bool (decide (b = 1))) hsub
    refine ⟨out, h1, h2, h3, fun buf2 ust he h => ?_⟩
    have hu := h4 buf2 ust h
    simp only [unpackItem, width, hu, Option.some.injEq, Run.ret.injEq, UnpackState.mk.injEq,
      true_and, List.append_cancel_left_eq, List.cons.injEq, and_true, Value.bool.injEq]
    cases v <;> simp
  · -- 104
    cases v <;> simp only [hasType, decide_eq_true_eq, Bool.false_eq_true] at hv
    rename_i v
    obtain ⟨out, h1, h2, h3, h4⟩ := word_roundtrip sub (toUint64 v) 2 e (fun x => .int16 (toSigned 16 x))
      (by omega) (by omega) hsub
    refine ⟨out, h1, h2, h3, fun buf2 ust he h => ?_⟩
    have hu := h4 buf2 ust he h
    simp only [unpackItem, width, hu, Option.some.injEq, Run.ret.injEq, UnpackState.mk.injEq,
      true_and, List.append_cancel_left_eq, List.cons.injEq, and_true, Value.int16.injEq]
    exact toSigned_toUint64 16 v (by omega) (by norm_num; omega) (by norm_num; omega)
  · -- 72
    cases v <;> simp only [hasType, decide_eq_true_eq, Bool.false_eq_true] at hv
    rename_i v
    obtain ⟨out, h1, h2, h3, h4⟩ := word_roundtrip sub (v % 2 ^ 64) 2 e (fun x => .uint16 (x % 2 ^ 16))
      (by omega) (by omega) hsub
    refine ⟨out, h1, h2, h3, fun buf2 ust he h => ?_⟩
    have hu := h4 buf2 ust he h
    simp only [unpackItem, width, hu, Option.some.injEq, Run.ret.injEq, UnpackState.mk.injEq,
      true_and, List.append_cancel_left_eq, List.cons.injEq, and_true, Value.uint16.injEq]
    norm_num at hv ⊢; omega
  · -- 105
    cases v <;> simp only [hasType, decide_eq_true_eq, Bool.false_eq_true] at hv
    rename_i v
    obtain ⟨out, h1, h2, h3, h4⟩ := word_roundtrip sub (toUint64 v) 4 e (fun x => .int32 (toSigned 32 x))
      (by omega) (by omega) hsub
    refine ⟨out, h1, h2, h3, fun buf2 ust he h => ?_⟩
    have hu := h4 buf2 ust he h
    simp only [unpackItem, width, hu, Option.some.injEq, Run.ret.injEq, UnpackState.mk.injEq,
      true_and, List.append_cancel_left_eq, List.cons.injEq, and_true, Value.int32.injEq]
    exact toSigned_toUint64 32 v (by omega) (by norm_num; omega) (by norm_num; omega)
  · -- 108
    cases v <;> simp only [hasType, decide_eq_true_eq, Bool.false_eq_true] at hv
    rename_i v
    obtain ⟨out, h1, h2, h3, h4⟩ := word_roundtrip sub (toUint64 v) 4 e (fun x => .int32 (toSigned 32 x))
      (by omega) (by omega) hsub
    refine ⟨out, h1, h2, h3, fun buf2 ust he h => ?_⟩
    have hu := h4 buf2 ust he h
    simp only [unpackItem, width, hu, Option.some.injEq, Run.ret.injEq, UnpackState.mk.injEq,
      true_and, List.append_cancel_left_eq, List.cons.injEq, and_true, Value.int32.injEq]
    exact toSigned_toUint64 32 v (by omega) (by norm_num; omega) (by norm_num; omega)
  · -- 73
    cases v <;> simp only [hasType, decide_eq_true_eq, Bool.false_eq_true] at hv
    rename_i v
    obtain ⟨out, h1, h2, h3, h4⟩ := word_roundtrip sub (v % 2 ^ 64) 4 e (fun x => .uint32 (x % 2 ^ 32))
      (by omega) (by omega) hsub
    refine ⟨out, h1, h2, h3, fun buf2 ust he h => ?_⟩
    have hu := h4 buf2 ust he h
    simp only [unpackItem, width, hu, Option.some.injEq, Run.ret.injEq, UnpackState.mk.injEq,
      true_and, List.append_cancel_left_eq, List.cons.injEq, and_true, Value.uint32.injEq]
    norm_num at hv ⊢; omega
  · -- 76
    cases v <;> simp only [hasType, decide_eq_true_eq, Bool.false_eq_true] at hv
    rename_i v
    obtain ⟨out, h1, h2, h3, h4⟩ := word_roundtrip sub (v % 2 ^ 64) 4 e (fun x => .uint32 (x % 2 ^ 32))
      (by omega) (by omega) hsub
    refine ⟨out, h1, h2, h3, fun buf2 ust he h => ?_⟩
    have hu := h4 buf2 ust he h
    simp only [unpackItem, width, hu, Option.some.injEq, Run.ret.injEq, UnpackState.mk.injEq,
      true_and, List.append_cancel_left_eq, List.cons.injEq, and_true, Value.uint32.injEq]
    norm_num at hv ⊢; omega
  · -- 113
    cases v <;> simp only [hasType, decide_eq_true_eq, Bool.false_eq_true] at hv
    rename_i v
    obtain ⟨out, h1, h2, h3, h4⟩ := word_roundtrip sub (toUint64 v) 8 e (fun x => .int64 (toSigned 64 x))
      (by omega) (by omega) hsub
    refine ⟨out, h1, h2, h3, fun buf2 ust he h => ?_⟩
    have hu := h4 buf2 ust he h
    simp only [unpackItem, width, hu, Option.some.injEq, Run.ret.injEq, UnpackState.mk.injEq,
      true_and, List.append_cancel_left_eq, List.cons.injEq, and_true, Value.int64.injEq]
    exact toSigned_toUint64 64 v (by omega) (by norm_num; omega) (by norm_num; omega)
  · -- 81
    cases v <;> simp only [hasType, decide_eq_true_eq, Bool.false_eq_true] at hv
    rename_i v
    obtain ⟨out, h1, h2, h3, h4⟩ := word_roundtrip sub (v % 2 ^ 64) 8 e (fun x => .uint64 (x % 2 ^ 64))
      (by omega) (by omega) hsub
    refine ⟨out, h1, h2, h3, fun buf2 ust he h => ?_⟩
    have hu := h4 buf2 ust he h
    simp only [unpackItem, width, hu, Option.some.injEq, Run.ret.injEq, UnpackState.mk.injEq,
      true_and, List.append_cancel_left_eq, List.cons.injEq, and_true, Value.uint64.injEq]
    norm_num at hv ⊢; omega
  · -- 102
    cases v <;> simp only [hasType, decide_eq_true_eq, Bool.false_eq_true] at hv
    rename_i v
    obtain ⟨out, h1, h2, h3, h4⟩ := word_roundtrip sub (v % 2 ^ 64) 4 e (fun x => .float32 (x % 2 ^ 32))
      (by omega) (by omega) hsub
    refine ⟨out, h1, h2, h3, fun buf2 ust he h => ?_⟩
    have hu := h4 buf2 ust he h
    simp only [unpackItem, width, hu, Option.some.injEq, Run.ret.injEq, UnpackState.mk.injEq,
      true_and, List.append_cancel_left_eq, List.cons.injEq, and_true, Value.float32.injEq]
    norm_num at hv ⊢; omega
  · -- 100
    cases v <;> simp only [hasType, decide_eq_true_eq, Bool.false_eq_true] at hv
    rename_i v
    obtain ⟨out, h1, h2, h3, h4⟩ := word_roundtrip sub (v % 2 ^ 64) 8 e (fun x => .float64 x)
      (by omega) (by omega) hsub
    refine ⟨out, h1, h2, h3, fun buf2 ust he h => ?_⟩
    have hu := h4 buf2 ust he h
    simp only [unpackItem, width, hu, Option.some.injEq, Run.ret.injEq, UnpackState.mk.injEq,
      true_and, List.append_cancel_left_eq, List.cons.injEq, and_true, Value.float64.injEq]
    norm_num at hv ⊢; omega

/-! ## The per-item loops -/

theorem splice_length (buf sub : List Nat) (boff : Nat) (hb : boff ≤ buf.length)
    (hs : sub.length = (buf.drop boff).length) : (buf.take boff ++ sub).length = buf.length := by
  simp only [List.length_append, List.length_take, List.length_drop] at hs ⊢
  omega

theorem splice_getElem? (buf sub : List Nat) (boff j : Nat) (hb : boff ≤ buf.length) :
    (buf.take boff ++ sub)[j]? = if j < boff then buf[j]? else sub[j - boff]? := by
  by_cases hj : j < boff
  · rw [if_pos hj, List.getElem?_append_left (by simp; omega), List.getElem?_take_of_lt hj]
  · rw [if_neg hj, List.getElem?_append_right (by simp; omega)]
    simp only [List.length_take]
    rw [Nat.min_eq_left hb]

theorem mem_valueChars_ne_pad {c : Nat} (hc : c ∈ valueChars) : c ≠ 120 := by
  rintro rfl
  simp [valueChars] at hc

theorem width_pos_of_value {c : Nat} (hc : c ∈ valueChars) : 1 ≤ width c := by
  simp only [valueChars, List.mem_cons, List.mem_singleton, List.not_mem_nil, or_false] at hc
  rcases hc with rfl | rfl | rfl | rfl | rfl | rfl | rfl | rfl | rfl | rfl | rfl | rfl | rfl <;>
    decide

/-- The per-item loop of `Pack` on a value directive stores `k` well-typed arguments, and
the per-item loop of `Unpack` reads them back from any buffer that agrees with the
result on the bytes written. -/
theorem packItems_value (c : Nat) (hc : c ∈ valueChars) (args : List Value) (k : Nat)
    (vals : List Value) (st : PackState) (pre post : List Value)
    (hlen : vals.length = k) (hty : ∀ v ∈ vals, hasType c v = true)
    (hargs : args = pre ++ vals ++ post) (hpre : pre.length = st.narg)
    (hroom : st.boff + width c * k ≤ st.buf.length) :
    ∃ out, packItems c args k st
        = .ret (⟨out, st.boff + width c * k, st.narg + k, st.encLE⟩, none) ∧
      out.length = st.buf.length ∧
      (∀ j, j < st.boff ∨ st.boff + width c * k ≤ j → out[j]? = st.buf[j]?) ∧
      ∀ (buf2 : List Nat) (ust : UnpackState), ust.boff = st.boff → ust.decLE = st.encLE →
        (∀ j, st.boff ≤ j → j < st.boff + width c * k → buf2[j]? = out[j]?) →
        unpackItems c buf2 k ust
          = .ret (.next ⟨st.boff + width c * k, st.encLE, ust.args ++ vals⟩) := by
  induction k generalizing vals st pre with
  | zero =>
    have : vals = [] := List.length_eq_zero.mp hlen
    subst this
    refine ⟨st.buf, ?_, rfl, fun j _ => rfl, fun buf2 ust h1 h2 _ => ?_⟩
    · simp [packItems]
    · cases ust
      simp only at h1 h2
      simp [unpackItems, h1, h2]
  | succ k ih =>
    obtain ⟨v, vals, rfl⟩ : ∃ v t, vals = v :: t := by
      cases vals with
      | nil => simp at hlen
      | cons v t => exact ⟨v, t, rfl⟩
    have hlen2 : vals.length = k := by simpa using hlen
    have hw := width_pos_of_value hc
    have hmul : width c * (k + 1) = width c + width c * k := by
      rw [Nat.mul_succ, Nat.add_comm]
    have hboff : st.boff ≤ st.buf.length := by omega
    have hsub : width c ≤ (st.buf.drop st.boff).length := by
      simp only [List.length_drop]; omega
    obtain ⟨sub, hp1, hp2, hp3, hp4⟩ := item_roundtrip c v st.encLE (st.buf.drop st.boff) hc
      (hty v (List.mem_cons_self _ _)) hsub
    have harg : args[st.narg]? = some v := by
      rw [hargs, ← hpre, List.append_assoc, List.cons_append]
      exact getElem?_append_cons _ _ _
    obtain ⟨out, ho1, ho2, ho3, ho4⟩ := ih vals
      { st with buf := st.buf.take st.boff ++ sub, boff := st.boff + width c,
                narg := st.narg + 1 }
      (pre ++ [v]) hlen2 (fun x hx => hty x (List.mem_cons_of_mem _ hx))
      (by rw [hargs]; simp) (by simp [hpre])
      (by simp only; rw [splice_length _ _ _ hboff hp2]; omega)
    simp only at ho1 ho2 ho3 ho4
    rw [splice_length _ _ _ hboff hp2] at ho2
    have hframe : ∀ j, j < st.boff + width c ∨ st.boff + width c + width c * k ≤ j →
        out[j]? = if j < st.boff then st.buf[j]? else sub[j - st.boff]? := by
      intro j hj
      rw [ho3 j hj, splice_getElem? _ _ _ _ hboff]
    refine ⟨out, ?_, ho2, fun j hj => ?_, fun buf2 ust h1 h2 hag => ?_⟩
    · rw [packItems, if_neg (mem_valueChars_ne_pad hc), if_pos hboff, harg]
      simp only [hp1, ho1]
      congr 3
      · omega
      · omega
    · rw [hframe j (by omega)]
      split
      · rfl
      · rw [hp3 _ (by omega), getElem?_drop_add]
        congr 1; omega
    · have hitem := hp4 buf2 ust h2 (fun j hj => by
        rw [h1, hag _ (by omega) (by omega), hframe _ (by omega), if_neg (by omega)]
        congr 1; omega)
      rw [unpackItems, hitem]
      simp only
      rw [ho4 buf2 _ (by simp only [h1]) (by simp only [h2]) (fun j hj1 hj2 =>
        hag j (by omega) (by omega))]
      simp only [h1, h2, List.append_assoc, List.singleton_append]
      congr 3
      omega

/-- The per-item loop of `Pack` on the pad directive writes `k` zero bytes and takes no
argument. -/
theorem packItems_pad (args : List Value) (k : Nat) (st : PackState)
    (hroom : st.boff + k ≤ st.buf.length) :
    ∃ out, packItems 120 args k st = .ret (⟨out, st.boff + k, st.narg, st.encLE⟩, none) ∧
      out.length = st.buf.length ∧
      (∀ j, j < st.boff ∨ st.boff + k ≤ j → out[j]? = st.buf[j]?) ∧
      (∀ j, st.boff ≤ j → j < st.boff + k → out[j]? = some 0) := by
  induction k generalizing st with
  | zero =>
    exact ⟨st.buf, by simp [packItems], rfl, fun j _ => rfl, fun j h1 h2 => by omega⟩
  | succ k ih =>
    obtain ⟨out, h1, h2, h3, h4⟩ := ih
      { st with buf := st.buf.set st.boff 0, boff := st.boff + 1 }
      (by simp only [List.length_set]; omega)
    simp only [List.length_set] at h1 h2 h3 h4
    refine ⟨out, ?_, h2, fun j hj => ?_, fun j hj1 hj2 => ?_⟩
    · rw [packItems, if_pos rfl, if_pos (by omega), h1]
      congr 3
      omega
    · rw [h3 j (by omega), List.getElem?_set_ne (by omega)]
    · by_cases hj : j = st.boff
      · rw [h3 j (by omega), hj, List.getElem?_set_self (by omega)]
      · exact h4 j (by omega) (by omega)

/-- The per-item loop of `Unpack` on the pad directive only moves the cursor. -/
theorem unpackItems_pad (buf : List Nat) (k : Nat) (ust : UnpackState) :
    unpackItems 120 buf k ust = .ret (.next ⟨ust.boff + k, ust.decLE, ust.args⟩) := by
  induction k generalizing ust with
  | zero => simp [unpackItems]
  | succ k ih =>
    rw [unpackItems]
    simp only [unpackItem]
    rw [ih]
    simp only
    congr 3
    omega

theorem width_pos_of_scalar {c : Nat} (hc : c ∈ scalarChars) : 1 ≤ width c := by
  simp only [scalarChars, List.mem_cons] at hc
  rcases hc with rfl | hc
  · decide
  · exact width_pos_of_value hc

/-- One iteration of the per-item loop of `Unpack` on a value directive decodes a value
whenever the buffer holds one item past the cursor. -/
theorem unpackItem_ok (c : Nat) (hc : c ∈ valueChars) (buf : List Nat) (ust : UnpackState)
    (hroom : ust.boff + width c ≤ buf.length) :
    ∃ v, unpackItem c buf ust = some (.ret ⟨ust.boff + width c, ust.decLE, ust.args ++ [v]⟩) := by
  have hw := width_pos_of_value hc
  have hbyte : ∀ conv, ∃ v, unpackByte buf ust conv
      = .ret ⟨ust.boff + 1, ust.decLE, ust.args ++ [v]⟩ := by
    intro conv
    have hb : buf[ust.boff]? = some buf[ust.boff] := List.getElem?_eq_getElem (by omega)
    exact ⟨conv buf[ust.boff], by simp [unpackByte, hb]⟩
  have hword : ∀ n conv, n ≤ width c → ∃ v, unpackWord buf ust n conv
      = .ret ⟨ust.boff + n, ust.decLE, ust.args ++ [v]⟩ := by
    intro n conv hn
    obtain ⟨r, hr⟩ := getBytes_ok (buf.drop ust.boff) ust.decLE n
      (by simp only [List.length_drop]; omega)
    exact ⟨conv r, by simp [unpackWord, hr, show ust.boff ≤ buf.length by omega]⟩
  simp only [valueChars, List.mem_cons, List.mem_singleton, List.not_mem_nil, or_false] at hc
  rcases hc with rfl | rfl | rfl | rfl | rfl | rfl | rfl | rfl | rfl | rfl | rfl | rfl | rfl
  case inl | inr.inl | inr.inr.inl =>
    simp only [unpackItem, width, Option.some.injEq]
    exact hbyte _
  all_goals
    simp only [unpackItem, width, Option.some.injEq]
    exact hword _ _ (by decide)

/-- The per-item loop of `Unpack` on a value directive decodes `k` values whenever the
buffer holds `k` items past the cursor. -/
theorem unpackItems_value_ok (c : Nat) (hc : c ∈ valueChars) (buf : List Nat) (k : Nat)
    (ust : UnpackState) (hroom : ust.boff + width c * k ≤ buf.length) :
    ∃ vals, vals.length = k ∧ unpackItems c buf k ust
      = .ret (.next ⟨ust.boff + width c * k, ust.decLE, ust.args ++ vals⟩) := by
  induction k generalizing ust with
  | zero => exact ⟨[], rfl, by simp [unpackItems]⟩
  | succ k ih =>
    have hmul : width c * (k + 1) = width c + width c * k := by
      rw [Nat.mul_succ, Nat.add_comm]
    obtain ⟨v, hv⟩ := unpackItem_ok c hc buf ust (by omega)
    obtain ⟨vals, hl, hvals⟩ := ih ⟨ust.boff + width c, ust.decLE, ust.args ++ [v]⟩
      (by simp only; omega)
    refine ⟨v :: vals, by simp [hl], ?_⟩
    rw [unpackItems, hv]
    simp only
    rw [hvals]
    simp only [List.append_assoc, List.singleton_append]
    congr 3
    omega

/-! ## The body of the outer loops, by kind of directive -/

theorem argbytes_scalar (c : Nat) (count : Int) (hc : c ∈ scalarChars) (h0 : 0 ≤ count)
    (hlt : (width c : Int) * count < 2 ^ 63) : argbytes c count = (width c : Int) * count := by
  simp only [scalarChars, valueChars, List.mem_cons, List.mem_singleton, List.not_mem_nil,
    or_false] at hc
  rcases hc with rfl | rfl | rfl | rfl | rfl | rfl | rfl | rfl | rfl | rfl | rfl | rfl | rfl | rfl <;>
    simp only [argbytes, width] at hlt ⊢ <;> rw [wrapInt_of_bounds] <;> push_cast <;> omega

theorem packDirective_scalar (nativeIsLE : Bool) (args : List Value) (c : Nat) (count : Int)
    (st : PackState) (hc : c ∈ scalarChars) :
    packDirective nativeIsLE args c count st =
      if (st.buf.length : Int) - st.boff < argbytes c count then .ret (st, some insufficient)
      else packItems c args count.toNat st := by
  simp only [scalarChars, valueChars, List.mem_cons, List.mem_singleton, List.not_mem_nil,
    or_false] at hc
  rcases hc with rfl | rfl | rfl | rfl | rfl | rfl | rfl | rfl | rfl | rfl | rfl | rfl | rfl | rfl <;>
    rfl

theorem unpackDirective_scalar (nativeIsLE : Bool) (buf spare : List Nat) (c : Nat) (count : Int)
    (st : UnpackState) (hc : c ∈ scalarChars) :
    unpackDirective nativeIsLE buf spare c count st =
      if (buf.length : Int) - st.boff < argbytes c count then .ret (.done none insufficient)
      else unpackItems c buf count.toNat st := by
  simp only [scalarChars, valueChars, List.mem_cons, List.mem_singleton, List.not_mem_nil,
    or_false] at hc
  rcases hc with rfl | rfl | rfl | rfl | rfl | rfl | rfl | rfl | rfl | rfl | rfl | rfl | rfl | rfl <;>
    rfl

theorem argbytes_zero_width (c : Nat) (count : Int) (hc : c ∈ whitespaceChars ++ orderChars) :
    argbytes c count = 0 := by
  simp only [whitespaceChars, orderChars, List.cons_append, List.nil_append, List.mem_cons,
    List.mem_singleton, List.not_mem_nil, or_false] at hc
  rcases hc with rfl | rfl | rfl | rfl | rfl | rfl | rfl | rfl <;> simp [argbytes, wrapInt]

/-- Whitespace and byte-order characters write nothing and take no argument. -/
theorem packDirective_zero_width (nativeIsLE : Bool) (args : List Value) (c : Nat) (count : Int)
    (st : PackState) (hc : c ∈ whitespaceChars ++ orderChars) (hb : st.boff ≤ st.buf.length) :
    packDirective nativeIsLE args c count st
      = .ret ({ st with encLE := orderAfter nativeIsLE c st.encLE }, none) := by
  have ha := argbytes_zero_width c count hc
  simp only [whitespaceChars, orderChars, List.cons_append, List.nil_append, List.mem_cons,
    List.mem_singleton, List.not_mem_nil, or_false] at hc
  unfold packDirective
  simp only [ha]
  rw [if_neg (by omega)]
  rcases hc with rfl | rfl | rfl | rfl | rfl | rfl | rfl | rfl <;> rfl

/-- Whitespace and byte-order characters read nothing and yield no value. -/
theorem unpackDirective_zero_width (nativeIsLE : Bool) (buf spare : List Nat) (c : Nat)
    (count : Int) (st : UnpackState) (hc : c ∈ whitespaceChars ++ orderChars)
    (hb : st.boff ≤ buf.length) :
    unpackDirective nativeIsLE buf spare c count st
      = .ret (.next { st with decLE := orderAfter nativeIsLE c st.decLE }) := by
  have ha := argbytes_zero_width c count hc
  simp only [whitespaceChars, orderChars, List.cons_append, List.nil_append, List.mem_cons,
    List.mem_singleton, List.not_mem_nil, or_false] at hc
  unfold unpackDirective
  simp only [ha]
  rw [if_neg (by omega)]
  rcases hc with rfl | rfl | rfl | rfl | rfl | rfl | rfl | rfl <;> rfl

/-! ## Round trip of a format of scalar directives -/

theorem width_zero_width {c : Nat} (hc : c ∈ whitespaceChars ++ orderChars) : width c = 0 := by
  simp only [whitespaceChars, orderChars, List.cons_append, List.nil_append, List.mem_cons,
    List.mem_singleton, List.not_mem_nil, or_false] at hc
  rcases hc with rfl | rfl | rfl | rfl | rfl | rfl | rfl | rfl <;> rfl

theorem not_value_zero_width {c : Nat} (hc : c ∈ whitespaceChars ++ orderChars) :
    c ∉ valueChars := by
  simp only [whitespaceChars, orderChars, List.cons_append, List.nil_append, List.mem_cons,
    List.mem_singleton, List.not_mem_nil, or_false] at hc
  rcases hc with rfl | rfl | rfl | rfl | rfl | rfl | rfl | rfl <;> decide

theorem orderAfter_scalar (nativeIsLE : Bool) {c : Nat} (hc : c ∈ scalarChars) (cur : Bool) :
    orderAfter nativeIsLE c cur = cur := by
  simp only [scalarChars, valueChars, List.mem_cons, List.mem_singleton, List.not_mem_nil,
    or_false] at hc
  rcases hc with rfl | rfl | rfl | rfl | rfl | rfl | rfl | rfl | rfl | rfl | rfl | rfl | rfl | rfl <;>
    rfl

theorem plain_not_digit {c : Nat} (hc : c ∈ whitespaceChars ++ orderChars ++ scalarChars) :
    ¬ IsDigit c ∧ c ≠ 112 ∧ c ≠ 115 := by
  simp only [whitespaceChars, orderChars, scalarChars, valueChars, List.cons_append,
    List.nil_append, List.mem_cons, List.mem_singleton, List.not_mem_nil, or_false] at hc
  unfold IsDigit
  omega

/-- The count that both `Pack` and `Unpack` give to a directive other than `p`. -/
theorem counts_plain (args : List Value) (st : PackState) (buf2 : List Nat) (ust : UnpackState)
    (d : Directive) (hp : d.char ≠ 112) :
    packCount args st d.digits d.char = .ret (if d.digits = [] then 1 else atoiVal d.digits) ∧
    unpackCount buf2 ust d.digits d.char = (if d.digits = [] then 1 else atoiVal d.digits) := by
  unfold packCount unpackCount
  by_cases h : d.digits = [] <;> simp [h, hp]

/-- The count of a scalar directive that fits a buffer is read without overflow. -/
theorem count_scalar (d : Directive) (hd : ∀ x ∈ d.digits, IsDigit x) (hlt : d.count < 2 ^ 63) :
    (if d.digits = [] then (1 : Int) else atoiVal d.digits) = (d.count : Nat) := by
  unfold Directive.count at hlt ⊢
  by_cases h : d.digits = []
  · simp [h]
  · rw [if_neg h] at hlt
    rw [if_neg h, if_neg h, atoiVal_eq _ hd hlt]

/-- One directive written by `Pack` is read back by `Unpack` from any buffer of the same
length that agrees with the result on the bytes written. -/
theorem directive_roundtrip (nativeIsLE : Bool) (args : List Value) (d : Directive)
    (vals : List Value) (st : PackState) (pre post : List Value) (hd : d.plain)
    (hlen : vals.length = d.nvals) (hty : ∀ v ∈ vals, hasType d.char v = true)
    (hargs : args = pre ++ vals ++ post) (hpre : pre.length = st.narg)
    (hroom : st.boff + d.span ≤ st.buf.length) (hbuf : st.buf.length < 2 ^ 63) :
    ∃ cnt out, packCount args st d.digits d.char = .ret cnt ∧
      packDirective nativeIsLE args d.char cnt st
        = .ret (⟨out, st.boff + d.span, st.narg + vals.length,
            orderAfter nativeIsLE d.char st.encLE⟩, none) ∧
      out.length = st.buf.length ∧
      (∀ j, j < st.boff ∨ st.boff + d.span ≤ j → out[j]? = st.buf[j]?) ∧
      ∀ (buf2 spare : List Nat) (ust : UnpackState), buf2.length = st.buf.length →
        ust.boff = st.boff → ust.decLE = st.encLE →
        (∀ j, st.boff ≤ j → j < st.boff + d.span → buf2[j]? = out[j]?) →
        unpackDirective nativeIsLE buf2 spare d.char (unpackCount buf2 ust d.digits d.char) ust
          = .ret (.next ⟨st.boff + d.span, orderAfter nativeIsLE d.char st.encLE,
              ust.args ++ vals⟩) := by
  obtain ⟨hdig, hch⟩ := hd
  obtain ⟨_, hnp, _⟩ := plain_not_digit hch
  refine ⟨if d.digits = [] then 1 else atoiVal d.digits, ?_⟩
  have hcnt := fun buf2 ust => counts_plain args st buf2 ust d hnp
  rw [List.mem_append] at hch
  rcases hch with hz | hs
  · -- whitespace and byte order
    have hw : d.span = 0 := by simp [Directive.span, width_zero_width hz]
    have hv : vals = [] := by
      apply List.length_eq_zero.mp
      rw [hlen, Directive.nvals, if_neg (not_value_zero_width hz)]
    subst hv
    rw [hw] at hroom ⊢
    refine ⟨st.buf, (hcnt [] ⟨0, true, []⟩).1, ?_, rfl, fun j _ => rfl,
      fun buf2 spare ust h1 h2 h3 _ => ?_⟩
    · rw [packDirective_zero_width _ _ _ _ _ hz (by omega)]
      simp
    · rw [(hcnt buf2 ust).2, unpackDirective_zero_width _ _ _ _ _ _ hz (by omega)]
      simp [h2, h3]
  · -- scalar directives
    have hw := width_pos_of_scalar hs
    have hle : d.count ≤ width d.char * d.count := Nat.le_mul_of_pos_left _ hw
    have hspan : d.span = width d.char * d.count := rfl
    have hc := count_scalar d hdig (by omega)
    have hab : argbytes d.char (d.count : Nat) = ((width d.char * d.count : Nat) : Int) := by
      rw [argbytes_scalar _ _ hs (by omega) (by push_cast at *; omega)]
      push_cast; rfl
    simp only [hc] at hcnt ⊢
    rw [orderAfter_scalar _ hs]
    simp only [scalarChars, List.mem_cons] at hs
    rcases hs with hx | hvc
    · -- the pad byte
      have hv : vals = [] := by
        apply List.length_eq_zero.mp
        rw [hlen, Directive.nvals, hx, if_neg (by decide)]
      subst hv
      obtain ⟨out, h1, h2, h3, _⟩ := packItems_pad args d.count st
        (by rw [hspan, hx] at hroom; simpa [width] using hroom)
      have hs1 : d.span = d.count := by rw [hspan, hx]; simp [width]
      refine ⟨out, (hcnt [] ⟨0, true, []⟩).1, ?_, h2, fun j hj => h3 j (by omega),
        fun buf2 spare ust hb1 hb2 hb3 _ => ?_⟩
      · rw [packDirective_scalar _ _ _ _ _ (by rw [hx]; decide), hab, if_neg (by omega)]
        simp only [Int.toNat_ofNat, hx, h1, hs1, List.length_nil, Nat.add_zero]
      · rw [(hcnt buf2 ust).2, unpackDirective_scalar _ _ _ _ _ _ (by rw [hx]; decide), hab,
          if_neg (by omega)]
        simp only [Int.toNat_ofNat, hx, unpackItems_pad, hs1, hb2, hb3, List.append_nil]
    · -- value directives
      have hn : d.nvals = d.count := by rw [Directive.nvals, if_pos hvc]
      obtain ⟨out, h1, h2, h3, h4⟩ := packItems_value d.char hvc args d.count vals st pre post
        (by omega) hty hargs hpre (by omega)
      refine ⟨out, (hcnt [] ⟨0, true, []⟩).1, ?_, h2, fun j hj => h3 j (by omega),
        fun buf2 spare ust hb1 hb2 hb3 hag => ?_⟩
      · rw [packDirective_scalar _ _ _ _ _ (List.mem_cons_of_mem _ hvc), hab, if_neg (by omega)]
        simp only [Int.toNat_ofNat, h1, hspan, hlen, hn]
      · rw [(hcnt buf2 ust).2, unpackDirective_scalar _ _ _ _ _ _ (List.mem_cons_of_mem _ hvc),
          hab, if_neg (by omega)]
        simp only [Int.toNat_ofNat]
        rw [h4 buf2 ust hb2 hb3 hag, hspan]

theorem typed_cons (d : Directive) (ds : List Directive) (vs : List Value)
    (h : typed (d :: ds) vs = true) :
    ∃ vd vr, vs = vd ++ vr ∧ vd.length = d.nvals ∧ (∀ v ∈ vd, hasType d.char v = true) ∧
      typed ds vr = true := by
  simp only [typed, Bool.and_eq_true, decide_eq_true_eq, List.all_eq_true] at h
  exact ⟨vs.take d.nvals, vs.drop d.nvals, (List.take_append_drop _ _).symm, h.1.1, h.1.2, h.2⟩

/-- A format of whitespace, byte-order and scalar directives written by the loop of `Pack`
is read back by the loop of `Unpack` from any buffer of the same length that agrees with
the result on the bytes written. -/
theorem format_roundtrip (nativeIsLE : Bool) (args post : List Value) (ds : List Directive)
    (vals : List Value) (st : PackState) (pre : List Value) (hd : ∀ d ∈ ds, d.plain)
    (hty : typed ds vals = true) (hargs : args = pre ++ vals ++ post)
    (hpre : pre.length = st.narg) (hroom : st.boff + formatSpan ds ≤ st.buf.length)
    (hbuf : st.buf.length < 2 ^ 63) :
    ∃ out e, packRun nativeIsLE args (formatText ds) st
        = .ret (⟨out, st.boff + formatSpan ds, st.narg + vals.length, e⟩, none) ∧
      out.length = st.buf.length ∧
      (∀ j, j < st.boff ∨ st.boff + formatSpan ds ≤ j → out[j]? = st.buf[j]?) ∧
      ∀ (buf2 spare : List Nat) (ust : UnpackState), buf2.length = st.buf.length →
        ust.boff = st.boff → ust.decLE = st.encLE →
        (∀ j, st.boff ≤ j → j < st.boff + formatSpan ds → buf2[j]? = out[j]?) →
        unpackRun nativeIsLE buf2 spare (formatText ds) ust
          = .ret (.next ⟨st.boff + formatSpan ds, e, ust.args ++ vals⟩) := by
  induction ds generalizing vals st pre with
  | nil =>
    have hv : vals = [] := by simpa [typed] using hty
    subst hv
    refine ⟨st.buf, st.encLE, ?_, rfl, fun j _ => rfl, fun buf2 spare ust _ h2 h3 _ => ?_⟩
    · simp [formatText, formatSpan, packRun_nil]
    · cases ust
      simp only at h2 h3
      simp [formatText, formatSpan, unpackRun_nil, h2, h3]
  | cons d ds ih =>
    obtain ⟨vd, vr, rfl, hvd, htyd, htyr⟩ := typed_cons d ds vals hty
    have hdp := hd d (List.mem_cons_self _ _)
    have hnd := (plain_not_digit hdp.2).1
    simp only [formatSpan] at hroom ⊢
    obtain ⟨cnt, out1, hc1, hp1, hl1, hf1, hu1⟩ := directive_roundtrip nativeIsLE args d vd st pre
      (vr ++ post) hdp hvd htyd (by rw [hargs]; simp) hpre (by omega) hbuf
    obtain ⟨out, e, hp2, hl2, hf2, hu2⟩ := ih vr
      ⟨out1, st.boff + d.span, st.narg + vd.length, orderAfter nativeIsLE d.char st.encLE⟩
      (pre ++ vd) (fun x hx => hd x (List.mem_cons_of_mem _ hx)) htyr
      (by rw [hargs]; simp) (by simp [hpre]) (by simp only [hl1]; omega) (by simp only [hl1]; omega)
    simp only [hl1] at hp2 hl2 hf2 hu2
    refine ⟨out, e, ?_, hl2, fun j hj => ?_, fun buf2 spare ust hb1 hb2 hb3 hag => ?_⟩
    · rw [formatText, packRun_token _ _ _ _ _ _ hdp.1 hnd, hc1]
      simp only [hp1, hp2, List.length_append]
      congr 3 <;> omega
    · rw [hf2 j (by omega), hf1 j (by omega)]
    · rw [formatText, unpackRun_token _ _ _ _ _ _ _ hdp.1 hnd,
        hu1 buf2 spare ust hb1 hb2 hb3 (fun j hj1 hj2 => by
          rw [hag j hj1 (by omega), hf2 j (by omega)])]
      simp only
      rw [hu2 buf2 spare _ hb1 rfl rfl (fun j hj1 hj2 => hag j (by omega) (by omega))]
      simp only [List.append_assoc]
      congr 3
      omega

/-! ## String directives -/

theorem set_append_cons {α : Type} (pre : List α) (m x : α) (rest : List α) :
    (pre ++ m :: rest).set pre.length x = pre ++ x :: rest := by
  induction pre with
  | nil => rfl
  | cons a pre ih => simp [ih]

theorem zeroFill_spec (base k n : Nat) (pre mid post : List Nat) (hpre : pre.length = base + n)
    (hmid : mid.length = k) :
    zeroFill base k n (pre ++ mid ++ post) = .ret (pre ++ List.replicate k 0 ++ post) := by
  induction k generalizing n pre mid with
  | zero =>
    have : mid = [] := List.length_eq_zero.mp hmid
    subst this
    simp [zeroFill]
  | succ k ih =>
    obtain ⟨m, mid, rfl⟩ : ∃ m t, mid = m :: t := by
      cases mid with
      | nil => simp at hmid
      | cons m t => exact ⟨m, t, rfl⟩
    have hset : (pre ++ m :: mid ++ post).set (base + n) 0 = (pre ++ [0]) ++ mid ++ post := by
      rw [← hpre, List.append_assoc, List.cons_append, set_append_cons]
      simp
    rw [zeroFill, if_pos (by simp; omega), hset,
      ih (n + 1) (pre ++ [0]) mid (by simp; omega) (by simpa using hmid)]
    simp [List.replicate_succ]

theorem fixedString_length (s : List Nat) (count : Nat) : (fixedString s count).length = count := by
  simp only [fixedString, List.length_append, List.length_take, List.length_replicate]
  omega

/-- The buffer as the part before the cursor, the `count` bytes at the cursor and the rest. -/
theorem buf_split (buf : List Nat) (boff count : Nat) (h : boff + count ≤ buf.length) :
    buf = buf.take boff ++ (buf.drop boff).take count ++ buf.drop (boff + count) ∧
    (buf.take boff).length = boff ∧ ((buf.drop boff).take count).length = count := by
  refine ⟨?_, by simp; omega, by simp; omega⟩
  rw [List.append_assoc, ← List.drop_drop, List.take_append_drop, List.take_append_drop]

/-- The copy and the zero fill of the `s` and `p` branches of `Pack`. -/
theorem copy_fill (buf : List Nat) (lo count : Nat) (s : List Nat) (h : lo + count ≤ buf.length) :
    zeroFill lo (count - (copyAt buf lo (lo + count) s).2) (copyAt buf lo (lo + count) s).2
        (copyAt buf lo (lo + count) s).1
      = .ret (buf.take lo ++ fixedString s count ++ buf.drop (lo + count)) := by
  obtain ⟨hb, hl1, hl2⟩ := buf_split buf lo count h
  have hn : (copyAt buf lo (lo + count) s).2 = min count s.length := by
    simp [copyAt]
  have hc : (copyAt buf lo (lo + count) s).1
      = (buf.take lo ++ s.take (min count s.length)) ++
        ((buf.drop lo).take count).drop (min count s.length) ++ buf.drop (lo + count) := by
    simp only [copyAt, Nat.add_sub_cancel_left, List.append_assoc, List.append_cancel_left_eq]
    have hd : buf.drop (lo + min count s.length)
        = ((buf.drop lo).take count).drop (min count s.length) ++ buf.drop (lo + count) := by
      rw [List.drop_take, ← List.drop_drop, ← List.drop_drop]
      have : count = min count s.length + (count - min count s.length) := by omega
      conv_lhs => rw [← List.take_append_drop (count - min count s.length)
        (List.drop (min count s.length) (List.drop lo buf))]
      rw [List.drop_drop (count - min count s.length), ← this]
    rw [hd]
  rw [hn, hc, zeroFill_spec lo _ _ _ _ _ (by simp; omega) (by simp; omega)]
  simp only [fixedString, List.append_assoc, List.append_cancel_left_eq]
  have h1 : s.take (min count s.length) = s.take count := by
    by_cases hcs : count ≤ s.length
    · rw [Nat.min_eq_left hcs]
    · rw [Nat.min_eq_right (by omega), List.take_of_length_le (le_refl _),
        List.take_of_length_le (by omega)]
  have h2 : count - min count s.length = count - s.length := by omega
  rw [h1, h2]

theorem dropWhile_zeros (m : Nat) (l : List Nat) :
    (List.replicate m 0 ++ l).dropWhile (fun c => c = 0) = l.dropWhile (fun c => c = 0) := by
  induction m with
  | zero => simp
  | succ m ih => simp [List.replicate_succ, ih]

theorem dropWhile_noNul (l : List Nat) (h : 0 ∉ l) : l.dropWhile (fun c => c = 0) = l := by
  cases l with
  | nil => rfl
  | cons a l =>
    have ha : a ≠ 0 := fun h0 => h (by simp [h0])
    simp [List.dropWhile, ha]

/-- Trimming a string without NUL bytes that was padded with zero bytes gives the string. -/
theorem trimNul_padded (t : List Nat) (m : Nat) (h : 0 ∉ t) :
    trimNul (t ++ List.replicate m 0) = t := by
  unfold trimNul
  cases t with
  | nil =>
    have := dropWhile_zeros m []
    simp only [List.append_nil, List.dropWhile_nil] at this
    simp [this]
  | cons a t =>
    have ha : a ≠ 0 := fun h0 => h (by simp [h0])
    have h1 : ((a :: t) ++ List.replicate m 0).dropWhile (fun c => c = 0)
        = (a :: t) ++ List.replicate m 0 := by
      simp [List.dropWhile, ha]
    rw [h1, List.reverse_append, List.reverse_replicate, dropWhile_zeros,
      dropWhile_noNul _ (by simp only [List.mem_reverse]; exact h), List.reverse_reverse]

theorem trimNul_fixedString (s : List Nat) (k : Nat) (h : 0 ∉ s) :
    trimNul (fixedString s k) = s.take k :=
  trimNul_padded _ _ (fun hm => h (List.mem_of_mem_take hm))

/-- The `s` branch of `Pack` when the string argument is there and the field fits. -/
theorem packDirective_s (nativeIsLE : Bool) (args : List Value) (k : Nat) (st : PackState)
    (s : List Nat) (harg : args[st.narg]? = some (.string s))
    (hroom : st.boff + k ≤ st.buf.length) :
    packDirective nativeIsLE args 115 (k : Int) st
      = .ret ({ st with
          buf := st.buf.take st.boff ++ fixedString s k ++ st.buf.drop (st.boff + k),
          boff := st.boff + k, narg := st.narg + 1 }, none) := by
  have hcf := copy_fill st.buf st.boff k s hroom
  unfold packDirective
  simp only [argbytes, Int.toNat_ofNat, harg]
  rw [if_neg (by omega), if_pos (by omega)]
  generalize copyAt st.buf st.boff (st.boff + k) s = p at hcf ⊢
  obtain ⟨b, n⟩ := p
  simp only at hcf ⊢
  rw [hcf]

/-- The bounds check of `Pack` for the `s` and `p` directives. -/
theorem packDirective_string_short (nativeIsLE : Bool) (args : List Value) (c : Nat) (k : Nat)
    (st : PackState) (hc : c = 115 ∨ c = 112) (hroom : st.buf.length < st.boff + k) :
    packDirective nativeIsLE args c (k : Int) st = .ret (st, some insufficient) := by
  unfold packDirective
  rcases hc with rfl | rfl <;> simp only [argbytes] <;> rw [if_pos (by omega)]

theorem take_succ_set (buf : List Nat) (boff x : Nat) (h : boff < buf.length) :
    (buf.set boff x).take (boff + 1) = buf.take boff ++ [x] ∧
    ∀ m, boff < m → (buf.set boff x).drop m = buf.drop m := by
  refine ⟨?_, fun m hm => List.drop_set_of_lt x buf hm⟩
  induction buf generalizing boff with
  | nil => simp at h
  | cons a l ih =>
    cases boff with
    | zero => simp
    | succ b => simp [ih b (by simpa using h)]

/-- The `p` branch of `Pack` when the string argument is there and the field fits. -/
theorem packDirective_p (nativeIsLE : Bool) (args : List Value) (k : Nat) (st : PackState)
    (s : List Nat) (harg : args[st.narg]? = some (.string s)) (hk1 : 1 ≤ k) (hk2 : k ≤ 256)
    (hroom : st.boff + k ≤ st.buf.length) :
    packDirective nativeIsLE args 112 (k : Int) st
      = .ret ({ st with
          buf := st.buf.take st.boff ++ (k - 1) :: fixedString s (k - 1)
            ++ st.buf.drop (st.boff + k),
          boff := st.boff + k, narg := st.narg + 1 }, none) := by
  have hlen : ((k : Int) - 1) % 256 = ((k - 1 : Nat) : Int) := by omega
  have hset := take_succ_set st.buf st.boff (k - 1) (by omega)
  have hcf := copy_fill (st.buf.set st.boff (k - 1)) (st.boff + 1) (k - 1) s
    (by simp only [List.length_set]; omega)
  rw [show st.boff + 1 + (k - 1) = st.boff + k from by omega, hset.1,
    hset.2 _ (by omega)] at hcf
  unfold packDirective
  simp only [argbytes, Int.toNat_ofNat, harg, hlen, List.length_set]
  rw [if_neg (by omega), if_neg (by omega), if_pos (by omega), if_pos (by omega)]
  generalize copyAt (st.buf.set st.boff (k - 1)) (st.boff + 1) (st.boff + k) s = p at hcf ⊢
  obtain ⟨b, n⟩ := p
  simp only at hcf ⊢
  rw [hcf]
  simp

theorem fixedString_eq_min (s : List Nat) (k : Nat) :
    fixedString s k = s.take (min k s.length) ++ List.replicate (k - min k s.length) 0 := by
  unfold fixedString
  by_cases h : k ≤ s.length
  · rw [Nat.min_eq_left h]
    simp [Nat.sub_eq_zero_of_le h]
  · rw [Nat.min_eq_right (by omega), List.take_of_length_le (le_refl _),
      List.take_of_length_le (by omega)]

/-- The `s` branch of `Unpack` when the field fits. -/
theorem unpackDirective_s (nativeIsLE : Bool) (buf spare : List Nat) (k : Nat)
    (ust : UnpackState) (hroom : ust.boff + k ≤ buf.length) :
    unpackDirective nativeIsLE buf spare 115 (k : Int) ust
      = .ret (.next { ust with
          args := ust.args ++ [.string (trimNul (((buf ++ spare).drop ust.boff).take k))],
          boff := ust.boff + k }) := by
  unfold unpackDirective
  simp only [argbytes, Int.toNat_ofNat]
  rw [if_neg (by omega), if_pos (by push_cast; omega)]

/-- The bounds check of `Unpack` for the `s` and `p` directives. -/
theorem unpackDirective_string_short (nativeIsLE : Bool) (buf spare : List Nat) (c : Nat)
    (k : Nat) (ust : UnpackState) (hc : c = 115 ∨ c = 112) (hroom : buf.length < ust.boff + k) :
    unpackDirective nativeIsLE buf spare c (k : Int) ust = .ret (.done none insufficient) := by
  unfold unpackDirective
  rcases hc with rfl | rfl <;> simp only [argbytes] <;> rw [if_pos (by omega)]

/-- The `p` branch of `Unpack` when the stated count fits and the length byte stays within
the capacity. -/
theorem unpackDirective_p (nativeIsLE : Bool) (buf spare : List Nat) (k nb : Nat)
    (ust : UnpackState) (hnb : buf[ust.boff]? = some nb) (hroom : ust.boff + k ≤ buf.length)
    (hcap : ust.boff + 1 + nb ≤ buf.length + spare.length) :
    unpackDirective nativeIsLE buf spare 112 (k : Int) ust
      = .ret (.next { ust with
          args := ust.args ++ [.string (trimNul (((buf ++ spare).drop (ust.boff + 1)).take nb))],
          boff := ust.boff + 1 + nb }) := by
  unfold unpackDirective
  simp only [argbytes, hnb]
  rw [if_neg (by omega), if_pos hcap]

theorem packCount_digits (args : List Value) (st : PackState) (ds : List Nat) (c : Nat)
    (hds : ∀ d ∈ ds, IsDigit d) (hne : ds ≠ []) (hv : digitsVal ds < 2 ^ 63) :
    packCount args st ds c = .ret ((digitsVal ds : Nat) : Int) := by
  rw [packCount, if_neg hne, atoiVal_eq ds hds hv]

theorem unpackCount_digits (buf : List Nat) (ust : UnpackState) (ds : List Nat) (c : Nat)
    (hds : ∀ d ∈ ds, IsDigit d) (hne : ds ≠ []) (hv : digitsVal ds < 2 ^ 63) :
    unpackCount buf ust ds c = ((digitsVal ds : Nat) : Int) := by
  rw [unpackCount, if_neg hne, atoiVal_eq ds hds hv]

/-! ## Formats that do not end in a digit run directive by directive -/

theorem endsInDigit_cons (a : Nat) (t : List Nat) (ht : t ≠ []) :
    EndsInDigit (a :: t) ↔ EndsInDigit t := by
  obtain ⟨b, l, rfl⟩ := List.exists_cons_of_ne_nil ht
  simp [EndsInDigit, List.getLast?_cons_cons]

theorem not_endsInDigit_nil : ¬ EndsInDigit [] := by
  simp [EndsInDigit]

/-- A non-empty format that does not end in a digit starts with a directive: digits, then a
character that is no digit. -/
theorem exists_token (f : List Nat) (hne : f ≠ []) (hend : ¬ EndsInDigit f) :
    ∃ ds c rest, f = ds ++ c :: rest ∧ (∀ d ∈ ds, IsDigit d) ∧ ¬ IsDigit c ∧
      ¬ EndsInDigit rest ∧ rest.length < f.length := by
  induction f with
  | nil => exact absurd rfl hne
  | cons a t ih =>
    by_cases ha : IsDigit a
    · have ht : t ≠ [] := by
        rintro rfl
        exact hend ⟨a, by simp, ha⟩
      have hend2 : ¬ EndsInDigit t := fun h => hend ((endsInDigit_cons a t ht).mpr h)
      obtain ⟨ds, c, rest, h1, h2, h3, h4, h5⟩ := ih ht hend2
      refine ⟨a :: ds, c, rest, by rw [h1]; rfl, ?_, h3, h4, by simp; omega⟩
      intro d hd
      rcases List.mem_cons.mp hd with rfl | hd
      · exact ha
      · exact h2 d hd
    · refine ⟨[], a, t, rfl, by simp, ha, ?_, by simp⟩
      by_cases ht : t = []
      · rw [ht]; exact not_endsInDigit_nil
      · exact fun h => hend ((endsInDigit_cons a t ht).mpr h)

/-- The loop of `Pack` on `f ++ g` runs `f` and then, unless `f` returned an error, `g`. -/
theorem packRun_append (nativeIsLE : Bool) (args : List Value) (f g : List Nat) (st : PackState)
    (hend : ¬ EndsInDigit f) :
    packRun nativeIsLE args (f ++ g) st =
      match packRun nativeIsLE args f st with
      | .ret (st, none) => packRun nativeIsLE args g st
      | r => r := by
  obtain ⟨n, hn⟩ : ∃ n, f.length = n := ⟨_, rfl⟩
  induction n using Nat.strong_induction_on generalizing f st with
  | _ n ih =>
    by_cases hne : f = []
    · subst hne
      simp [packRun_nil]
    · obtain ⟨ds, c, rest, rfl, h2, h3, h4, h5⟩ := exists_token f hne hend
      rw [List.append_assoc, List.cons_append, packRun_token _ _ _ _ _ _ h2 h3,
        packRun_token _ _ _ _ _ _ h2 h3]
      cases packCount args st ds c with
      | panic => rfl
      | timeout => rfl
      | ret count =>
        simp only
        cases packDirective nativeIsLE args c count st with
        | panic => rfl
        | timeout => rfl
        | ret r =>
          obtain ⟨st2, e⟩ := r
          cases e with
          | some e => rfl
          | none =>
            simp only
            exact ih rest.length (by omega) rest st2 h4 rfl

/-- The loop of `Unpack` on `f ++ g` runs `f` and then, unless `f` returned an error, `g`. -/
theorem unpackRun_append (nativeIsLE : Bool) (buf spare : List Nat) (f g : List Nat)
    (st : UnpackState) (hend : ¬ EndsInDigit f) :
    unpackRun nativeIsLE buf spare (f ++ g) st =
      match unpackRun nativeIsLE buf spare f st with
      | .ret (.next st) => unpackRun nativeIsLE buf spare g st
      | r => r := by
  obtain ⟨n, hn⟩ : ∃ n, f.length = n := ⟨_, rfl⟩
  induction n using Nat.strong_induction_on generalizing f st with
  | _ n ih =>
    by_cases hne : f = []
    · subst hne
      simp [unpackRun_nil]
    · obtain ⟨ds, c, rest, rfl, h2, h3, h4, h5⟩ := exists_token f hne hend
      rw [List.append_assoc, List.cons_append, unpackRun_token _ _ _ _ _ _ _ h2 h3,
        unpackRun_token _ _ _ _ _ _ _ h2 h3]
      cases unpackDirective nativeIsLE buf spare c (unpackCount buf st ds c) st with
      | panic => rfl
      | timeout => rfl
      | ret r =>
        cases r with
        | done v e => rfl
        | next st2 =>
          simp only
          exact ih rest.length (by omega) rest st2 h4 rfl

/-! ## The write cursor of `Pack` stays within the buffer -/

theorem putBytesFrom_length (isLE : Bool) (nbytes k i : Nat) (buf : List Nat) (val : Nat)
    (out : List Nat) (h : putBytesFrom isLE nbytes k i buf val = .ret out) :
    out.length = buf.length := by
  induction k generalizing i buf val with
  | zero =>
    simp only [putBytesFrom, Run.ret.injEq] at h
    rw [← h]
  | succ k ih =>
    rw [putBytesFrom] at h
    split at h
    · split at h
      · simpa using ih _ _ _ h
      · cases h
    · split at h
      · simpa using ih _ _ _ h
      · cases h

theorem putBytesFrom_le_room (nbytes k i : Nat) (buf : List Nat) (val : Nat)
    (out : List Nat) (h : putBytesFrom true nbytes k i buf val = .ret out) :
    k = 0 ∨ i + k ≤ buf.length := by
  induction k generalizing i buf val with
  | zero => exact Or.inl rfl
  | succ k ih =>
    rw [putBytesFrom, if_pos rfl] at h
    split at h
    · have := ih _ _ _ h
      simp only [List.length_set] at this
      omega
    · cases h

/-- When `putBytes` returns, the buffer keeps its length and held `nbytes` bytes. -/
theorem putBytes_ret (buf : List Nat) (val : Nat) (isLE : Bool) (nbytes : Nat) (out : List Nat)
    (hn : 1 ≤ nbytes) (h : putBytes buf val isLE nbytes = .ret out) :
    out.length = buf.length ∧ nbytes ≤ buf.length := by
  refine ⟨putBytesFrom_length _ _ _ _ _ _ _ h, ?_⟩
  cases isLE with
  | true =>
    have := putBytesFrom_le_room _ _ _ _ _ _ h
    omega
  | false =>
    obtain ⟨k, rfl⟩ : ∃ k, nbytes = k + 1 := ⟨nbytes - 1, by omega⟩
    rw [putBytes, putBytesFrom] at h
    simp only [Bool.false_eq_true, if_false] at h
    split at h
    · omega
    · cases h

theorem packed_ret (r : Run (List Nat)) (rv : Nat) (out : List Nat) (n : Nat)
    (e : Option String) (h : packed r rv = .ret (out, n, e)) : r = .ret out ∧ n = rv ∧ e = none := by
  cases r <;> simp [packed] at h
  obtain ⟨rfl, rfl, rfl⟩ := h
  exact ⟨rfl, rfl, rfl⟩

theorem packed_setFirst_ret (sub : List Nat) (b : Nat) (out : List Nat) (n : Nat)
    (e : Option String) (h : packed (setFirst sub b) 1 = .ret (out, n, e)) :
    out.length = sub.length ∧ n ≤ sub.length := by
  obtain ⟨h1, rfl, _⟩ := packed_ret _ _ _ _ _ h
  cases sub with
  | nil => simp [setFirst] at h1
  | cons a t =>
    simp only [setFirst, Run.ret.injEq] at h1
    rw [← h1]
    simp

theorem packed_putBytes_ret (sub : List Nat) (val : Nat) (isLE : Bool) (nbytes : Nat)
    (out : List Nat) (n : Nat) (e : Option String) (hn : 1 ≤ nbytes)
    (h : packed (putBytes sub val isLE nbytes) nbytes = .ret (out, n, e)) :
    out.length = sub.length ∧ n ≤ sub.length := by
  obtain ⟨h1, rfl, _⟩ := packed_ret _ _ _ _ _ h
  exact putBytes_ret _ _ _ _ _ hn h1

/-- When `packarg` returns, the buffer keeps its length and held the bytes written. -/
theorem packarg_ret (sub : List Nat) (c : Nat) (v : Value) (enc : Bool) (out : List Nat)
    (n : Nat) (e : Option String) (h : packarg sub c v enc = .ret (out, n, e)) :
    out.length = sub.length ∧ n ≤ sub.length := by
  unfold packarg at h
  split at h
  case h_14 =>
    simp only [Run.ret.injEq, Prod.mk.injEq] at h
    obtain ⟨rfl, rfl, _⟩ := h
    exact ⟨rfl, Nat.zero_le _⟩
  all_goals
    split at h
    · first
      | exact packed_setFirst_ret _ _ _ _ _ h
      | exact packed_putBytes_ret _ _ _ _ _ _ _ (by decide) h
    · cases h

/-- The per-item loop of `Pack` keeps the length of the buffer and keeps the cursor
within it. -/
theorem packItems_ret (c : Nat) (args : List Value) (k : Nat) (st st2 : PackState)
    (e : Option String) (h : packItems c args k st = .ret (st2, e))
    (hb : st.boff ≤ st.buf.length) :
    st2.buf.length = st.buf.length ∧ st2.boff ≤ st2.buf.length := by
  induction k generalizing st with
  | zero =>
    simp only [packItems, Run.ret.injEq, Prod.mk.injEq] at h
    rw [← h.1]
    exact ⟨rfl, hb⟩
  | succ k ih =>
    rw [packItems] at h
    by_cases hx : c = 120
    · rw [if_pos hx] at h
      by_cases hlt : st.boff < st.buf.length
      · rw [if_pos hlt] at h
        have := ih _ h (by simp only [List.length_set]; omega)
        simpa using this
      · rw [if_neg hlt] at h
        cases h
    · rw [if_neg hx, if_pos hb] at h
      cases harg : args[st.narg]? with
      | none =>
        rw [harg] at h
        cases h
      | some arg =>
        rw [harg] at h
        simp only at h
        cases hp : packarg (st.buf.drop st.boff) c arg st.encLE with
        | panic =>
          rw [hp] at h
          cases h
        | timeout =>
          rw [hp] at h
          cases h
        | ret r =>
          obtain ⟨sub, n, err⟩ := r
          obtain ⟨h1, h2⟩ := packarg_ret _ _ _ _ _ _ _ hp
          have hl := splice_length st.buf sub st.boff hb h1
          simp only [List.length_drop] at h2
          rw [hp] at h
          cases err with
          | none =>
            simp only at h
            have := ih _ h (by simp only [hl]; omega)
            simp only [hl] at this
            exact this
          | some err =>
            simp only [Run.ret.injEq, Prod.mk.injEq] at h
            rw [← h.1]
            simp only [hl]
            exact ⟨trivial, hb⟩

theorem field_length (buf field : List Nat) (boff k : Nat) (hf : field.length = k)
    (h : boff + k ≤ buf.length) :
    (buf.take boff ++ field ++ buf.drop (boff + k)).length = buf.length := by
  simp only [List.length_append, List.length_take, List.length_drop, hf]
  omega

theorem packDirective_s_ret (nativeIsLE : Bool) (args : List Value) (count : Int)
    (st st2 : PackState) (e : Option String)
    (h : packDirective nativeIsLE args 115 count st = .ret (st2, e))
    (hb : st.boff ≤ st.buf.length) :
    st2.buf.length = st.buf.length ∧ st2.boff ≤ st2.buf.length := by
  unfold packDirective at h
  simp only [argbytes] at h
  split at h
  · simp only [Run.ret.injEq, Prod.mk.injEq] at h
    rw [← h.1]
    exact ⟨rfl, hb⟩
  · split at h
    · rename_i hcond
      obtain ⟨k, rfl⟩ := Int.eq_ofNat_of_zero_le hcond.1
      split at h
      · rename_i s _
        have hroom : st.boff + k ≤ st.buf.length := by omega
        have hcf := copy_fill st.buf st.boff k s hroom
        simp only [Int.toNat_ofNat] at h
        generalize copyAt st.buf st.boff (st.boff + k) s = p at hcf h
        obtain ⟨b, n⟩ := p
        simp only at hcf h
        rw [hcf] at h
        simp only [Run.ret.injEq, Prod.mk.injEq] at h
        rw [← h.1]
        simp only [field_length _ _ _ _ (fixedString_length s k) hroom]
        exact ⟨trivial, hroom⟩
      · cases h
    · cases h

theorem packDirective_p_ret (nativeIsLE : Bool) (args : List Value) (count : Int)
    (st st2 : PackState) (e : Option String)
    (h : packDirective nativeIsLE args 112 count st = .ret (st2, e))
    (hb : st.boff ≤ st.buf.length) :
    st2.buf.length = st.buf.length ∧ st2.boff ≤ st2.buf.length := by
  by_cases hchk : (st.buf.length : Int) - st.boff < count
  · unfold packDirective at h
    simp only [argbytes] at h
    rw [if_pos hchk] at h
    simp only [Run.ret.injEq, Prod.mk.injEq] at h
    rw [← h.1]
    exact ⟨rfl, hb⟩
  by_cases hbig : count > 256
  · unfold packDirective at h
    simp only [argbytes] at h
    rw [if_neg hchk, if_pos hbig] at h
    simp only [Run.ret.injEq, Prod.mk.injEq] at h
    rw [← h.1]
    exact ⟨rfl, hb⟩
  by_cases hone : 1 ≤ count
  · obtain ⟨k, rfl⟩ := Int.eq_ofNat_of_zero_le (by omega : 0 ≤ count)
    have hroom : st.boff + k ≤ st.buf.length := by omega
    cases harg : args[st.narg]? with
    | none =>
      unfold packDirective at h
      simp only [argbytes, harg] at h
      rw [if_neg hchk, if_neg hbig] at h
      split at h
      · split at h <;> cases h
      · cases h
    | some v =>
      by_cases hstr : ∃ s, v = .string s
      · obtain ⟨s, rfl⟩ := hstr
        rw [packDirective_p _ _ _ _ s harg (by omega) (by omega) hroom] at h
        simp only [Run.ret.injEq, Prod.mk.injEq] at h
        rw [← h.1]
        have hfl : ((k - 1) :: fixedString s (k - 1)).length = k := by
          simp only [List.length_cons, fixedString_length]
          omega
        have := field_length st.buf ((k - 1) :: fixedString s (k - 1)) st.boff k hfl hroom
        simp only [List.append_assoc, List.cons_append] at this ⊢
        exact ⟨this, by rw [this]; exact hroom⟩
      · unfold packDirective at h
        simp only [argbytes, harg] at h
        rw [if_neg hchk, if_neg hbig] at h
        split at h
        · split at h
          · split at h
            · rename_i s heq
              exact absurd ⟨s, by simpa using heq⟩ hstr
            · cases h
          · cases h
        · cases h
  · unfold packDirective at h
    simp only [argbytes] at h
    rw [if_neg hchk, if_neg hbig] at h
    split at h
    · rw [if_neg (by simp only [List.length_set]; omega)] at h
      cases h
    · cases h

/-- A step of the outer loop of `Pack` keeps the length of the buffer and keeps the cursor
within it. -/
theorem packDirective_ret (nativeIsLE : Bool) (args : List Value) (c : Nat) (count : Int)
    (st st2 : PackState) (e : Option String)
    (h : packDirective nativeIsLE args c count st = .ret (st2, e))
    (hb : st.boff ≤ st.buf.length) :
    st2.buf.length = st.buf.length ∧ st2.boff ≤ st2.buf.length := by
  by_cases hs : c = 115
  · subst hs
    exact packDirective_s_ret _ _ _ _ _ _ h hb
  by_cases hp : c = 112
  · subst hp
    exact packDirective_p_ret _ _ _ _ _ _ h hb
  unfold packDirective at h
  simp only at h
  split at h
  · simp only [Run.ret.injEq, Prod.mk.injEq] at h
    rw [← h.1]
    exact ⟨rfl, hb⟩
  · split at h
    all_goals first
      | exact absurd rfl hs
      | exact absurd rfl hp
      | exact packItems_ret _ _ _ _ _ _ h hb
      | (simp only [Run.ret.injEq, Prod.mk.injEq] at h
         rw [← h.1]
         exact ⟨rfl, hb⟩)

/-- The loop of `Pack` keeps the length of the buffer and keeps the cursor within it. -/
theorem packRun_ret (nativeIsLE : Bool) (args : List Value) (f : List Nat) (st st2 : PackState)
    (e : Option String) (hend : ¬ EndsInDigit f)
    (h : packRun nativeIsLE args f st = .ret (st2, e)) (hb : st.boff ≤ st.buf.length) :
    st2.buf.length = st.buf.length ∧ st2.boff ≤ st2.buf.length := by
  obtain ⟨n, hn⟩ : ∃ n, f.length = n := ⟨_, rfl⟩
  induction n using Nat.strong_induction_on generalizing f st with
  | _ n ih =>
    by_cases hne : f = []
    · subst hne
      simp only [packRun_nil, Run.ret.injEq, Prod.mk.injEq] at h
      rw [← h.1]
      exact ⟨rfl, hb⟩
    · obtain ⟨ds, c, rest, rfl, h2, h3, h4, h5⟩ := exists_token f hne hend
      rw [packRun_token _ _ _ _ _ _ h2 h3] at h
      cases hc : packCount args st ds c with
      | panic => rw [hc] at h; cases h
      | timeout => rw [hc] at h; cases h
      | ret count =>
        rw [hc] at h
        simp only at h
        cases hd : packDirective nativeIsLE args c count st with
        | panic => rw [hd] at h; cases h
        | timeout => rw [hd] at h; cases h
        | ret r =>
          obtain ⟨st1, e1⟩ := r
          obtain ⟨hl1, hb1⟩ := packDirective_ret _ _ _ _ _ _ _ hd hb
          rw [hd] at h
          cases e1 with
          | some e1 =>
            simp only [Run.ret.injEq, Prod.mk.injEq] at h
            rw [← h.1]
            exact ⟨hl1, hb1⟩
          | none =>
            simp only at h
            have := ih rest.length (by omega) rest st1 h4 h hb1 rfl
            rw [hl1] at this
            exact this

/-! ## The read cursor of `Unpack` stays within a buffer without spare capacity -/

theorem wrapInt_range (x : Int) : -2 ^ 63 ≤ wrapInt x ∧ wrapInt x < 2 ^ 63 := by
  unfold wrapInt; omega

theorem atoiFrom_range (s : List Nat) (rv : Int) (i : Nat)
    (h : -2 ^ 63 ≤ rv ∧ rv < 2 ^ 63) :
    -2 ^ 63 ≤ (atoiFrom s rv i).1 ∧ (atoiFrom s rv i).1 < 2 ^ 63 := by
  induction s generalizing rv i with
  | nil => exact h
  | cons c s ih =>
    rw [atoiFrom]
    split
    · exact h
    · exact ih _ _ (wrapInt_range _)

theorem atoiVal_range (ds : List Nat) : -2 ^ 63 ≤ atoiVal ds ∧ atoiVal ds < 2 ^ 63 :=
  atoiFrom_range ds 0 0 (by omega)

theorem getBytesFrom_be_room (buf : List Nat) (nbytes k i v r : Nat)
    (h : getBytesFrom buf false nbytes k i v = .ret r) : k = 0 ∨ i + k ≤ buf.length := by
  induction k generalizing i v with
  | zero => exact Or.inl rfl
  | succ k ih =>
    rw [getBytesFrom] at h
    simp only [Bool.false_eq_true, if_false] at h
    cases hb : buf[i]? with
    | none => rw [hb] at h; cases h
    | some b =>
      rw [hb] at h
      have := ih _ _ h
      have hlt : i < buf.length := by
        by_contra hc
        rw [List.getElem?_eq_none (by omega)] at hb
        cases hb
      omega

/-- When `getBytes` returns, the buffer held `nbytes` bytes. -/
theorem getBytes_ret (buf : List Nat) (isLE : Bool) (nbytes r : Nat) (hn : 1 ≤ nbytes)
    (h : getBytes buf isLE nbytes = .ret r) : nbytes ≤ buf.length := by
  cases isLE with
  | false =>
    have := getBytesFrom_be_room _ _ _ _ _ _ h
    omega
  | true =>
    obtain ⟨k, rfl⟩ : ∃ k, nbytes = k + 1 := ⟨nbytes - 1, by omega⟩
    rw [getBytes, getBytesFrom] at h
    simp only [if_true] at h
    rw [if_pos (by omega)] at h
    cases hb : buf[k + 1 - 0 - 1]? with
    | none => rw [hb] at h; cases h
    | some b =>
      by_contra hc
      rw [List.getElem?_eq_none (by omega)] at hb
      cases hb

theorem unpackWord_ret (buf : List Nat) (st st2 : UnpackState) (n : Nat) (conv : Nat → Value)
    (hn : 1 ≤ n) (h : unpackWord buf st n conv = .ret st2) : st2.boff ≤ buf.length := by
  unfold unpackWord at h
  split at h
  · cases hg : getBytes (buf.drop st.boff) st.decLE n with
    | panic => rw [hg] at h; cases h
    | timeout => rw [hg] at h; cases h
    | ret r =>
      have := getBytes_ret _ _ _ _ hn hg
      rw [hg] at h
      simp only [Run.ret.injEq] at h
      rw [← h]
      simp only [List.length_drop] at this ⊢
      omega
  · cases h

theorem unpackByte_ret (buf : List Nat) (st st2 : UnpackState) (conv : Nat → Value)
    (h : unpackByte buf st conv = .ret st2) : st2.boff ≤ buf.length := by
  unfold unpackByte at h
  cases hb : buf[st.boff]? with
  | none => rw [hb] at h; cases h
  | some b =>
    rw [hb] at h
    simp only [Run.ret.injEq] at h
    rw [← h]
    have hlt : st.boff < buf.length := by
      by_contra hc
      rw [List.getElem?_eq_none (by omega)] at hb
      cases hb
    exact hlt

theorem unpackItem_ret (c : Nat) (buf : List Nat) (st st2 : UnpackState) (hx : c ≠ 120)
    (h : unpackItem c buf st = some (.ret st2)) : st2.boff ≤ buf.length := by
  unfold unpackItem at h
  split at h
  all_goals first
    | exact absurd rfl hx
    | exact unpackByte_ret _ _ _ _ (Option.some.inj h)
    | exact unpackWord_ret _ _ _ _ _ (by decide) (Option.some.inj h)
    | cases h

/-- The per-item loop of `Unpack` keeps the cursor within the buffer, given for the pad
directive that the count fits. -/
theorem unpackItems_ret (c : Nat) (buf : List Nat) (k : Nat) (st st2 : UnpackState)
    (h : unpackItems c buf k st = .ret (.next st2))
    (hb : st.boff + (if c = 120 then k else 0) ≤ buf.length) : st2.boff ≤ buf.length := by
  by_cases hx : c = 120
  · subst hx
    rw [unpackItems_pad] at h
    simp only [Run.ret.injEq, UnpackStep.next.injEq] at h
    rw [← h]
    simpa using hb
  · rw [if_neg hx] at hb
    induction k generalizing st with
    | zero =>
      simp only [unpackItems, Run.ret.injEq, UnpackStep.next.injEq] at h
      rw [← h]
      exact hb
    | succ k ih =>
      rw [unpackItems] at h
      cases hi : unpackItem c buf st with
      | none => rw [hi] at h; cases h
      | some r =>
        cases r with
        | panic => rw [hi] at h; cases h
        | timeout => rw [hi] at h; cases h
        | ret st1 =>
          rw [hi] at h
          exact ih st1 h (by simpa using unpackItem_ret _ _ _ _ hx hi)

/-- A step of the outer loop of `Unpack` keeps the cursor within a buffer without spare
capacity. -/
theorem unpackDirective_ret (nativeIsLE : Bool) (buf : List Nat) (c : Nat) (count : Int)
    (st st2 : UnpackState)
    (h : unpackDirective nativeIsLE buf [] c count st = .ret (.next st2))
    (hcount : -2 ^ 63 ≤ count ∧ count < 2 ^ 63) (hb : st.boff ≤ buf.length) :
    st2.boff ≤ buf.length := by
  unfold unpackDirective at h
  simp only at h
  split at h
  · cases h
  · rename_i hchk
    split at h
    case h_9 =>
      split at h
      · rename_i hcond
        simp only [Run.ret.injEq, UnpackStep.next.injEq] at h
        rw [← h]
        simp only [List.length_nil, Nat.add_zero] at hcond ⊢
        omega
      · cases h
    case h_10 =>
      split at h
      · cases h
      · split at h
        · rename_i hcond
          simp only [Run.ret.injEq, UnpackStep.next.injEq] at h
          rw [← h]
          simpa using hcond
        · cases h
    case h_11 =>
      apply unpackItems_ret _ _ _ _ _ h
      split
      · rename_i hx
        subst hx
        simp only [argbytes, Int.one_mul, wrapInt_of_bounds hcount.1 hcount.2] at hchk
        omega
      · simpa using hb
    all_goals
      simp only [Run.ret.injEq, UnpackStep.next.injEq] at h
      rw [← h]
      exact hb

theorem unpackCount_range (buf : List Nat) (st : UnpackState) (ds : List Nat) (c : Nat)
    (hc : c ≠ 112) :
    -2 ^ 63 ≤ unpackCount buf st ds c ∧ unpackCount buf st ds c < 2 ^ 63 := by
  unfold unpackCount
  by_cases h : ds = []
  · rw [if_pos h, if_neg hc]; omega
  · rw [if_neg h]; exact atoiVal_range ds

/-- The loop of `Unpack` keeps the cursor within a buffer without spare capacity. -/
theorem unpackRun_ret (nativeIsLE : Bool) (buf : List Nat) (f : List Nat)
    (st st2 : UnpackState) (hend : ¬ EndsInDigit f)
    (h : unpackRun nativeIsLE buf [] f st = .ret (.next st2)) (hb : st.boff ≤ buf.length) :
    st2.boff ≤ buf.length := by
  obtain ⟨n, hn⟩ : ∃ n, f.length = n := ⟨_, rfl⟩
  induction n using Nat.strong_induction_on generalizing f st with
  | _ n ih =>
    by_cases hne : f = []
    · subst hne
      simp only [unpackRun_nil, Run.ret.injEq, UnpackStep.next.injEq] at h
      rw [← h]
      exact hb
    · obtain ⟨ds, c, rest, rfl, h2, h3, h4, h5⟩ := exists_token f hne hend
      rw [unpackRun_token _ _ _ _ _ _ _ h2 h3] at h
      cases hd : unpackDirective nativeIsLE buf [] c (unpackCount buf st ds c) st with
      | panic => rw [hd] at h; cases h
      | timeout => rw [hd] at h; cases h
      | ret r =>
        rw [hd] at h
        cases r with
        | done v e => cases h
        | next st1 =>
          simp only at h
          have hb1 : st1.boff ≤ buf.length := by
            by_cases hp : c = 112
            · subst hp
              unfold unpackDirective at hd
              simp only at hd
              split at hd
              · cases hd
              · split at hd
                · cases hd
                · split at hd
                  · rename_i hcond
                    simp only [Run.ret.injEq, UnpackStep.next.injEq] at hd
                    rw [← hd]
                    simpa using hcond
                  · cases hd
            · exact unpackDirective_ret _ _ _ _ _ _ hd (unpackCount_range _ _ _ _ hp) hb
          exact ih rest.length (by omega) rest st1 h4 h hb1 rfl

/-! ## Unknown directives (C7, C8) and the char directive (C9) -/

/-- C7, as stated, fails for the empty argument list: `Pack("3}", buf)` with no
arguments panics on `args[narg]` before `packarg` can report the unknown directive. -/
theorem pack_unknown_no_args_panics :
    Pack true (ascii "3\x7d") [0, 0, 0, 0, 0, 0, 0, 0] [] = .panic := by
  decide

/-- C7 (amended): for every buffer and every non-empty argument list, of any element
types, `Pack("3}", buf, args...)` returns the error "unknown format type }", whose text
starts with "unknown format type", and leaves the buffer unchanged. -/
theorem pack_unknown_directive (nativeIsLE : Bool) (buf : List Nat) (args : List Value)
    (hargs : args ≠ []) :
    Pack nativeIsLE (ascii "3\x7d") buf args = .ret (buf, some "unknown format type \x7d")
      ∧ "unknown format type ".toList <+: "unknown format type \x7d".toList := by
  refine ⟨?_, by decide⟩
  obtain ⟨a, as, rfl⟩ := List.exists_cons_of_ne_nil hargs
  have hf : ascii "3\x7d" = [51] ++ 125 :: [] := by decide
  have hcount : packCount (a :: as) ⟨buf, 0, 0, nativeIsLE⟩ [51] 125 = .ret 3 := by
    simp [packCount, atoiVal, atoi, atoiFrom, wrapInt]
  have hmsg : unknownFormat 125 = "unknown format type \x7d" := by decide
  rw [Pack_eq, hf, packRun_token _ _ _ _ _ _ (by decide) (by decide), hcount]
  have hdir : packDirective nativeIsLE (a :: as) 125 3 ⟨buf, 0, 0, nativeIsLE⟩
      = .ret (⟨buf, 0, 0, nativeIsLE⟩, some "unknown format type \x7d") := by
    have h3 : (3 : Int).toNat = 2 + 1 := by decide
    simp [packDirective, argbytes, wrapInt, h3, packItems, packarg, hmsg]
  simp [hdir]

/-- Witness for C7: three strings, as in `TestBadFmt`. -/
theorem pack_unknown_directive_witness :
    Pack true (ascii "3\x7d") [0, 0, 0, 0, 0, 0, 0, 0]
        [.string (ascii "gabba"), .string (ascii "gabba"), .string (ascii "gabba")]
      = .ret ([0, 0, 0, 0, 0, 0, 0, 0], some "unknown format type \x7d")
      ∧ "unknown format type ".toList <+: "unknown format type \x7d".toList :=
  pack_unknown_directive true [0, 0, 0, 0, 0, 0, 0, 0]
    [.string (ascii "gabba"), .string (ascii "gabba"), .string (ascii "gabba")] (by decide)

/-- C8, as stated, fails for the repeat count zero: `Unpack("0}B", buf)` reports no error
for the unknown character and goes on to decode the tail `B`. -/
theorem unpack_unknown_zero_count_accepted :
    Unpack true (ascii "0\x7dB") [7] [] = .ret (some [.uint8 7], none) := by
  decide

/-- C8 (amended): for every character `ch` that is no digit, no whitespace, no byte-order
character and not in the directive table, every repeat count that is absent or a decimal
numeral with a value from 1 to 2^63 - 1, every format tail `t` and every buffer,
`Unpack(k ++ ch ++ t, buf)` returns the empty value list and the error
"unknown format type " followed by `ch`, whatever `t` is. -/
theorem unpack_unknown_directive (nativeIsLE : Bool) (ds : List Nat) (ch : Nat)
    (t buf spare : List Nat) (hds : ∀ d ∈ ds, IsDigit d)
    (hk : ds = [] ∨ (1 ≤ digitsVal ds ∧ digitsVal ds < 2 ^ 63)) (hch : IsUnknown ch) :
    Unpack nativeIsLE (ds ++ ch :: t) buf spare = .ret (some [], some (unknownFormat ch))
      ∧ "unknown format type ".toList <+: (unknownFormat ch).toList := by
  refine ⟨?_, unknownFormat_starts ch⟩
  have hnd : ¬ IsDigit ch := hch.1
  have hp : ch ≠ 112 := by
    have := hch.2.2.2
    simp only [tableChars, List.mem_cons, List.mem_singleton, List.not_mem_nil, or_false,
      not_or] at this
    omega
  have hcount : 1 ≤ unpackCount buf ⟨0, nativeIsLE, []⟩ ds ch := by
    unfold unpackCount
    rcases hk with h | ⟨h1, h2⟩
    · simp [h, hp]
    · have hne : ds ≠ [] := by
        rintro rfl
        simp [digitsVal, digitsFrom] at h1
      rw [if_neg hne, atoiVal_eq ds hds h2]
      exact_mod_cast h1
  rw [Unpack_eq, unpackRun_token _ _ _ _ _ _ _ hds hnd,
    unpackDirective_unknown _ _ _ _ _ _ hch hcount (Nat.zero_le _)]

/-- Witness for C8: the format `3}` of `TestBadFmt`, followed by `Q`. -/
theorem unpack_unknown_directive_witness :
    Unpack true ([51] ++ 125 :: [81]) [1, 2, 3, 4] [] = .ret (some [], some (unknownFormat 125))
      ∧ "unknown format type ".toList <+: (unknownFormat 125).toList :=
  unpack_unknown_directive true [51] 125 [81] [1, 2, 3, 4] [] (by decide) (by decide) (by decide)

/-- C9: the code rejects the char directive `c`.  `Pack("c", buf, int8(1))` returns the
error "unknown format type c" and writes nothing, and `Unpack("c", buf)` returns the same
error with no value, although `argbytes` gives `c` the width 1 and `TestMisc` packs and
unpacks `c`. -/
theorem char_directive_rejected :
    Pack true (ascii "c") [0] [.int8 1] = .ret ([0], some "unknown format type c")
      ∧ Unpack true (ascii "c") [1] [] = .ret (some [], some "unknown format type c")
      ∧ argbytes 99 1 = 1 := by
  decide

/-! ## Round trip (C1) and byte order (C2) -/

/-- C1: for every format built from byte-order characters and the directives
`x b B ? h H i l I L q Q`, each with an optional decimal repeat count, every argument list
that supplies in order exactly the values of the non-pad directives, each of the type of
its directive, and every buffer at least as long as the total span of the format (a Go
slice, so shorter than 2^63), `Pack` returns no error, and `Unpack` with the same format on
the packed buffer returns no error and exactly the original argument list. -/
theorem pack_unpack_roundtrip (nativeIsLE : Bool) (ds : List Directive) (buf spare : List Nat)
    (args : List Value) (hfmt : IntFormat ds) (hty : typed ds args = true)
    (hroom : formatSpan ds ≤ buf.length) (hbuf : buf.length < 2 ^ 63) :
    ∃ out, Pack nativeIsLE (formatText ds) buf args = .ret (out, none) ∧
      Unpack nativeIsLE (formatText ds) out spare = .ret (some args, none) := by
  have hplain : ∀ d ∈ ds, d.plain := by
    intro d hd
    obtain ⟨h1, h2⟩ := hfmt d hd
    refine ⟨h1, ?_⟩
    simp only [whitespaceChars, orderChars, scalarChars, valueChars, intChars, List.cons_append,
      List.nil_append, List.mem_cons, List.mem_singleton, List.not_mem_nil, or_false] at h2 ⊢
    omega
  obtain ⟨out, e, h1, h2, _, h4⟩ := format_roundtrip nativeIsLE args [] ds args
    ⟨buf, 0, 0, nativeIsLE⟩ [] hplain hty (by simp) rfl (by simpa using hroom) hbuf
  refine ⟨out, ?_, ?_⟩
  · rw [Pack_eq, h1]
  · rw [Unpack_eq, h4 out spare ⟨0, nativeIsLE, []⟩ h2 rfl rfl (fun _ _ _ => rfl)]
    simp

/-- Witness for C1: the format `<2h3x>H?b` on a 12-byte buffer. -/
theorem pack_unpack_roundtrip_witness :
    ∃ out, Pack false
        (formatText [⟨[], 60⟩, ⟨[50], 104⟩, ⟨[51], 120⟩, ⟨[], 62⟩, ⟨[], 72⟩, ⟨[], 63⟩, ⟨[], 98⟩])
        [9, 9, 9, 9, 9, 9, 9, 9, 9, 9, 9, 9]
        [.int16 256, .int16 (-2), .uint16 515, .bool true, .int8 (-1)] = .ret (out, none) ∧
      Unpack false
        (formatText [⟨[], 60⟩, ⟨[50], 104⟩, ⟨[51], 120⟩, ⟨[], 62⟩, ⟨[], 72⟩, ⟨[], 63⟩, ⟨[], 98⟩])
        out [] = .ret (some [.int16 256, .int16 (-2), .uint16 515, .bool true, .int8 (-1)], none) :=
  pack_unpack_roundtrip false
    [⟨[], 60⟩, ⟨[50], 104⟩, ⟨[51], 120⟩, ⟨[], 62⟩, ⟨[], 72⟩, ⟨[], 63⟩, ⟨[], 98⟩]
    [9, 9, 9, 9, 9, 9, 9, 9, 9, 9, 9, 9] []
    [.int16 256, .int16 (-2), .uint16 515, .bool true, .int8 (-1)]
    (by decide) (by decide) (by decide) (by decide)

/-- `Pack` of one `uint32` after a byte-order character: the four bytes written. -/
theorem pack_order_uint32 (nativeIsLE : Bool) (o v : Nat) (buf : List Nat)
    (ho : o ∈ whitespaceChars ++ orderChars) (hb : 4 ≤ buf.length) :
    ∃ out, Pack nativeIsLE [o, 73] buf [.uint32 v] = .ret (out, none) ∧
      out.length = buf.length ∧
      ∀ i, out[i]? = if i < 4 then some (byteAt (v % 2 ^ 64) (orderAfter nativeIsLE o nativeIsLE) 4 i)
        else buf[i]? := by
  have hnd : ¬ IsDigit o := by
    simp only [whitespaceChars, orderChars, List.cons_append, List.nil_append, List.mem_cons,
      List.mem_singleton, List.not_mem_nil, or_false] at ho
    unfold IsDigit; omega
  have hop : o ≠ 112 := by
    simp only [whitespaceChars, orderChars, List.cons_append, List.nil_append, List.mem_cons,
      List.mem_singleton, List.not_mem_nil, or_false] at ho
    omega
  obtain ⟨out, h1, h2, h3⟩ := putBytes_spec buf (v % 2 ^ 64) (orderAfter nativeIsLE o nativeIsLE) 4 hb
  refine ⟨out, ?_, h2, h3⟩
  have hf : [o, 73] = [] ++ o :: ([] ++ 73 :: []) := rfl
  have hab : argbytes 73 1 = 4 := by decide
  have h1n : (1 : Int).toNat = 0 + 1 := by decide
  rw [Pack_eq, hf, packRun_token _ _ _ _ _ _ (by simp) hnd]
  simp only [packCount, if_true, if_neg hop]
  rw [packDirective_zero_width _ _ _ _ _ ho (Nat.zero_le _)]
  simp only
  rw [packRun_token _ _ _ _ _ _ (by simp) (by decide)]
  simp only [packCount, if_true, show ¬ (73 = 112) by decide, if_false]
  rw [packDirective_scalar _ _ _ _ _ (by decide), hab, if_neg (by simp only; omega), h1n,
    packItems]
  have h1b := h1
  norm_num at h1b
  simp [packarg, h1b, packed, packItems, packRun_nil]

/-- C2: for every `uint32` value `v` and every buffer of at least 4 bytes,
`Pack("<I", buf, v)` sets `buf[i] = (v >> 8*i) & 0xff` for `i` in 0..3, and
`Pack(">I", buf, v)` and `Pack("!I", buf, v)` set `buf[i] = (v >> 8*(3-i)) & 0xff`; the
value 0x04030201 gives `[01,02,03,04]` little-endian and `[04,03,02,01]` big-endian. -/
theorem pack_uint32_byte_order (nativeIsLE : Bool) (v : Nat) (buf : List Nat)
    (hv : v < 2 ^ 32) (hb : 4 ≤ buf.length) :
    (∃ out, Pack nativeIsLE (ascii "<I") buf [.uint32 v] = .ret (out, none) ∧
      ∀ i, i < 4 → out[i]? = some ((v >>> (8 * i)) &&& 0xff)) ∧
    (∀ fmt, fmt = ascii ">I" ∨ fmt = ascii "!I" →
      ∃ out, Pack nativeIsLE fmt buf [.uint32 v] = .ret (out, none) ∧
        ∀ i, i < 4 → out[i]? = some ((v >>> (8 * (3 - i))) &&& 0xff)) ∧
    Pack nativeIsLE (ascii "<I") [0, 0, 0, 0] [.uint32 0x04030201] = .ret ([1, 2, 3, 4], none) ∧
    Pack nativeIsLE (ascii ">I") [0, 0, 0, 0] [.uint32 0x04030201] = .ret ([4, 3, 2, 1], none) := by
  have hmask : ∀ x : Nat, x &&& 0xff = x % 256 := fun x => Nat.and_pow_two_sub_one_eq_mod x 8
  have hmod : v % 2 ^ 64 = v := Nat.mod_eq_of_lt (by omega)
  have hpow : ∀ k : Nat, (2 : Nat) ^ (8 * k) = 256 ^ k := fun k => by
    rw [pow_mul]; rfl
  refine ⟨?_, ?_, by cases nativeIsLE <;> decide, by cases nativeIsLE <;> decide⟩
  · obtain ⟨out, h1, _, h3⟩ := pack_order_uint32 nativeIsLE 60 v buf (by decide) hb
    refine ⟨out, h1, fun i hi => ?_⟩
    rw [h3 i, if_pos hi, hmask, Nat.shiftRight_eq_div_pow, hpow, hmod]
    rfl
  · rintro fmt (rfl | rfl)
    · obtain ⟨out, h1, _, h3⟩ := pack_order_uint32 nativeIsLE 62 v buf (by decide) hb
      refine ⟨out, h1, fun i hi => ?_⟩
      rw [h3 i, if_pos hi, hmask, Nat.shiftRight_eq_div_pow, hpow, hmod]
      rfl
    · obtain ⟨out, h1, _, h3⟩ := pack_order_uint32 nativeIsLE 33 v buf (by decide) hb
      refine ⟨out, h1, fun i hi => ?_⟩
      rw [h3 i, if_pos hi, hmask, Nat.shiftRight_eq_div_pow, hpow, hmod]
      rfl

/-- Witness for C2: the value of `TestPutBytes` in an 8-byte buffer. -/
theorem pack_uint32_byte_order_witness :
    (∃ out, Pack true (ascii "<I") [9, 9, 9, 9, 9, 9, 9, 9] [.uint32 0x04030201] = .ret (out, none) ∧
      ∀ i, i < 4 → out[i]? = some ((0x04030201 >>> (8 * i)) &&& 0xff)) ∧
    (∀ fmt, fmt = ascii ">I" ∨ fmt = ascii "!I" →
      ∃ out, Pack true fmt [9, 9, 9, 9, 9, 9, 9, 9] [.uint32 0x04030201] = .ret (out, none) ∧
        ∀ i, i < 4 → out[i]? = some ((0x04030201 >>> (8 * (3 - i))) &&& 0xff)) ∧
    Pack true (ascii "<I") [0, 0, 0, 0] [.uint32 0x04030201] = .ret ([1, 2, 3, 4], none) ∧
    Pack true (ascii ">I") [0, 0, 0, 0] [.uint32 0x04030201] = .ret ([4, 3, 2, 1], none) :=
  pack_uint32_byte_order true 0x04030201 [9, 9, 9, 9, 9, 9, 9, 9] (by decide) (by decide)

/-! ## String directives (C3, C4, C5) -/

/-- C3: for every repeat count `n` (any decimal numeral for it), every string `s` without
a NUL byte and every buffer of at least `n` bytes (a Go slice, so shorter than 2^63),
`Pack("<n>s", buf, s)` returns no error and leaves in `buf[0:n]` the first `min(n, len(s))`
bytes of `s` followed by zero bytes, the rest of the buffer as it was, and
`Unpack("<n>s", buf)` then returns exactly one string, the first `min(n, len(s))` bytes of
`s`. -/
theorem pack_fixed_string (nativeIsLE : Bool) (ds s buf spare : List Nat)
    (hds : ∀ d ∈ ds, IsDigit d) (hne : ds ≠ []) (hs : 0 ∉ s)
    (hroom : digitsVal ds ≤ buf.length) (hbuf : buf.length < 2 ^ 63) :
    Pack nativeIsLE (ds ++ [115]) buf [.string s]
      = .ret (s.take (min (digitsVal ds) s.length)
          ++ List.replicate (digitsVal ds - min (digitsVal ds) s.length) 0
          ++ buf.drop (digitsVal ds), none) ∧
    Unpack nativeIsLE (ds ++ [115])
        (s.take (min (digitsVal ds) s.length)
          ++ List.replicate (digitsVal ds - min (digitsVal ds) s.length) 0
          ++ buf.drop (digitsVal ds)) spare
      = .ret (some [.string (s.take (min (digitsVal ds) s.length))], none) := by
  have hv : digitsVal ds < 2 ^ 63 := by omega
  have hfs := fixedString_eq_min s (digitsVal ds)
  have hfl := fixedString_length s (digitsVal ds)
  have htake : s.take (min (digitsVal ds) s.length) = s.take (digitsVal ds) := by
    by_cases h : digitsVal ds ≤ s.length
    · rw [Nat.min_eq_left h]
    · rw [Nat.min_eq_right (by omega), List.take_of_length_le (le_refl _),
        List.take_of_length_le (by omega)]
  rw [← hfs]
  constructor
  · rw [Pack_eq, packRun_token _ _ _ _ _ _ hds (by decide), packCount_digits _ _ _ _ hds hne hv]
    simp only
    rw [packDirective_s _ _ _ _ s (by simp) (by simpa using hroom)]
    simp [packRun_nil]
  · rw [Unpack_eq, unpackRun_token _ _ _ _ _ _ _ hds (by decide),
      unpackCount_digits _ _ _ _ hds hne hv,
      unpackDirective_s _ _ _ _ _ (by simp [hfl])]
    simp only [unpackRun_nil, List.nil_append, List.drop_zero, List.append_assoc]
    rw [List.take_append_of_le_length (by rw [hfl]), List.take_of_length_le (by rw [hfl]),
      trimNul_fixedString _ _ hs, htake]

/-- Witness for C3: `8s` with the 13-byte string of `TestStrings`, which
decodes to "her maje". -/
theorem pack_fixed_string_witness :
    Pack true (ascii "8" ++ [115]) [9, 9, 9, 9, 9, 9, 9, 9, 9, 9]
        [.string (ascii "her majesty\x27s")]
      = .ret (ascii "her maje" ++ [9, 9], none) ∧
    Unpack true (ascii "8" ++ [115]) (ascii "her maje" ++ [9, 9]) []
      = .ret (some [.string (ascii "her maje")], none) :=
  pack_fixed_string true (ascii "8") (ascii "her majesty\x27s") [9, 9, 9, 9, 9, 9, 9, 9, 9, 9] []
    (by decide) (by decide) (by decide) (by decide) (by decide)

/-- C4: for every count `n` with `1 <= n <= 256` (any decimal numeral for it), every string
`s` without a NUL byte and every buffer of at least `n` bytes, `Pack("<n>p", buf, s)`
returns no error, writes the length byte `buf[0] = n-1`, fills `buf[1:n]` with the first
`min(n-1, len(s))` bytes of `s` followed by zero bytes, and `Unpack("<n>p", buf)` then
returns exactly one string, the first `min(n-1, len(s))` bytes of `s`. -/
theorem pack_pascal_string (nativeIsLE : Bool) (ds s buf spare : List Nat)
    (hds : ∀ d ∈ ds, IsDigit d) (hne : ds ≠ []) (hs : 0 ∉ s)
    (hn1 : 1 ≤ digitsVal ds) (hn2 : digitsVal ds ≤ 256) (hroom : digitsVal ds ≤ buf.length) :
    Pack nativeIsLE (ds ++ [112]) buf [.string s]
      = .ret ((digitsVal ds - 1) :: (s.take (min (digitsVal ds - 1) s.length)
          ++ List.replicate (digitsVal ds - 1 - min (digitsVal ds - 1) s.length) 0)
          ++ buf.drop (digitsVal ds), none) ∧
    Unpack nativeIsLE (ds ++ [112])
        ((digitsVal ds - 1) :: (s.take (min (digitsVal ds - 1) s.length)
          ++ List.replicate (digitsVal ds - 1 - min (digitsVal ds - 1) s.length) 0)
          ++ buf.drop (digitsVal ds)) spare
      = .ret (some [.string (s.take (min (digitsVal ds - 1) s.length))], none) := by
  have hv : digitsVal ds < 2 ^ 63 := by omega
  have hfs := fixedString_eq_min s (digitsVal ds - 1)
  have hfl := fixedString_length s (digitsVal ds - 1)
  have htake : s.take (min (digitsVal ds - 1) s.length) = s.take (digitsVal ds - 1) := by
    by_cases h : digitsVal ds - 1 ≤ s.length
    · rw [Nat.min_eq_left h]
    · rw [Nat.min_eq_right (by omega), List.take_of_length_le (le_refl _),
        List.take_of_length_le (by omega)]
  rw [← hfs]
  constructor
  · rw [Pack_eq, packRun_token _ _ _ _ _ _ hds (by decide), packCount_digits _ _ _ _ hds hne hv]
    simp only
    rw [packDirective_p _ _ _ _ s (by simp) hn1 hn2 (by simpa using hroom)]
    simp [packRun_nil]
  · have hlen : ((digitsVal ds - 1) :: fixedString s (digitsVal ds - 1)
        ++ buf.drop (digitsVal ds)).length = buf.length := by
      simp only [List.cons_append, List.length_cons, List.length_append, hfl, List.length_drop]
      omega
    rw [Unpack_eq, unpackRun_token _ _ _ _ _ _ _ hds (by decide),
      unpackCount_digits _ _ _ _ hds hne hv,
      unpackDirective_p _ _ _ _ (digitsVal ds - 1) _ (by simp) (by rw [hlen]; simpa using hroom)
        (by rw [hlen]; simp only; omega)]
    simp only [unpackRun_nil, List.nil_append, Nat.zero_add, List.cons_append, List.drop_succ_cons,
      List.drop_zero, List.append_assoc]
    rw [List.take_append_of_le_length (by rw [hfl]), List.take_of_length_le (by rw [hfl]),
      trimNul_fixedString _ _ hs, htake]

/-- Witness for C4: `8p` with the 18-byte string of `TestStrings`, which
decodes to "a prett". -/
theorem pack_pascal_string_witness :
    Pack true (ascii "8" ++ [112]) [9, 9, 9, 9, 9, 9, 9, 9, 9, 9]
        [.string (ascii "a pretty nice girl")]
      = .ret (7 :: ascii "a prett" ++ [9, 9], none) ∧
    Unpack true (ascii "8" ++ [112]) (7 :: ascii "a prett" ++ [9, 9]) []
      = .ret (some [.string (ascii "a prett")], none) :=
  pack_pascal_string true (ascii "8") (ascii "a pretty nice girl") [9, 9, 9, 9, 9, 9, 9, 9, 9, 9] []
    (by decide) (by decide) (by decide) (by decide) (by decide) (by decide)

/-- C5: for every string `s` with `len(s) <= 255` and every buffer, `Pack("p", buf, s)`
without a count uses `count = len(s)+1`: when `len(buf) < len(s)+1` it returns the error
"insufficient buf space for fmt" and leaves the buffer unchanged, and otherwise it returns
no error with `buf[0] = len(s)` and `buf[1:len(s)+1]` equal to the bytes of `s`, the rest
of the buffer as it was. -/
theorem pack_pascal_auto_size (nativeIsLE : Bool) (s buf : List Nat) (hs : s.length ≤ 255) :
    Pack nativeIsLE (ascii "p") buf [.string s]
      = if buf.length < s.length + 1 then .ret (buf, some "insufficient buf space for fmt")
        else .ret (s.length :: s ++ buf.drop (s.length + 1), none) := by
  have hf : ascii "p" = [] ++ 112 :: [] := by decide
  have hcount : packCount [.string s] ⟨buf, 0, 0, nativeIsLE⟩ [] 112
      = .ret (((s.length + 1 : Nat)) : Int) := by
    simp [packCount]
  rw [Pack_eq, hf, packRun_token _ _ _ _ _ _ (by simp) (by decide), hcount]
  simp only
  by_cases h : buf.length < s.length + 1
  · rw [if_pos h, packDirective_string_short _ _ _ _ _ (Or.inr rfl) (by simpa using h)]
    rfl
  · rw [if_neg h, packDirective_p _ _ _ _ s (by simp) (by omega) (by omega)
      (by simp only; omega)]
    have hfx : fixedString s s.length = s := by simp [fixedString]
    simp [packRun_nil, hfx]

/-- Witness for C5: "Glass Houses" into a 4-byte buffer fails, as in
`TestOverUnderflow`. -/
theorem pack_pascal_auto_size_witness :
    Pack true (ascii "p") [0, 0, 0, 0] [.string (ascii "Glass Houses")]
      = .ret ([0, 0, 0, 0], some "insufficient buf space for fmt") :=
  pack_pascal_auto_size true (ascii "Glass Houses") [0, 0, 0, 0] (by decide)

/-! ## The bounds check of one directive (C6) -/

/-- C6: for every directive character `d` among `x b B ? h H i l I L q Q f d` (width `w`
from the table) or `s` (one byte per count), every repeat count `k >= 1` (any decimal
numeral for it) with `w*k` below 2^62, every buffer and every argument list well typed
for the directive: when `len(buf) < w*k`, `Pack("<k>d", buf, args...)` returns the error
"insufficient buf space for fmt" and leaves the buffer unchanged and `Unpack("<k>d", buf)`
returns the same error and a nil list; when `len(buf) >= w*k`, both return no error. -/
theorem bounds_check_exact (nativeIsLE : Bool) (ds : List Nat) (d : Nat) (buf spare : List Nat)
    (args : List Value) (hds : ∀ x ∈ ds, IsDigit x) (hd : d ∈ scalarChars ∨ d = 115)
    (hk : 1 ≤ digitsVal ds) (hw : width d * digitsVal ds < 2 ^ 62)
    (hty : wellTyped d (digitsVal ds) args = true) :
    (buf.length < width d * digitsVal ds →
      Pack nativeIsLE (ds ++ [d]) buf args = .ret (buf, some "insufficient buf space for fmt") ∧
      Unpack nativeIsLE (ds ++ [d]) buf spare
        = .ret (none, some "insufficient buf space for fmt")) ∧
    (width d * digitsVal ds ≤ buf.length →
      (∃ out, Pack nativeIsLE (ds ++ [d]) buf args = .ret (out, none)) ∧
      (∃ vals, Unpack nativeIsLE (ds ++ [d]) buf spare = .ret (some vals, none))) := by
  have hne : ds ≠ [] := by
    rintro rfl
    simp [digitsVal, digitsFrom] at hk
  have hw1 : 1 ≤ width d := by
    rcases hd with hd | rfl
    · exact width_pos_of_scalar hd
    · decide
  have hle : digitsVal ds ≤ width d * digitsVal ds := Nat.le_mul_of_pos_left _ hw1
  have hv : digitsVal ds < 2 ^ 63 := by omega
  have hnd : ¬ IsDigit d := by
    rcases hd with hd | rfl
    · exact (plain_not_digit (List.mem_append_right _ hd)).1
    · decide
  have hP := Pack_eq nativeIsLE (ds ++ [d]) buf args
  have hU := Unpack_eq nativeIsLE (ds ++ [d]) buf spare
  rw [packRun_token _ _ _ _ _ _ hds hnd, packCount_digits _ _ _ _ hds hne hv] at hP
  rw [unpackRun_token _ _ _ _ _ _ _ hds hnd, unpackCount_digits _ _ _ _ hds hne hv] at hU
  simp only at hP
  rcases hd with hd | rfl
  · -- scalar directives
    have hab : argbytes d (digitsVal ds : Nat) = ((width d * digitsVal ds : Nat) : Int) := by
      rw [argbytes_scalar _ _ hd (by omega) (by push_cast at *; omega)]
      push_cast; rfl
    rw [packDirective_scalar _ _ _ _ _ hd, hab] at hP
    rw [unpackDirective_scalar _ _ _ _ _ _ hd, hab] at hU
    simp only [Int.toNat_ofNat] at hP hU
    constructor
    · intro hshort
      rw [if_pos (by push_cast; omega)] at hP hU
      exact ⟨hP, hU⟩
    · intro hroom
      rw [if_neg (by push_cast; omega)] at hP hU
      simp only [scalarChars, List.mem_cons] at hd
      rcases hd with rfl | hvc
      · -- the pad byte
        obtain ⟨out, h1, _⟩ := packItems_pad args (digitsVal ds) ⟨buf, 0, 0, nativeIsLE⟩
          (by simpa [width] using hroom)
        rw [h1] at hP
        rw [unpackItems_pad] at hU
        simp only [packRun_nil, unpackRun_nil] at hP hU
        exact ⟨⟨out, hP⟩, ⟨_, hU⟩⟩
      · -- value directives
        have hx : d ≠ 120 := mem_valueChars_ne_pad hvc
        have hs : d ≠ 115 := by
          rintro rfl
          simp [valueChars] at hvc
        simp only [wellTyped, if_neg hx, if_neg hs, Bool.and_eq_true, decide_eq_true_eq,
          List.all_eq_true] at hty
        obtain ⟨out, h1, _⟩ := packItems_value d hvc args (digitsVal ds)
          (args.take (digitsVal ds)) ⟨buf, 0, 0, nativeIsLE⟩ [] (args.drop (digitsVal ds))
          (by simp; omega) hty.2 (by simp) rfl (by simpa using hroom)
        obtain ⟨vals, _, h2⟩ := unpackItems_value_ok d hvc buf (digitsVal ds)
          ⟨0, nativeIsLE, []⟩ (by simpa using hroom)
        rw [h1] at hP
        rw [h2] at hU
        simp only [packRun_nil, unpackRun_nil] at hP hU
        exact ⟨⟨out, hP⟩, ⟨_, hU⟩⟩
  · -- the fixed-length string
    have hw115 : width 115 = 1 := rfl
    rw [hw115, Nat.one_mul] at *
    constructor
    · intro hshort
      rw [packDirective_string_short _ _ _ _ _ (Or.inl rfl) (by simpa using hshort)] at hP
      rw [unpackDirective_string_short _ _ _ _ _ _ (Or.inl rfl) (by simpa using hshort)] at hU
      exact ⟨hP, hU⟩
    · intro hroom
      obtain ⟨s, rest, rfl⟩ : ∃ s rest, args = .string s :: rest := by
        simp only [wellTyped, show ¬ (115 = 120) by decide, if_false, if_true] at hty
        split at hty
        · exact ⟨_, _, rfl⟩
        · cases hty
      rw [packDirective_s _ _ _ _ s (by simp) (by simpa using hroom)] at hP
      rw [unpackDirective_s _ _ _ _ _ (by simpa using hroom)] at hU
      simp only [packRun_nil, unpackRun_nil] at hP hU
      exact ⟨⟨_, hP⟩, ⟨_, hU⟩⟩

/-- Witness for C6: `Q` with the count 1 on a 4-byte buffer, as in
`TestOverUnderflow`. -/
theorem bounds_check_exact_witness :
    ([0, 0, 0, 0].length < width 81 * digitsVal [49] →
      Pack true ([49] ++ [81]) [0, 0, 0, 0] [.uint64 0]
        = .ret ([0, 0, 0, 0], some "insufficient buf space for fmt") ∧
      Unpack true ([49] ++ [81]) [0, 0, 0, 0] []
        = .ret (none, some "insufficient buf space for fmt")) ∧
    (width 81 * digitsVal [49] ≤ [0, 0, 0, 0].length →
      (∃ out, Pack true ([49] ++ [81]) [0, 0, 0, 0] [.uint64 0] = .ret (out, none)) ∧
      (∃ vals, Unpack true ([49] ++ [81]) [0, 0, 0, 0] [] = .ret (some vals, none))) :=
  bounds_check_exact true [49] 81 [0, 0, 0, 0] [] [.uint64 0] (by decide) (by decide) (by decide)
    (by decide) (by decide)

/-! ## Whitespace (C10) -/

/-- C10: the code breaks the claim for `Unpack`.  The buffer is the first three bytes of
the eight-byte array that `Pack("5p", ..., "Rio!")` fills, so its capacity exceeds its
length.  `Unpack("3p", buf)` returns the string "Rio!" and no error, because the `p`
branch reads as many bytes as the length byte says and moves the cursor past the end of
the buffer; `Unpack("3p ", buf)`, with one more blank, then fails the bounds check of the
blank and returns the error "insufficient buf space for fmt" and no values. -/
theorem unpack_whitespace_after_pascal :
    Pack true (ascii "5p") [0, 0, 0, 0, 0, 0, 0, 0] [.string (ascii "Rio!")]
      = .ret ([4, 82, 105, 111, 33, 0, 0, 0], none)
    ∧ Unpack true (ascii "3p") [4, 82, 105] [111, 33, 0, 0, 0]
      = .ret (some [.string (ascii "Rio!")], none)
    ∧ Unpack true (ascii "3p ") [4, 82, 105] [111, 33, 0, 0, 0]
      = .ret (none, some "insufficient buf space for fmt") := by
  decide

theorem orderAfter_whitespace (nativeIsLE : Bool) {w : Nat} (hw : w ∈ whitespaceChars)
    (cur : Bool) : orderAfter nativeIsLE w cur = cur := by
  simp only [whitespaceChars, List.mem_cons, List.mem_singleton, List.not_mem_nil,
    or_false] at hw
  rcases hw with rfl | rfl | rfl | rfl <;> rfl

theorem whitespace_not_digit {w : Nat} (hw : w ∈ whitespaceChars) : ¬ IsDigit w ∧ w ≠ 112 := by
  simp only [whitespaceChars, List.mem_cons, List.mem_singleton, List.not_mem_nil,
    or_false] at hw
  unfold IsDigit
  omega

/-- A whitespace character at the start of the rest of a format is skipped by `Pack` when
the cursor is within the buffer. -/
theorem packRun_whitespace (nativeIsLE : Bool) (args : List Value) (w : Nat) (f : List Nat)
    (st : PackState) (hw : w ∈ whitespaceChars) (hb : st.boff ≤ st.buf.length) :
    packRun nativeIsLE args (w :: f) st = packRun nativeIsLE args f st := by
  obtain ⟨hnd, hp⟩ := whitespace_not_digit hw
  have h := packRun_token nativeIsLE args [] w f st (by simp) hnd
  rw [List.nil_append] at h
  rw [h]
  simp only [packCount, if_true, if_neg hp]
  rw [packDirective_zero_width _ _ _ _ _ (List.mem_append_left _ hw) hb,
    orderAfter_whitespace _ hw]

/-- The part of C10 that holds for `Pack`: for all formats `f1` and `f2` where `f1` does
not end in a decimal digit, every whitespace character `w`, every buffer and every
argument list, `Pack(f1 ++ w ++ f2, buf, args...)` has the same outcome and leaves the
same buffer as `Pack(f1 ++ f2, buf, args...)`. -/
theorem pack_whitespace_noop (nativeIsLE : Bool) (f1 f2 : List Nat) (w : Nat) (buf : List Nat)
    (args : List Value) (hw : w ∈ whitespaceChars) (hend : ¬ EndsInDigit f1) :
    Pack nativeIsLE (f1 ++ w :: f2) buf args = Pack nativeIsLE (f1 ++ f2) buf args := by
  rw [Pack_eq, Pack_eq, packRun_append _ _ _ _ _ hend, packRun_append _ _ _ _ _ hend]
  cases h : packRun nativeIsLE args f1 ⟨buf, 0, 0, nativeIsLE⟩ with
  | panic => rfl
  | timeout => rfl
  | ret r =>
    obtain ⟨st, e⟩ := r
    cases e with
    | some e => rfl
    | none =>
      obtain ⟨_, hb⟩ := packRun_ret _ _ _ _ _ _ hend h (Nat.zero_le _)
      simp only
      rw [packRun_whitespace _ _ _ _ _ hw hb]

/-- A whitespace character at the start of the rest of a format is skipped by `Unpack`
when the cursor is within the buffer. -/
theorem unpackRun_whitespace (nativeIsLE : Bool) (buf spare : List Nat) (w : Nat)
    (f : List Nat) (st : UnpackState) (hw : w ∈ whitespaceChars) (hb : st.boff ≤ buf.length) :
    unpackRun nativeIsLE buf spare (w :: f) st = unpackRun nativeIsLE buf spare f st := by
  obtain ⟨hnd, hp⟩ := whitespace_not_digit hw
  have h := unpackRun_token nativeIsLE buf spare [] w f st (by simp) hnd
  rw [List.nil_append] at h
  rw [h, unpackDirective_zero_width _ _ _ _ _ _ (List.mem_append_left _ hw) hb,
    orderAfter_whitespace _ hw]

/-- The part of C10 that holds for `Unpack`: for all formats `f1` and `f2` where `f1` does
not end in a decimal digit, every whitespace character `w` and every buffer whose capacity
equals its length, `Unpack(f1 ++ w ++ f2, buf)` returns the same values and error as
`Unpack(f1 ++ f2, buf)`. -/
theorem unpack_whitespace_noop (nativeIsLE : Bool) (f1 f2 : List Nat) (w : Nat)
    (buf : List Nat) (hw : w ∈ whitespaceChars) (hend : ¬ EndsInDigit f1) :
    Unpack nativeIsLE (f1 ++ w :: f2) buf [] = Unpack nativeIsLE (f1 ++ f2) buf [] := by
  rw [Unpack_eq, Unpack_eq, unpackRun_append _ _ _ _ _ _ hend,
    unpackRun_append _ _ _ _ _ _ hend]
  cases h : unpackRun nativeIsLE buf [] f1 ⟨0, nativeIsLE, []⟩ with
  | panic => rfl
  | timeout => rfl
  | ret r =>
    cases r with
    | done v e => rfl
    | next st =>
      have hb := unpackRun_ret _ _ _ _ _ hend h (Nat.zero_le _)
      simp only
      rw [unpackRun_whitespace _ _ _ _ _ _ hw hb]

/-! ## Boolean decoding (C20) -/

/-- C20: for every byte value `b`, `Unpack("?", [b])` returns no error and the one-element
list `[b == 1]`, so every byte other than 1 decodes to `false`. -/
theorem unpack_bool_only_one (nativeIsLE : Bool) (b : Nat) (spare : List Nat) :
    Unpack nativeIsLE (ascii "?") [b] spare = .ret (some [.bool (decide (b = 1))], none)
      ∧ (b ≠ 1 → Unpack nativeIsLE (ascii "?") [b] spare = .ret (some [.bool false], none)) := by
  have hf : ascii "?" = [] ++ 63 :: [] := by decide
  have hab : argbytes 63 1 = 1 := by decide
  have h1n : (1 : Int).toNat = 0 + 1 := by decide
  have key : Unpack nativeIsLE (ascii "?") [b] spare
      = .ret (some [.bool (decide (b = 1))], none) := by
    rw [Unpack_eq, hf, unpackRun_token _ _ _ _ _ _ _ (by simp) (by decide)]
    simp only [unpackCount, if_true, show ¬ (63 = 112) by decide, if_false]
    rw [unpackDirective_scalar _ _ _ _ _ _ (by decide), hab, if_neg (by simp), h1n]
    simp [unpackItems, unpackItem, unpackByte, unpackRun_nil]
  refine ⟨key, fun hb => ?_⟩
  rw [key]
  simp [hb]

/-! ## Overruns (C12, C13) -/

/-- C12: the code breaks the claim.  `Unpack("p", buf)` on an empty buffer leaves the count
at 0, passes the bounds check and indexes `buf[0]`: a panic.  `Unpack("3p", buf)` on the
three bytes `[200, 0, 0]` checks the stated count 3 and then slices `buf[1:201]`: a panic
when the capacity is 3.  On a buffer of length 3 with spare capacity the same branch
returns bytes that lie beyond `len(buf)`. -/
theorem unpack_pascal_overruns :
    Unpack true (ascii "p") [] [] = .panic
    ∧ Unpack true (ascii "3p") [200, 0, 0] [] = .panic
    ∧ Unpack true (ascii "3p") [4, 82, 105] [111, 33, 0, 0, 0]
      = .ret (some [.string [82, 105, 111, 33]], none) := by
  decide

set_option maxRecDepth 8000 in
/-- C13: the code breaks the claim.  `Pack("0p", buf, "x")` passes the bounds check with
the count 0, stores the length byte `byte(count-1) = 255` and then slices `buf[1:0]`: a
panic.  A count that wraps to a negative `int` makes the `s` branch slice `buf[0:count]`:
a panic as well. -/
theorem pack_pascal_zero_count_panics :
    Pack true (ascii "0p") [0, 0, 0, 0] [.string (ascii "x")] = .panic
    ∧ Pack true (ascii "9223372036854775808s") [0, 0, 0, 0] [.string (ascii "x")] = .panic := by
  decide

/-! ## Unpack of strings (C15, C16) -/

theorem take_drop_append (buf spare : List Nat) (a n : Nat) (h : a + n ≤ buf.length) :
    ((buf ++ spare).drop a).take n = (buf.drop a).take n := by
  rw [List.drop_append_of_le_length (by omega),
    List.take_append_of_le_length (by simp only [List.length_drop]; omega)]

/-- One `B` directive at the end of a format, with a byte under the cursor. -/
theorem unpackRun_byte (nativeIsLE : Bool) (buf spare : List Nat) (st : UnpackState) (b : Nat)
    (hb : buf[st.boff]? = some b) :
    unpackRun nativeIsLE buf spare [66] st
      = .ret (.next ⟨st.boff + 1, st.decLE, st.args ++ [.uint8 b]⟩) := by
  have hlt : st.boff < buf.length := by
    by_contra hc
    rw [List.getElem?_eq_none (by omega)] at hb
    cases hb
  have hf : [66] = [] ++ 66 :: [] := rfl
  have hab : argbytes 66 1 = 1 := by decide
  have h1n : (1 : Int).toNat = 0 + 1 := by decide
  rw [hf, unpackRun_token _ _ _ _ _ _ _ (by simp) (by decide)]
  simp only [unpackCount, if_true, show ¬ (66 = 112) by decide, if_false]
  rw [unpackDirective_scalar _ _ _ _ _ _ (by decide), hab, if_neg (by omega), h1n]
  simp [unpackItems, unpackItem, unpackByte, unpackRun_nil, hb]

/-- C15: for every optional repeat count `n` (any decimal numeral for it) and every buffer
with `nb = buf[0]`, `len(buf) >= nb+2` and, when `n` is given, `len(buf) >= n` (a Go slice,
so shorter than 2^63), `Unpack("<n>pB", buf)` returns no error and the two values
`[t, buf[1+nb]]`, where `t` is `buf[1:1+nb]` without its leading and trailing NUL bytes: the
cursor advances by `1+nb`, not by `n`.  With no count and `len(buf) >= 1`, `Unpack("p", buf)`
returns "insufficient buf space for fmt" exactly when `len(buf) < nb+1`. -/
theorem unpack_pascal_length_byte (nativeIsLE : Bool) (ds buf spare : List Nat) (nb b : Nat)
    (hds : ∀ d ∈ ds, IsDigit d) (hnb : buf[0]? = some nb) (hb : buf[1 + nb]? = some b)
    (hn : ds ≠ [] → digitsVal ds ≤ buf.length) (hbuf : buf.length < 2 ^ 63) :
    Unpack nativeIsLE (ds ++ [112, 66]) buf spare
      = .ret (some [.string (trimNul ((buf.drop 1).take nb)), .uint8 b], none) ∧
    ∀ (buf2 : List Nat) (nb2 : Nat), buf2[0]? = some nb2 →
      Unpack nativeIsLE [112] buf2 spare
        = if buf2.length < nb2 + 1 then .ret (none, some "insufficient buf space for fmt")
          else .ret (some [.string (trimNul ((buf2.drop 1).take nb2))], none) := by
  have hcount : ∀ (bf : List Nat) (n0 : Nat), bf[0]? = some n0 →
      unpackCount bf ⟨0, nativeIsLE, []⟩ [] 112 = ((n0 + 1 : Nat) : Int) := by
    intro bf n0 h0
    have hlt : 0 < bf.length := by
      by_contra hc
      rw [List.getElem?_eq_none (by omega)] at h0
      cases h0
    have hg : bf.getD 0 0 = n0 := by
      rw [List.getD_eq_getElem?_getD, h0]; rfl
    simp only [unpackCount, if_true, hg]
    rw [if_pos (by push_cast; omega)]
    push_cast; rfl
  constructor
  · have hlen : nb + 2 ≤ buf.length := by
      by_contra hc
      rw [List.getElem?_eq_none (by omega)] at hb
      cases hb
    have hfmt : ds ++ [112, 66] = ds ++ 112 :: [66] := rfl
    obtain ⟨k, hk, hkl⟩ : ∃ k : Nat, unpackCount buf ⟨0, nativeIsLE, []⟩ ds 112 = (k : Int)
        ∧ k ≤ buf.length := by
      by_cases hne : ds = []
      · subst hne
        exact ⟨nb + 1, hcount buf nb hnb, by omega⟩
      · exact ⟨digitsVal ds, unpackCount_digits _ _ _ _ hds hne (by have := hn hne; omega),
          hn hne⟩
    rw [Unpack_eq, hfmt, unpackRun_token _ _ _ _ _ _ _ hds (by decide), hk,
      unpackDirective_p _ _ _ _ nb _ hnb (by simpa using hkl) (by simp only; omega)]
    simp only
    rw [unpackRun_byte _ _ _ _ b (by simpa [Nat.add_comm] using hb),
      take_drop_append _ _ _ _ (by omega)]
    simp
  · intro buf2 nb2 h0
    have hlt : 0 < buf2.length := by
      by_contra hc
      rw [List.getElem?_eq_none (by omega)] at h0
      cases h0
    have hfmt : [112] = [] ++ 112 :: [] := rfl
    rw [Unpack_eq, hfmt, unpackRun_token _ _ _ _ _ _ _ (by simp) (by decide), hcount buf2 nb2 h0]
    by_cases hshort : buf2.length < nb2 + 1
    · rw [if_pos hshort, unpackDirective_string_short _ _ _ _ _ _ (Or.inr rfl)
        (by simpa using hshort)]
      rfl
    · rw [if_neg hshort, unpackDirective_p _ _ _ _ nb2 _ h0 (by simp only; omega)
        (by simp only; omega)]
      simp only [unpackRun_nil]
      rw [take_drop_append _ _ _ _ (by omega)]
      simp

/-- Witness for C15: the four-byte buffer that `Pack("4p", buf, "Rio")` fills in
`TestOverUnderflow`, read with the count 2. -/
theorem unpack_pascal_length_byte_witness :
    Unpack true (ascii "2" ++ [112, 66]) [2, 82, 105, 111] []
      = .ret (some [.string (trimNul (([2, 82, 105, 111].drop 1).take 2)), .uint8 111], none) ∧
    ∀ (buf2 : List Nat) (nb2 : Nat), buf2[0]? = some nb2 →
      Unpack true [112] buf2 []
        = if buf2.length < nb2 + 1 then .ret (none, some "insufficient buf space for fmt")
          else .ret (some [.string (trimNul ((buf2.drop 1).take nb2))], none) :=
  unpack_pascal_length_byte true (ascii "2") [2, 82, 105, 111] [] 2 111 (by decide) (by decide)
    (by decide) (by decide) (by decide)

theorem leading_zeros (l : List Nat) :
    ∃ k, l = List.replicate k 0 ++ l.dropWhile (fun c => c = 0) ∧
      (l.dropWhile (fun c => c = 0)).head? ≠ some 0 := by
  induction l with
  | nil => exact ⟨0, rfl, by simp⟩
  | cons a l ih =>
    by_cases ha : a = 0
    · obtain ⟨k, h1, h2⟩ := ih
      refine ⟨k + 1, ?_, ?_⟩
      · subst ha
        simp only [List.dropWhile, decide_True, List.replicate_succ, List.cons_append]
        rw [← h1]
      · subst ha
        simpa [List.dropWhile] using h2
    · refine ⟨0, by simp [List.dropWhile, ha], ?_⟩
      simp [List.dropWhile, ha]

/-- What `bytes.Trim(b, "\x00")` returns: `b` is a run of NUL bytes, the result and a run
of NUL bytes, and the result neither starts nor ends with a NUL byte. -/
theorem trimNul_spec (b : List Nat) :
    ∃ k m, b = List.replicate k 0 ++ trimNul b ++ List.replicate m 0 ∧
      (trimNul b).head? ≠ some 0 ∧ (trimNul b).getLast? ≠ some 0 := by
  obtain ⟨k, h1, h2⟩ := leading_zeros b
  obtain ⟨m, h3, h4⟩ := leading_zeros (b.dropWhile (fun c => c = 0)).reverse
  have h5 : b.dropWhile (fun c => c = 0) = trimNul b ++ List.replicate m 0 := by
    have := congrArg List.reverse h3
    rw [List.reverse_reverse, List.reverse_append, List.reverse_replicate] at this
    exact this
  refine ⟨k, m, ?_, ?_, ?_⟩
  · rw [List.append_assoc, ← h5]
    exact h1
  · cases ht : trimNul b with
    | nil => simp
    | cons a t =>
      rw [h5, ht] at h2
      simpa using h2
  · unfold trimNul
    rw [List.getLast?_reverse]
    exact h4

/-- C16: for every repeat count `n` (any decimal numeral for it) and every buffer of at
least `n` bytes (a Go slice, so shorter than 2^63), `Unpack("<n>s", buf)` returns no error
and exactly one string `t`: `buf[0:n]` is a run of NUL bytes, then `t`, then a run of NUL
bytes, and `t` neither starts nor ends with a NUL byte, so both runs are maximal and the
interior bytes are kept; a span of only NUL bytes yields the empty string. -/
theorem unpack_fixed_string_trims (nativeIsLE : Bool) (ds buf spare : List Nat)
    (hds : ∀ d ∈ ds, IsDigit d) (hne : ds ≠ []) (hroom : digitsVal ds ≤ buf.length)
    (hbuf : buf.length < 2 ^ 63) :
    ∃ t k m, Unpack nativeIsLE (ds ++ [115]) buf spare = .ret (some [.string t], none) ∧
      buf.take (digitsVal ds) = List.replicate k 0 ++ t ++ List.replicate m 0 ∧
      t.head? ≠ some 0 ∧ t.getLast? ≠ some 0 ∧
      ((∀ x ∈ buf.take (digitsVal ds), x = 0) → t = []) := by
  obtain ⟨k, m, h1, h2, h3⟩ := trimNul_spec (buf.take (digitsVal ds))
  refine ⟨trimNul (buf.take (digitsVal ds)), k, m, ?_, h1, h2, h3, fun hz => ?_⟩
  · rw [Unpack_eq, unpackRun_token _ _ _ _ _ _ _ hds (by decide),
      unpackCount_digits _ _ _ _ hds hne (by omega),
      unpackDirective_s _ _ _ _ _ (by simpa using hroom)]
    simp only [unpackRun_nil, List.nil_append]
    rw [take_drop_append _ _ _ _ (by simpa using hroom)]
    simp
  · cases ht : trimNul (buf.take (digitsVal ds)) with
    | nil => rfl
    | cons a t =>
      exfalso
      rw [ht] at h1 h2
      have ha : a = 0 := hz a (by rw [h1]; simp)
      simp [ha] at h2

/-- Witness for C16: leading, interior and trailing NUL bytes in a 6-byte field. -/
theorem unpack_fixed_string_trims_witness :
    ∃ t k m, Unpack true (ascii "6" ++ [115]) [0, 65, 0, 66, 0, 0, 7] []
        = .ret (some [.string t], none) ∧
      [0, 65, 0, 66, 0, 0, 7].take (digitsVal (ascii "6"))
        = List.replicate k 0 ++ t ++ List.replicate m 0 ∧
      t.head? ≠ some 0 ∧ t.getLast? ≠ some 0 ∧
      ((∀ x ∈ [0, 65, 0, 66, 0, 0, 7].take (digitsVal (ascii "6")), x = 0) → t = []) :=
  unpack_fixed_string_trims true (ascii "6") [0, 65, 0, 66, 0, 0, 7] [] (by decide) (by decide)
    (by decide) (by decide)

/-! ## Floats under a byte order that changes in mid-format (C11) -/

/-- A whitespace or byte-order character at the start of the rest of a format. -/
theorem packRun_zero_width (nativeIsLE : Bool) (args : List Value) (o : Nat) (f : List Nat)
    (st : PackState) (ho : o ∈ whitespaceChars ++ orderChars) (hb : st.boff ≤ st.buf.length) :
    packRun nativeIsLE args (o :: f) st
      = packRun nativeIsLE args f { st with encLE := orderAfter nativeIsLE o st.encLE } := by
  obtain ⟨hnd, hp, _⟩ := plain_not_digit (List.mem_append_left _ ho)
  have h := packRun_token nativeIsLE args [] o f st (by simp) hnd
  rw [List.nil_append] at h
  rw [h]
  simp only [packCount, if_true, if_neg hp]
  rw [packDirective_zero_width _ _ _ _ _ ho hb]

/-- A value directive without count whose value `packarg` stores with `putBytes`: the
bytes written at the cursor. -/
theorem packRun_word (nativeIsLE : Bool) (args : List Value) (c : Nat) (f : List Nat)
    (st : PackState) (v : Value) (val n : Nat) (hc : c ∈ valueChars) (hw : width c = n)
    (hn8 : n ≤ 8) (hpk : ∀ sub e, packarg sub c v e = packed (putBytes sub val e n) n)
    (harg : args[st.narg]? = some v) (hroom : st.boff + n ≤ st.buf.length) :
    ∃ out, packRun nativeIsLE args (c :: f) st
        = packRun nativeIsLE args f ⟨out, st.boff + n, st.narg + 1, st.encLE⟩ ∧
      out.length = st.buf.length ∧
      ∀ j, out[j]? = if st.boff ≤ j ∧ j < st.boff + n
        then some (byteAt val st.encLE n (j - st.boff)) else st.buf[j]? := by
  have hs : c ∈ scalarChars := List.mem_cons_of_mem _ hc
  obtain ⟨hnd, hp, _⟩ := plain_not_digit (List.mem_append_right _ hs)
  have hn1 : 1 ≤ n := by rw [← hw]; exact width_pos_of_value hc
  have hboff : st.boff ≤ st.buf.length := by omega
  obtain ⟨sub, h1, h2, h3⟩ := putBytes_spec (st.buf.drop st.boff) val st.encLE n
    (by simp only [List.length_drop]; omega)
  refine ⟨st.buf.take st.boff ++ sub, ?_, splice_length _ _ _ hboff h2, fun j => ?_⟩
  · have h := packRun_token nativeIsLE args [] c f st (by simp) hnd
    rw [List.nil_append] at h
    have hab : argbytes c 1 = (n : Int) := by
      rw [argbytes_scalar _ _ hs (by omega) (by rw [hw]; omega), hw]
      simp
    have h1n : (1 : Int).toNat = 0 + 1 := by decide
    rw [h]
    simp only [packCount, if_true, if_neg hp]
    rw [packDirective_scalar _ _ _ _ _ hs, hab, if_neg (by omega), h1n, packItems,
      if_neg (mem_valueChars_ne_pad hc), if_pos hboff, harg]
    simp only [hpk, h1, packed, packItems]
  · rw [splice_getElem? _ _ _ _ hboff]
    by_cases hj : j < st.boff
    · rw [if_pos hj, if_neg (by omega)]
    · rw [if_neg hj, h3]
      by_cases hj2 : j - st.boff < n
      · rw [if_pos hj2, if_pos (by omega)]
      · rw [if_neg hj2, if_neg (by omega), getElem?_drop_add]
        congr 1; omega

/-- C11 (floats as their IEEE-754 bit patterns): for every `float32` `a` and `d`, `float64`
`b` and `c` and every buffer of at least 24 bytes (a Go slice, so shorter than 2^63),
`Pack("<fd>df", buf, a, b, c, d)` returns no error and writes `bits(a)` little-endian in
`buf[0:4]`, `bits(b)` little-endian in `buf[4:12]`, `bits(c)` big-endian in `buf[12:20]` and
`bits(d)` big-endian in `buf[20:24]`, and `Unpack("<fd>df", buf)` returns the four values
with their types and bit patterns. -/
theorem pack_unpack_floats (nativeIsLE : Bool) (a b c d : Nat) (buf spare : List Nat)
    (ha : a < 2 ^ 32) (hb : b < 2 ^ 64) (hc : c < 2 ^ 64) (hd : d < 2 ^ 32)
    (hroom : 24 ≤ buf.length) (hbuf : buf.length < 2 ^ 63) :
    ∃ out, Pack nativeIsLE (ascii "<fd>df") buf [.float32 a, .float64 b, .float64 c, .float32 d]
        = .ret (out, none) ∧
      (∀ j, j < 4 → out[j]? = some (a / 256 ^ j % 256)) ∧
      (∀ j, j < 8 → out[4 + j]? = some (b / 256 ^ j % 256)) ∧
      (∀ j, j < 8 → out[12 + j]? = some (c / 256 ^ (7 - j) % 256)) ∧
      (∀ j, j < 4 → out[20 + j]? = some (d / 256 ^ (3 - j) % 256)) ∧
      Unpack nativeIsLE (ascii "<fd>df") out spare
        = .ret (some [.float32 a, .float64 b, .float64 c, .float32 d], none) := by
  have hfmt : ascii "<fd>df" = [60, 102, 100, 62, 100, 102] := by decide
  have hma : a % 2 ^ 64 = a := Nat.mod_eq_of_lt (by omega)
  have hmb : b % 2 ^ 64 = b := Nat.mod_eq_of_lt hb
  have hmc : c % 2 ^ 64 = c := Nat.mod_eq_of_lt hc
  have hmd : d % 2 ^ 64 = d := Nat.mod_eq_of_lt (by omega)
  let args : List Value := [.float32 a, .float64 b, .float64 c, .float32 d]
  -- the four stores
  obtain ⟨o1, e1, l1, p1⟩ := packRun_word nativeIsLE args 102 [100, 62, 100, 102]
    ⟨buf, 0, 0, true⟩ (.float32 a) (a % 2 ^ 64) 4 (by decide) rfl (by omega)
    (fun _ _ => rfl) rfl (by show 0 + 4 ≤ buf.length; omega)
  replace l1 : o1.length = buf.length := l1
  obtain ⟨o2, e2, l2, p2⟩ := packRun_word nativeIsLE args 100 [62, 100, 102]
    ⟨o1, 4, 1, true⟩ (.float64 b) (b % 2 ^ 64) 8 (by decide) rfl (by omega)
    (fun _ _ => rfl) rfl (by show 4 + 8 ≤ o1.length; omega)
  replace l2 : o2.length = buf.length := l2.trans l1
  obtain ⟨o3, e3, l3, p3⟩ := packRun_word nativeIsLE args 100 [102]
    ⟨o2, 12, 2, false⟩ (.float64 c) (c % 2 ^ 64) 8 (by decide) rfl (by omega)
    (fun _ _ => rfl) rfl (by show 12 + 8 ≤ o2.length; omega)
  replace l3 : o3.length = buf.length := l3.trans l2
  obtain ⟨o4, e4, l4, p4⟩ := packRun_word nativeIsLE args 102 []
    ⟨o3, 20, 3, false⟩ (.float32 d) (d % 2 ^ 64) 4 (by decide) rfl (by omega)
    (fun _ _ => rfl) rfl (by show 20 + 4 ≤ o3.length; omega)
  replace l4 : o4.length = buf.length := l4.trans l3
  simp only [Nat.zero_add, Nat.reduceAdd] at e1 e2 e3 e4 p1 p2 p3 p4
  have hrun : packRun nativeIsLE args [60, 102, 100, 62, 100, 102] ⟨buf, 0, 0, nativeIsLE⟩
      = .ret (⟨o4, 24, 4, false⟩, none) := by
    rw [packRun_zero_width _ _ _ _ _ (by decide) (Nat.zero_le _)]
    simp only [orderAfter]
    rw [e1, e2, packRun_zero_width _ _ _ _ _ (by decide) (by show 12 ≤ o2.length; omega)]
    simp only [orderAfter]
    rw [e3, e4, packRun_nil]
  -- the round trip
  obtain ⟨out, e, hp, hl, _, hu⟩ := format_roundtrip nativeIsLE args []
    [⟨[], 60⟩, ⟨[], 102⟩, ⟨[], 100⟩, ⟨[], 62⟩, ⟨[], 100⟩, ⟨[], 102⟩] args
    ⟨buf, 0, 0, nativeIsLE⟩ [] (by decide)
    (by simp only [args, typed, Directive.nvals, Directive.count, valueChars]
        simp only [hasType, List.take, List.drop, List.all, List.length, List.isEmpty,
          Nat.reducePow, decide_eq_true_eq, Bool.and_eq_true, Bool.and_true, if_true,
          List.mem_cons, true_or, or_true]
        norm_num at ha hb hc hd ⊢
        omega)
    (by simp) rfl (by simpa [formatSpan, Directive.span, Directive.count, width] using hroom)
    hbuf
  have hft : formatText [⟨[], 60⟩, ⟨[], 102⟩, ⟨[], 100⟩, ⟨[], 62⟩, ⟨[], 100⟩, ⟨[], 102⟩]
      = [60, 102, 100, 62, 100, 102] := rfl
  rw [hft] at hp hu
  have hout : out = o4 := by
    rw [hrun] at hp
    simp only [Run.ret.injEq, Prod.mk.injEq, PackState.mk.injEq] at hp
    exact hp.1.1.symm
  subst hout
  refine ⟨out, ?_, fun j hj => ?_, fun j hj => ?_, fun j hj => ?_, fun j hj => ?_, ?_⟩
  · rw [Pack_eq, hfmt, hrun]
  · rw [p4, if_neg (by omega), p3, if_neg (by omega), p2, if_neg (by omega), p1,
      if_pos (by omega), hma]
    simp [byteAt]
  · rw [p4, if_neg (by omega), p3, if_neg (by omega), p2, if_pos (by omega), hmb]
    simp [byteAt]
  · rw [p4, if_neg (by omega), p3, if_pos (by omega), hmc]
    simp [byteAt]
  · rw [p4, if_pos (by omega), hmd]
    simp [byteAt]
  · rw [Unpack_eq, hfmt, hu out spare ⟨0, nativeIsLE, []⟩ hl rfl rfl (fun _ _ _ => rfl)]
    simp [args]

/-- Witness for C11: the bit patterns of 1.82, 8675.309, 1.134 and 8.0085 of `TestFloats`
in a 24-byte buffer. -/
theorem pack_unpack_floats_witness :
    ∃ out, Pack true (ascii "<fd>df") (List.replicate 24 0)
        [.float32 0x3fe8f5c3, .float64 0x40c0f1a78d4fdf3b, .float64 0x3ff224dd2f1a9fbe,
          .float32 0x410022d1] = .ret (out, none) ∧
      (∀ j, j < 4 → out[j]? = some (0x3fe8f5c3 / 256 ^ j % 256)) ∧
      (∀ j, j < 8 → out[4 + j]? = some (0x40c0f1a78d4fdf3b / 256 ^ j % 256)) ∧
      (∀ j, j < 8 → out[12 + j]? = some (0x3ff224dd2f1a9fbe / 256 ^ (7 - j) % 256)) ∧
      (∀ j, j < 4 → out[20 + j]? = some (0x410022d1 / 256 ^ (3 - j) % 256)) ∧
      Unpack true (ascii "<fd>df") out []
        = .ret (some [.float32 0x3fe8f5c3, .float64 0x40c0f1a78d4fdf3b,
            .float64 0x3ff224dd2f1a9fbe, .float32 0x410022d1], none) :=
  pack_unpack_floats true 0x3fe8f5c3 0x40c0f1a78d4fdf3b 0x3ff224dd2f1a9fbe 0x410022d1
    (List.replicate 24 0) [] (by decide) (by decide) (by decide) (by decide) (by decide)
    (by decide)

/-! ## Errors after a successful prefix (C14, C17) -/

/-- C17: the code breaks the claim.  On the first three bytes of the eight-byte array that
`Pack("5p", ..., "Rio!")` fills, `Unpack("3p", buf)` decodes the list `["Rio!"]` without
error, but `Unpack("3p}", buf)` returns a nil list and the error "insufficient buf space
for fmt" instead of `["Rio!"]` and "unknown format type }": the `p` branch has moved the
cursor past `len(buf)`, so the bounds check of the next directive fails first. -/
theorem unpack_unknown_after_pascal :
    Unpack true (ascii "3p") [4, 82, 105] [111, 33, 0, 0, 0]
      = .ret (some [.string (ascii "Rio!")], none)
    ∧ Unpack true (ascii "3p\x7d") [4, 82, 105] [111, 33, 0, 0, 0]
      = .ret (none, some "insufficient buf space for fmt") := by
  decide

/-- The part of C17 that holds: for every format `g` (not ending in a digit) that `Unpack`
decodes without error into `vs` from a buffer whose capacity equals its length, and every
unknown character `ch`, `Unpack(g ++ ch, buf)` returns `vs` and the error
"unknown format type " followed by `ch`. -/
theorem unpack_unknown_after (nativeIsLE : Bool) (g : List Nat) (ch : Nat) (buf : List Nat)
    (vs : List Value) (hend : ¬ EndsInDigit g) (hch : IsUnknown ch)
    (hg : Unpack nativeIsLE g buf [] = .ret (some vs, none)) :
    Unpack nativeIsLE (g ++ [ch]) buf [] = .ret (some vs, some (unknownFormat ch)) := by
  have hp : ch ≠ 112 := by
    have := hch.2.2.2
    simp only [tableChars, List.mem_cons, List.mem_singleton, List.not_mem_nil, or_false,
      not_or] at this
    omega
  rw [Unpack_eq] at hg
  rw [Unpack_eq, unpackRun_append _ _ _ _ _ _ hend]
  cases h : unpackRun nativeIsLE buf [] g ⟨0, nativeIsLE, []⟩ with
  | panic => rw [h] at hg; cases hg
  | timeout => rw [h] at hg; cases hg
  | ret r =>
    rw [h] at hg
    cases r with
    | done v e => simp at hg
    | next st =>
      simp only [Run.ret.injEq, Prod.mk.injEq, Option.some.injEq, and_true] at hg
      have hb := unpackRun_ret _ _ _ _ _ hend h (Nat.zero_le _)
      have ht := unpackRun_token nativeIsLE buf [] [] ch [] st (by simp) hch.1
      rw [List.nil_append] at ht
      simp only
      rw [ht]
      simp only [unpackCount, if_true, if_neg hp]
      rw [unpackDirective_unknown _ _ _ _ _ _ hch (by omega) hb, hg]

set_option maxRecDepth 8000 in
/-- C14, as stated, fails for a count that overflows the 64-bit `int`: after `B`, which
`Pack` applies successfully, the directive `9223372036854775808s` asks for 2^63 bytes,
more than the three that remain, yet `Pack` panics (the count has wrapped to a negative
number and passes the bounds check) instead of returning the bounds error. -/
theorem pack_overflowed_count_panics :
    Pack true (ascii "B") [0, 0, 0, 0] [.uint8 7] = .ret ([7, 0, 0, 0], none)
    ∧ Pack true (ascii "B9223372036854775808s") [0, 0, 0, 0] [.uint8 7] = .panic := by
  decide

/-- C14 (amended): for every format `g` (not ending in a digit) that `Pack` applies
successfully to the buffer with the arguments, ending in the state `st`, and every
following directive `D` (a scalar directive or `s`, with optional count) whose required
span is below 2^63 and exceeds the bytes remaining after `g`, `Pack(g ++ D, buf, args...)`
returns the error "insufficient buf space for fmt" and the final buffer is exactly the
buffer produced by `Pack(g, buf, args...)`. -/
theorem pack_insufficient_keeps_buffer (nativeIsLE : Bool) (g ds : List Nat) (c : Nat)
    (buf : List Nat) (args : List Value) (st : PackState) (hend : ¬ EndsInDigit g)
    (hds : ∀ d ∈ ds, IsDigit d) (hc : c ∈ scalarChars ∨ c = 115)
    (hg : packRun nativeIsLE args g ⟨buf, 0, 0, nativeIsLE⟩ = .ret (st, none))
    (hov : (Directive.mk ds c).span < 2 ^ 63)
    (hshort : buf.length - st.boff < (Directive.mk ds c).span) :
    Pack nativeIsLE g buf args = .ret (st.buf, none) ∧
    Pack nativeIsLE (g ++ (ds ++ [c])) buf args
      = .ret (st.buf, some "insufficient buf space for fmt") := by
  obtain ⟨hl, hb⟩ := packRun_ret _ _ _ _ _ _ hend hg (Nat.zero_le _)
  simp only at hl
  have hw1 : 1 ≤ width c := by
    rcases hc with hc | rfl
    · exact width_pos_of_scalar hc
    · decide
  have hspan : (Directive.mk ds c).span = width c * (Directive.mk ds c).count := rfl
  have hle : (Directive.mk ds c).count ≤ width c * (Directive.mk ds c).count :=
    Nat.le_mul_of_pos_left _ hw1
  have hnd : ¬ IsDigit c ∧ c ≠ 112 := by
    rcases hc with hc | rfl
    · have := plain_not_digit (List.mem_append_right _ hc)
      exact ⟨this.1, this.2.1⟩
    · exact ⟨by decide, by decide⟩
  have hcnt := (counts_plain args st [] ⟨0, true, []⟩ ⟨ds, c⟩ hnd.2).1
  rw [count_scalar ⟨ds, c⟩ hds (by omega)] at hcnt
  constructor
  · rw [Pack_eq, hg]
  · rw [Pack_eq, packRun_append _ _ _ _ _ hend, hg]
    simp only
    rw [packRun_token _ _ _ _ _ _ hds hnd.1, hcnt]
    simp only
    rcases hc with hc | rfl
    · have hab : argbytes c ((Directive.mk ds c).count : Nat)
          = ((width c * (Directive.mk ds c).count : Nat) : Int) := by
        rw [argbytes_scalar _ _ hc (by omega) (by push_cast at *; omega)]
        push_cast; rfl
      rw [packDirective_scalar _ _ _ _ _ hc, hab, if_pos (by omega)]
      rfl
    · have hw115 : width 115 = 1 := rfl
      rw [hw115, Nat.one_mul] at hspan
      rw [packDirective_string_short _ _ _ _ _ (Or.inl rfl) (by omega)]
      rfl

/-- Witness for C14: `Q` after `B` in a 4-byte buffer. -/
theorem pack_insufficient_keeps_buffer_witness :
    Pack true (ascii "B") [0, 0, 0, 0] [.uint8 7] = .ret ([7, 0, 0, 0], none) ∧
    Pack true (ascii "B" ++ ([] ++ [81])) [0, 0, 0, 0] [.uint8 7]
      = .ret ([7, 0, 0, 0], some "insufficient buf space for fmt") :=
  pack_insufficient_keeps_buffer true (ascii "B") [] 81 [0, 0, 0, 0] [.uint8 7]
    ⟨[7, 0, 0, 0], 1, 1, true⟩ (by decide) (by decide) (by decide) (by decide) (by decide)
    (by decide)

/-! ## The errors that `Pack` and `Unpack` return (C18) -/

theorem packarg_err (sub : List Nat) (c : Nat) (v : Value) (enc : Bool) (out : List Nat)
    (n : Nat) (msg : String) (h : packarg sub c v enc = .ret (out, n, some msg)) :
    msg = unknownFormat c := by
  unfold packarg at h
  split at h
  all_goals first
    | (simp only [Run.ret.injEq, Prod.mk.injEq, Option.some.injEq] at h
       exact h.2.2.symm)
    | (split at h
       · have := (packed_ret _ _ _ _ _ h).2.2
         cases this
       · cases h)

theorem packItems_err (c : Nat) (args : List Value) (k : Nat) (st st2 : PackState)
    (msg : String) (h : packItems c args k st = .ret (st2, some msg)) :
    msg = unknownFormat c := by
  induction k generalizing st with
  | zero => simp [packItems] at h
  | succ k ih =>
    rw [packItems] at h
    split at h
    · split at h
      · exact ih _ h
      · cases h
    · split at h
      · cases harg : args[st.narg]? with
        | none => rw [harg] at h; cases h
        | some arg =>
          rw [harg] at h
          simp only at h
          cases hp : packarg (st.buf.drop st.boff) c arg st.encLE with
          | panic => rw [hp] at h; cases h
          | timeout => rw [hp] at h; cases h
          | ret r =>
            obtain ⟨sub, n, err⟩ := r
            rw [hp] at h
            cases err with
            | none => exact ih _ h
            | some err =>
              simp only [Run.ret.injEq, Prod.mk.injEq, Option.some.injEq] at h
              rw [← h.2]
              exact packarg_err _ _ _ _ _ _ _ hp
      · cases h

theorem packDirective_err (nativeIsLE : Bool) (args : List Value) (c : Nat) (count : Int)
    (st st2 : PackState) (msg : String)
    (h : packDirective nativeIsLE args c count st = .ret (st2, some msg)) :
    msg = insufficient ∨ msg = pascalTooLarge ∨ msg = unknownFormat c := by
  unfold packDirective at h
  simp only at h
  split at h
  · simp only [Run.ret.injEq, Prod.mk.injEq, Option.some.injEq] at h
    exact Or.inl h.2.symm
  · split at h
    all_goals first
      | exact Or.inr (Or.inr (packItems_err _ _ _ _ _ _ h))
      | (simp only [Run.ret.injEq, Prod.mk.injEq] at h
         cases h.2)
      | skip
    · -- 's'
      split at h
      · split at h
        · generalize copyAt st.buf st.boff (st.boff + count.toNat) _ = p at h
          obtain ⟨b, n⟩ := p
          simp only at h
          split at h
          · simp only [Run.ret.injEq, Prod.mk.injEq] at h
            cases h.2
          · cases h
          · cases h
        · cases h
      · cases h
    · -- 'p'
      split at h
      · simp only [Run.ret.injEq, Prod.mk.injEq, Option.some.injEq] at h
        exact Or.inr (Or.inl h.2.symm)
      · split at h
        · split at h
          · split at h
            · generalize copyAt _ _ _ _ = p at h
              obtain ⟨b, n⟩ := p
              simp only at h
              split at h
              · simp only [Run.ret.injEq, Prod.mk.injEq] at h
                cases h.2
              · cases h
              · cases h
            · cases h
          · cases h
        · cases h

theorem packLoop_err (nativeIsLE : Bool) (args : List Value) (fuel : Nat) (fmt : List Nat)
    (st st2 : PackState) (msg : String)
    (h : packLoop nativeIsLE args fuel fmt st = .ret (st2, some msg)) :
    msg = insufficient ∨ msg = pascalTooLarge ∨ ∃ ch, msg = unknownFormat ch := by
  induction fuel generalizing fmt st with
  | zero =>
    cases fmt with
    | nil => simp [packLoop] at h
    | cons c cs => simp [packLoop] at h
  | succ fuel ih =>
    cases fmt with
    | nil => simp [packLoop] at h
    | cons c cs =>
      simp only [packLoop] at h
      split at h
      · split at h
        · cases h
        · split at h
          · exact ih _ _ h
          · rcases packDirective_err _ _ _ _ _ _ _ h with h1 | h1 | h1
            · exact Or.inl h1
            · exact Or.inr (Or.inl h1)
            · exact Or.inr (Or.inr ⟨_, h1⟩)
      · cases h
      · cases h

theorem unpackItems_err (c : Nat) (buf : List Nat) (k : Nat) (st : UnpackState)
    (vals : Option (List Value)) (msg : String)
    (h : unpackItems c buf k st = .ret (.done vals msg)) : msg = unknownFormat c := by
  induction k generalizing st with
  | zero => simp [unpackItems] at h
  | succ k ih =>
    rw [unpackItems] at h
    split at h
    · exact ih _ h
    · cases h
    · cases h
    · simp only [Run.ret.injEq, UnpackStep.done.injEq] at h
      exact h.2.symm

theorem unpackDirective_err (nativeIsLE : Bool) (buf spare : List Nat) (c : Nat) (count : Int)
    (st : UnpackState) (vals : Option (List Value)) (msg : String)
    (h : unpackDirective nativeIsLE buf spare c count st = .ret (.done vals msg)) :
    msg = insufficient ∨ msg = unknownFormat c := by
  unfold unpackDirective at h
  simp only at h
  split at h
  · simp only [Run.ret.injEq, UnpackStep.done.injEq] at h
    exact Or.inl h.2.symm
  · split at h
    all_goals first
      | exact Or.inr (unpackItems_err _ _ _ _ _ _ h)
      | (simp only [Run.ret.injEq] at h
         cases h)
      | skip
    · split at h
      · simp only [Run.ret.injEq] at h
        cases h
      · cases h
    · split at h
      · cases h
      · split at h
        · simp only [Run.ret.injEq] at h
          cases h
        · cases h

theorem unpackLoop_err (nativeIsLE : Bool) (buf spare : List Nat) (fuel : Nat) (fmt : List Nat)
    (st : UnpackState) (vals : Option (List Value)) (msg : String)
    (h : unpackLoop nativeIsLE buf spare fuel fmt st = .ret (.done vals msg)) :
    msg = insufficient ∨ ∃ ch, msg = unknownFormat ch := by
  induction fuel generalizing fmt st with
  | zero =>
    cases fmt with
    | nil => simp [unpackLoop] at h
    | cons c cs => simp [unpackLoop] at h
  | succ fuel ih =>
    cases fmt with
    | nil => simp [unpackLoop] at h
    | cons c cs =>
      simp only [unpackLoop] at h
      split at h
      · cases h
      · split at h
        · exact ih _ _ h
        · rcases unpackDirective_err _ _ _ _ _ _ _ _ h with h1 | h1
          · exact Or.inl h1
          · exact Or.inr ⟨_, h1⟩

set_option maxRecDepth 100000 in
/-- C18, as stated, fails: `Pack("257p", buf, "x")` on a 257-byte buffer returns a third
error, "Pascal string output space cannot be larger than 256 bytes". -/
theorem pack_pascal_too_large :
    Pack true (ascii "257p") (List.replicate 257 0) [.string (ascii "x")]
      = .ret (List.replicate 257 0,
          some "Pascal string output space cannot be larger than 256 bytes") := by
  decide

/-- C18 (amended): for every format string, buffer and argument list, an error returned by
`Pack` is the unknown-directive error ("unknown format type " and a character), the bounds
error "insufficient buf space for fmt", or the error
"Pascal string output space cannot be larger than 256 bytes"; an error returned by `Unpack`
is one of the first two. -/
theorem error_kinds (nativeIsLE : Bool) (fmt buf spare : List Nat) (args : List Value) :
    (∀ out msg, Pack nativeIsLE fmt buf args = .ret (out, some msg) →
      (∃ ch, msg = unknownFormat ch ∧ "unknown format type ".toList <+: msg.toList)
      ∨ msg = "insufficient buf space for fmt"
      ∨ msg = "Pascal string output space cannot be larger than 256 bytes") ∧
    (∀ vals msg, Unpack nativeIsLE fmt buf spare = .ret (vals, some msg) →
      (∃ ch, msg = unknownFormat ch ∧ "unknown format type ".toList <+: msg.toList)
      ∨ msg = "insufficient buf space for fmt") := by
  constructor
  · intro out msg h
    unfold Pack at h
    split at h
    · rename_i st err hl
      simp only [Run.ret.injEq, Prod.mk.injEq] at h
      rw [h.2] at hl
      rcases packLoop_err _ _ _ _ _ _ _ hl with h1 | h1 | ⟨ch, h1⟩
      · exact Or.inr (Or.inl h1)
      · exact Or.inr (Or.inr h1)
      · exact Or.inl ⟨ch, h1, by rw [h1]; exact unknownFormat_starts ch⟩
    · cases h
    · cases h
  · intro vals msg h
    unfold Unpack at h
    split at h
    · simp at h
    · rename_i v e hl
      simp only [Run.ret.injEq, Prod.mk.injEq, Option.some.injEq] at h
      rw [h.2] at hl
      rcases unpackLoop_err _ _ _ _ _ _ _ _ hl with h1 | ⟨ch, h1⟩
      · exact Or.inr h1
      · exact Or.inl ⟨ch, h1, by rw [h1]; exact unknownFormat_starts ch⟩
    · cases h
    · cases h

/-- Witness for C18: the error that `Pack("c", buf, int8(1))` returns. -/
theorem error_kinds_witness :
    (∃ ch, "unknown format type c" = unknownFormat ch
        ∧ "unknown format type ".toList <+: "unknown format type c".toList)
      ∨ "unknown format type c" = "insufficient buf space for fmt"
      ∨ "unknown format type c" = "Pascal string output space cannot be larger than 256 bytes" :=
  (error_kinds true (ascii "c") [0] [] [.int8 1]).1 [0] "unknown format type c" (by decide)

/-! ## `Unpack` on formats without Pascal strings (C19) -/

theorem width_le_eight (c : Nat) : width c ≤ 8 := by
  unfold width
  split <;> omega

theorem unpackItem_other (c : Nat) (buf : List Nat) (st : UnpackState) (hc : c ∉ scalarChars) :
    unpackItem c buf st = none := by
  simp only [scalarChars, valueChars, List.mem_cons, List.mem_singleton, List.not_mem_nil,
    or_false, not_or] at hc
  unfold unpackItem
  split <;> first | omega | rfl

theorem unpackItems_other (c : Nat) (buf : List Nat) (k : Nat) (st : UnpackState)
    (hc : c ∉ scalarChars) :
    unpackItems c buf k st
      = if k = 0 then .ret (.next st) else .ret (.done (some st.args) (unknownFormat c)) := by
  cases k with
  | zero => simp [unpackItems]
  | succ k => simp [unpackItems, unpackItem_other c buf st hc]

theorem unpackDirective_other (nativeIsLE : Bool) (buf spare : List Nat) (c : Nat) (count : Int)
    (st : UnpackState) (hz : c ∉ whitespaceChars ++ orderChars) (hs : c ≠ 115) (hp : c ≠ 112) :
    unpackDirective nativeIsLE buf spare c count st =
      if (buf.length : Int) - st.boff < argbytes c count then .ret (.done none insufficient)
      else unpackItems c buf count.toNat st := by
  simp only [whitespaceChars, orderChars, List.cons_append, List.nil_append, List.mem_cons,
    List.mem_singleton, List.not_mem_nil, or_false, not_or] at hz
  unfold unpackDirective
  simp only
  split
  · rfl
  · split <;> first | omega | rfl

/-- A step of the outer loop of `Unpack` on a directive other than `p` with a count below
2^60 returns, and leaves the cursor within the buffer. -/
theorem unpackDirective_total (nativeIsLE : Bool) (buf spare : List Nat) (c k : Nat)
    (st : UnpackState) (hp : c ≠ 112) (hk : k < 2 ^ 60) (hb : st.boff ≤ buf.length) :
    ∃ r, unpackDirective nativeIsLE buf spare c (k : Int) st = .ret r ∧
      ∀ st2, r = .next st2 → st2.boff ≤ buf.length := by
  by_cases hz : c ∈ whitespaceChars ++ orderChars
  · refine ⟨_, unpackDirective_zero_width _ _ _ _ _ _ hz hb, fun st2 h => ?_⟩
    simp only [UnpackStep.next.injEq] at h
    rw [← h]
    exact hb
  by_cases hs : c = 115
  · subst hs
    by_cases hroom : st.boff + k ≤ buf.length
    · refine ⟨_, unpackDirective_s _ _ _ _ _ hroom, fun st2 h => ?_⟩
      simp only [UnpackStep.next.injEq] at h
      rw [← h]
      exact hroom
    · refine ⟨_, unpackDirective_string_short _ _ _ _ _ _ (Or.inl rfl) (by omega),
        fun st2 h => by cases h⟩
  rw [unpackDirective_other _ _ _ _ _ _ hz hs hp]
  by_cases hchk : (buf.length : Int) - st.boff < argbytes c (k : Int)
  · rw [if_pos hchk]
    exact ⟨_, rfl, fun st2 h => by cases h⟩
  rw [if_neg hchk, Int.toNat_ofNat]
  by_cases hsc : c ∈ scalarChars
  · have hw8 := width_le_eight c
    have hmul : width c * k ≤ 8 * k := Nat.mul_le_mul_right k hw8
    have hab : argbytes c (k : Int) = ((width c * k : Nat) : Int) := by
      rw [argbytes_scalar _ _ hsc (by omega) (by push_cast at *; omega)]
      push_cast; rfl
    rw [hab] at hchk
    simp only [scalarChars, List.mem_cons] at hsc
    rcases hsc with rfl | hvc
    · rw [unpackItems_pad]
      refine ⟨_, rfl, fun st2 h => ?_⟩
      simp only [UnpackStep.next.injEq] at h
      rw [← h]
      simp only [width, Nat.one_mul] at hchk ⊢
      omega
    · obtain ⟨vals, _, hv⟩ := unpackItems_value_ok c hvc buf k st (by omega)
      rw [hv]
      refine ⟨_, rfl, fun st2 h => ?_⟩
      simp only [UnpackStep.next.injEq] at h
      rw [← h]
      simp only
      omega
  · rw [unpackItems_other _ _ _ _ hsc]
    by_cases hk0 : k = 0
    · rw [if_pos hk0]
      refine ⟨_, rfl, fun st2 h => ?_⟩
      simp only [UnpackStep.next.injEq] at h
      rw [← h]
      exact hb
    · rw [if_neg hk0]
      exact ⟨_, rfl, fun st2 h => by cases h⟩

/-- The loop of `Unpack` on a format without Pascal strings and with counts below 2^60
returns, and leaves the cursor within the buffer. -/
theorem unpackRun_total (nativeIsLE : Bool) (buf spare : List Nat) (ds : List Directive)
    (st : UnpackState) (h : ∀ d ∈ ds, d.bounded) (hb : st.boff ≤ buf.length) :
    ∃ r, unpackRun nativeIsLE buf spare (formatText ds) st = .ret r ∧
      ∀ st2, r = .next st2 → st2.boff ≤ buf.length := by
  induction ds generalizing st with
  | nil =>
    refine ⟨_, unpackRun_nil _ _ _ _, fun st2 h2 => ?_⟩
    simp only [UnpackStep.next.injEq] at h2
    rw [← h2]
    exact hb
  | cons d ds ih =>
    obtain ⟨h1, h2, h3, h4⟩ := h d (List.mem_cons_self _ _)
    have hcount : d.count < 2 ^ 60 := by
      unfold Directive.count
      split <;> omega
    have hcnt := (counts_plain [] ⟨[], 0, 0, true⟩ buf st d h3).2
    rw [count_scalar d h1 (by omega)] at hcnt
    obtain ⟨r, hr, hr2⟩ := unpackDirective_total nativeIsLE buf spare d.char d.count st h3
      hcount hb
    rw [formatText, unpackRun_token _ _ _ _ _ _ _ h1 h2, hcnt, hr]
    cases r with
    | done v e => exact ⟨_, rfl, fun st2 h => by cases h⟩
    | next st1 =>
      simp only
      exact ih st1 (fun x hx => h x (List.mem_cons_of_mem _ hx)) (hr2 st1 rfl)

/-- Every format that does not end in a digit is the text of a list of directives. -/
theorem exists_directives (f : List Nat) (hend : ¬ EndsInDigit f) :
    ∃ ds : List Directive, formatText ds = f ∧
      ∀ d ∈ ds, (∀ x ∈ d.digits, IsDigit x) ∧ ¬ IsDigit d.char := by
  obtain ⟨n, hn⟩ : ∃ n, f.length = n := ⟨_, rfl⟩
  induction n using Nat.strong_induction_on generalizing f with
  | _ n ih =>
    by_cases hne : f = []
    · exact ⟨[], by rw [hne]; rfl, by simp⟩
    · obtain ⟨digits, c, rest, rfl, h2, h3, h4, h5⟩ := exists_token f hne hend
      obtain ⟨ds, hd1, hd2⟩ := ih rest.length (by omega) rest h4 rfl
      refine ⟨⟨digits, c⟩ :: ds, by rw [formatText, hd1], ?_⟩
      intro d hd
      rcases List.mem_cons.mp hd with rfl | hd
      · exact ⟨h2, h3⟩
      · exact hd2 d hd

/-- C19: for every format that contains no `p`, does not end in a decimal digit and whose
repeat counts are all below 2^60 (the text of a list of such directives), and for every
buffer, `Unpack` returns a value list or an error, never a panic of an index or slice out
of range; the run up to every directive boundary returns as well, and whenever it goes on
the read cursor satisfies `cursor <= len(buf)`. -/
theorem unpack_total (nativeIsLE : Bool) (ds : List Directive) (buf spare : List Nat)
    (h : ∀ d ∈ ds, d.bounded) :
    (∃ vals err, Unpack nativeIsLE (formatText ds) buf spare = .ret (vals, err)) ∧
    ∀ ds1 ds2, ds = ds1 ++ ds2 →
      ∃ r, unpackRun nativeIsLE buf spare (formatText ds1) ⟨0, nativeIsLE, []⟩ = .ret r ∧
        ∀ st, r = .next st → st.boff ≤ buf.length := by
  constructor
  · obtain ⟨r, hr, _⟩ := unpackRun_total nativeIsLE buf spare ds ⟨0, nativeIsLE, []⟩ h
      (Nat.zero_le _)
    rw [Unpack_eq, hr]
    cases r with
    | done v e => exact ⟨_, _, rfl⟩
    | next st => exact ⟨_, _, rfl⟩
  · intro ds1 ds2 hds
    exact unpackRun_total nativeIsLE buf spare ds1 ⟨0, nativeIsLE, []⟩
      (fun d hd => h d (by rw [hds]; exact List.mem_append_left _ hd)) (Nat.zero_le _)

/-- Witness for C19: the format `3h s 2} Q` on a 7-byte buffer. -/
theorem unpack_total_witness :
    (∃ vals err, Unpack true
        (formatText [⟨[51], 104⟩, ⟨[], 32⟩, ⟨[], 115⟩, ⟨[50], 125⟩, ⟨[], 81⟩])
        [1, 2, 3, 4, 5, 6, 7] [] = .ret (vals, err)) ∧
    ∀ ds1 ds2, [⟨[51], 104⟩, ⟨[], 32⟩, ⟨[], 115⟩, ⟨[50], 125⟩, ⟨[], 81⟩] = ds1 ++ ds2 →
      ∃ r, unpackRun true [1, 2, 3, 4, 5, 6, 7] [] (formatText ds1) ⟨0, true, []⟩ = .ret r ∧
        ∀ st, r = .next st → st.boff ≤ [1, 2, 3, 4, 5, 6, 7].length :=
  unpack_total true [⟨[51], 104⟩, ⟨[], 32⟩, ⟨[], 115⟩, ⟨[50], 125⟩, ⟨[], 81⟩]
    [1, 2, 3, 4, 5, 6, 7] [] (by decide)

end Gostruct
